import Mathlib

/-!
# `sc::list<T>`: a doubly linked list bounded by two sentinel nodes

Shallow embedding of `include/list.h`.

* Memory is a `Heap`: a finite table of cells.  A pointer is a natural number,
  `nullptr` is `0`, and address `p + 1` names the cell of index `p`.  `new`
  takes the first address after the table, `delete` empties a cell, and every
  access through a pointer whose cell is empty (never allocated, or freed)
  yields `none`: the embedding of undefined behaviour.
* A `list` object is the triple of its fields `m_size`, `m_head`, `m_tail`;
  its nodes live in the heap, so that several lists can share one heap.
* Every member function takes the object and the heap and returns `none` on
  an invalid access, or the updated object and heap.
* Loops that chase pointers take a `fuel` argument (one unit per loop test);
  loops with a counted bound recurse on the bound.
* `int m_size` is embedded as an unbounded `Int` and `size_type` values as
  `Int` too: signed overflow is undefined in C++ and needs more than `2^31`
  live nodes, and the conversion `int → unsigned long` of `size()` is the
  identity on the non-negative sizes.
-/

namespace sc

/-! ## Definitions -/

/-- The `struct Node` of the list: one value and the two links. -/
structure Node (α : Type) where
  data : α
  prev : Nat
  next : Nat
  deriving DecidableEq, Repr

/-- The null pointer. -/
def nullptr : Nat := 0

/-- Memory: cell `p` of the table is the node at address `p + 1`, or `none` when that
address has been freed. -/
abbrev Heap (α : Type) := List (Option (Node α))

namespace Heap

variable {α : Type}

/-- Dereference a pointer: `none` for `nullptr`, an address never allocated, or a freed one. -/
def read (h : Heap α) : Nat → Option (Node α)
  | 0 => none
  | p + 1 => (h[p]?).join

/-- Overwrite the cell of an address (no effect on `nullptr`). -/
def store (h : Heap α) : Nat → Option (Node α) → Heap α
  | 0, _ => h
  | p + 1, c => h.set p c

/-- The operator `new Node(...)`: the node is placed at the first address after the table. -/
def alloc (h : Heap α) (n : Node α) : Nat × Heap α :=
  (h.length + 1, h ++ [some n])

/-- The operator `delete p`: the cell becomes empty; freeing an empty cell is invalid. -/
def free (h : Heap α) (p : Nat) : Option (Heap α) :=
  match h.read p with
  | some _ => some (h.store p none)
  | none => none

/-- Read `p->next`. -/
def nextOf (h : Heap α) (p : Nat) : Option Nat := (h.read p).map Node.next

/-- Read `p->prev`. -/
def prevOf (h : Heap α) (p : Nat) : Option Nat := (h.read p).map Node.prev

/-- Read `p->data`. -/
def dataOf (h : Heap α) (p : Nat) : Option α := (h.read p).map Node.data

/-- The assignment `p->next = v`. -/
def setNext (h : Heap α) (p v : Nat) : Option (Heap α) :=
  match h.read p with
  | some n => some (h.store p (some { n with next := v }))
  | none => none

/-- The assignment `p->prev = v`. -/
def setPrev (h : Heap α) (p v : Nat) : Option (Heap α) :=
  match h.read p with
  | some n => some (h.store p (some { n with prev := v }))
  | none => none

/-- The assignment `p->data = v`. -/
def setData (h : Heap α) (p : Nat) (v : α) : Option (Heap α) :=
  match h.read p with
  | some n => some (h.store p (some { n with data := v }))
  | none => none

end Heap

/-- The data members of a `sc::list<T>` object. -/
structure list where
  m_size : Int
  m_head : Nat
  m_tail : Nat
  deriving DecidableEq, Repr

/-- The class `list::iterator`: a wrapped node pointer. -/
structure iterator where
  it : Nat
  deriving DecidableEq, Repr

/-- The class `list::const_iterator`: a wrapped node pointer. -/
structure const_iterator where
  it : Nat
  deriving DecidableEq, Repr

/-- What a call of `front()` or `back()` produces: a value, or the thrown `std::runtime_error`. -/
inductive Access (α : Type) where
  | value (v : α)
  | runtime_error (what : String)
  deriving DecidableEq, Repr

section ops

variable {α : Type}

/-! ### Iterators: each stepping operator returns `(returned iterator, updated *this)` -/

/-- Pre-increment `++it` of `iterator`. -/
def iterator.preinc (self : iterator) (h : Heap α) : Option (iterator × iterator) := do
  let n ← h.nextOf self.it
  pure (⟨n⟩, ⟨n⟩)

/-- Post-increment `it++` of `iterator`. -/
def iterator.postinc (self : iterator) (h : Heap α) : Option (iterator × iterator) := do
  let temp := self
  let n ← h.nextOf self.it
  pure (temp, ⟨n⟩)

/-- Pre-decrement `--it` of `iterator`. -/
def iterator.predec (self : iterator) (h : Heap α) : Option (iterator × iterator) := do
  let p ← h.prevOf self.it
  pure (⟨p⟩, ⟨p⟩)

/-- Post-decrement `it--` of `iterator`. -/
def iterator.postdec (self : iterator) (h : Heap α) : Option (iterator × iterator) := do
  let temp := self
  let p ← h.prevOf self.it
  pure (temp, ⟨p⟩)

/-- Dereference `*it` of `iterator`. -/
def iterator.deref (self : iterator) (h : Heap α) : Option α := h.dataOf self.it

/-- Comparison `a == b` of `iterator`. -/
def iterator.eq (self ptr : iterator) : Bool := decide (self.it = ptr.it)

/-- Comparison `a != b` of `iterator`. -/
def iterator.ne (self ptr : iterator) : Bool := decide (self.it ≠ ptr.it)

/-- Pre-increment `++it` of `const_iterator`. -/
def const_iterator.preinc (self : const_iterator) (h : Heap α) :
    Option (const_iterator × const_iterator) := do
  let n ← h.nextOf self.it
  pure (⟨n⟩, ⟨n⟩)

/-- Post-increment `it++` of `const_iterator`. -/
def const_iterator.postinc (self : const_iterator) (h : Heap α) :
    Option (const_iterator × const_iterator) := do
  let temp := self
  let n ← h.nextOf self.it
  pure (temp, ⟨n⟩)

/-- Pre-decrement `--it` of `const_iterator`. -/
def const_iterator.predec (self : const_iterator) (h : Heap α) :
    Option (const_iterator × const_iterator) := do
  let p ← h.prevOf self.it
  pure (⟨p⟩, ⟨p⟩)

/-- Post-decrement `it--` of `const_iterator`. -/
def const_iterator.postdec (self : const_iterator) (h : Heap α) :
    Option (const_iterator × const_iterator) := do
  let temp := self
  let p ← h.prevOf self.it
  pure (temp, ⟨p⟩)

/-- Dereference `*it` of `const_iterator`. -/
def const_iterator.deref (self : const_iterator) (h : Heap α) : Option α := h.dataOf self.it

/-- Comparison `a == b` of `const_iterator`. -/
def const_iterator.eq (self ptr : const_iterator) : Bool := decide (self.it = ptr.it)

/-- Comparison `a != b` of `const_iterator`. -/
def const_iterator.ne (self ptr : const_iterator) : Bool := decide (self.it ≠ ptr.it)

/-! ### Common operations -/

/-- The member `size()`. -/
def list.size (self : list) : Int := self.m_size

/-- The member `empty()`: `m_head->next == m_tail`. -/
def list.empty (self : list) (h : Heap α) : Option Bool := do
  let n ← h.nextOf self.m_head
  pure (decide (n = self.m_tail))

/-- The member `begin()`. -/
def list.begin (self : list) (h : Heap α) : Option iterator := do
  let n ← h.nextOf self.m_head
  pure ⟨n⟩

/-- The member `end()`. -/
def list.end (self : list) : iterator := ⟨self.m_tail⟩

/-- The member `cbegin()`. -/
def list.cbegin (self : list) (h : Heap α) : Option const_iterator := do
  let n ← h.nextOf self.m_head
  pure ⟨n⟩

/-- The member `cend()`. -/
def list.cend (self : list) : const_iterator := ⟨self.m_tail⟩

/-- The member `push_front(value)`. -/
def list.push_front (self : list) (value : α) (h : Heap α) : Option (list × Heap α) := do
  let hn ← h.nextOf self.m_head
  let (node, h) := h.alloc ⟨value, self.m_head, hn⟩
  let h ← h.setNext self.m_head node
  let nn ← h.nextOf node
  let h ← h.setPrev nn node
  pure ({ self with m_size := self.m_size + 1 }, h)

/-- The member `push_back(value)`. -/
def list.push_back (self : list) (value : α) (h : Heap α) : Option (list × Heap α) := do
  let self := { self with m_size := self.m_size + 1 }
  let (target, h) := h.alloc ⟨value, nullptr, nullptr⟩
  let h ← h.setNext target self.m_tail
  let tp ← h.prevOf self.m_tail
  let h ← h.setNext tp target
  let tp ← h.prevOf self.m_tail
  let h ← h.setPrev target tp
  let h ← h.setPrev self.m_tail target
  pure (self, h)

/-- The member `pop_back()`. -/
def list.pop_back (self : list) (h : Heap α) : Option (list × Heap α) := do
  let hn ← h.nextOf self.m_head
  if hn = self.m_tail then pure (self, h) else
  let target ← h.prevOf self.m_tail
  let self := { self with m_size := self.m_size - 1 }
  let tp ← h.prevOf target
  let h ← h.setPrev self.m_tail tp
  let tp ← h.prevOf self.m_tail
  let h ← h.setNext tp self.m_tail
  let h ← h.free target
  pure (self, h)

/-- The member `pop_front()`. -/
def list.pop_front (self : list) (h : Heap α) : Option (list × Heap α) := do
  let hn ← h.nextOf self.m_head
  if hn = self.m_tail then pure (self, h) else
  let target ← h.nextOf self.m_head
  let self := { self with m_size := self.m_size - 1 }
  let tn ← h.nextOf target
  let h ← h.setNext self.m_head tn
  let tn ← h.nextOf target
  let h ← h.setPrev tn self.m_head
  let h ← h.free target
  pure (self, h)

/-- The member `back()`. -/
def list.back (self : list) (h : Heap α) : Option (Access α) := do
  let hn ← h.nextOf self.m_head
  if hn = self.m_tail then pure (Access.runtime_error "Invalid Action!") else
  let tp ← h.prevOf self.m_tail
  let d ← h.dataOf tp
  pure (Access.value d)

/-- The member `front()`. -/
def list.front (self : list) (h : Heap α) : Option (Access α) := do
  let hn ← h.nextOf self.m_head
  if hn = self.m_tail then pure (Access.runtime_error "Invalid Action!") else
  let hn ← h.nextOf self.m_head
  let d ← h.dataOf hn
  pure (Access.value d)

/-- The loop of `clear()`, entered with `aux`. -/
def list.clear_loop (self : list) : Nat → Nat → Heap α → Option (Heap α)
  | 0, _, _ => none
  | fuel + 1, aux, h =>
    if aux ≠ self.m_tail then do
      let target := aux
      let aux ← h.nextOf aux
      let h ← h.setNext self.m_head aux
      let h ← h.setPrev aux self.m_head
      let h ← h.free target
      list.clear_loop self fuel aux h
    else some h

/-- The member `clear()`. -/
def list.clear (self : list) (fuel : Nat) (h : Heap α) : Option (list × Heap α) := do
  let aux ← h.nextOf self.m_head
  let h ← self.clear_loop fuel aux h
  pure ({ self with m_size := 0 }, h)

/-- The loop of `assign(value)`, entered with `temp`. -/
def list.assign_loop (self : list) (value : α) : Nat → Nat → Heap α → Option (Heap α)
  | 0, _, _ => none
  | fuel + 1, temp, h =>
    if temp ≠ self.m_tail then do
      let h ← h.setData temp value
      let temp ← h.nextOf temp
      list.assign_loop self value fuel temp h
    else some h

/-- The member `assign(value)`. -/
def list.assign (self : list) (value : α) (fuel : Nat) (h : Heap α) : Option (list × Heap α) := do
  let hn ← h.nextOf self.m_head
  if hn = self.m_tail then pure (self, h) else
  let temp ← h.nextOf self.m_head
  let h ← self.assign_loop value fuel temp h
  pure (self, h)

/-- The loop `while(first != last){ push_back(*first); first++; }` over an external range, and
the loop `for(i < ilist.size()) push_back(*(ilist.begin()+i))` over an initializer list: `S`
lists the values of the range in order. -/
def list.push_back_each (self : list) : List α → Heap α → Option (list × Heap α)
  | [], h => some (self, h)
  | x :: S, h => do
    let (self, h) ← self.push_back x h
    list.push_back_each self S h

/-- The loop `for(int i = 0; i < count; i++) push_back(value)` of `assign(count, value)`.  The
counter `int i` is unbounded like `m_size`: it overflows only past `2^31` pushed nodes. -/
def list.push_back_count (self : list) (value : α) : Nat → Heap α → Option (list × Heap α)
  | 0, h => some (self, h)
  | count + 1, h => do
    let (self, h) ← self.push_back value h
    list.push_back_count self value count h

/-- The member `assign(count, value)`. -/
def list.assign_count (self : list) (count : Nat) (value : α) (fuel : Nat) (h : Heap α) :
    Option (list × Heap α) := do
  let (self, h) ← self.clear fuel h
  self.push_back_count value count h

/-- The member `assign(first, last)`. -/
def list.assign_range (self : list) (S : List α) (fuel : Nat) (h : Heap α) :
    Option (list × Heap α) := do
  let (self, h) ← self.clear fuel h
  self.push_back_each S h

/-- The member `assign(ilist)`. -/
def list.assign_ilist (self : list) (ilist : List α) (fuel : Nat) (h : Heap α) :
    Option (list × Heap α) := do
  let (self, h) ← self.clear fuel h
  self.push_back_each ilist h

/-! ### Operations that take iterators -/

/-- The member `insert(pos, value)`; the result carries the returned iterator. -/
def list.insert (self : list) (pos : iterator) (value : α) (h : Heap α) :
    Option (iterator × list × Heap α) := do
  let toReturn := pos
  let (_, toReturn) ← toReturn.postdec h
  let (target, h) := h.alloc ⟨value, nullptr, nullptr⟩
  let h ← h.setNext target pos.it
  let pp ← h.prevOf pos.it
  let h ← h.setNext pp target
  let pp ← h.prevOf pos.it
  let h ← h.setPrev target pp
  let h ← h.setPrev pos.it target
  pure (toReturn, { self with m_size := self.m_size + 1 }, h)

/-- The loop of `insert(pos, first, last)` and of `insert(pos, ilist)`: one `insert(pos, x)`
for each value `x` of the range, in order. -/
def list.insert_each (self : list) (pos : iterator) : List α → Heap α → Option (list × Heap α)
  | [], h => some (self, h)
  | x :: S, h => do
    let (_, self, h) ← self.insert pos x h
    list.insert_each self pos S h

/-- The member `insert(pos, first, last)`. -/
def list.insert_range (self : list) (pos : iterator) (S : List α) (h : Heap α) :
    Option (iterator × list × Heap α) := do
  let toReturn := pos
  let (_, toReturn) ← toReturn.postdec h
  let (self, h) ← self.insert_each pos S h
  pure (toReturn, self, h)

/-- The member `insert(pos, ilist)`. -/
def list.insert_ilist (self : list) (pos : iterator) (ilist : List α) (h : Heap α) :
    Option (iterator × list × Heap α) := do
  let toReturn := pos
  let (_, toReturn) ← toReturn.postdec h
  let (self, h) ← self.insert_each pos ilist h
  pure (toReturn, self, h)

/-- The member `erase(pos)`; the result carries the returned iterator. -/
def list.erase (self : list) (pos : iterator) (h : Heap α) :
    Option (iterator × list × Heap α) := do
  let pp ← h.prevOf pos.it
  let pn ← h.nextOf pos.it
  let h ← h.setNext pp pn
  let pn ← h.nextOf pos.it
  let pp ← h.prevOf pos.it
  let h ← h.setPrev pn pp
  let pn ← h.nextOf pos.it
  let toReturn : iterator := ⟨pn⟩
  let self := { self with m_size := self.m_size - 1 }
  let h ← h.free pos.it
  pure (toReturn, self, h)

/-- The member `erase(first, last)`. -/
def list.erase_range (self : list) (last : iterator) :
    Nat → iterator → Heap α → Option (iterator × list × Heap α)
  | 0, _, _ => none
  | fuel + 1, first, h =>
    if first.ne last then do
      let (_, self, h) ← self.erase first h
      let (_, first) ← first.postinc h
      list.erase_range self last fuel first h
    else some (last, self, h)

/-! ### Constructors and assignment -/

/-- The default constructor `list()`. -/
def list.ctor [Inhabited α] (h : Heap α) : Option (list × Heap α) := do
  let (m_head, h) := h.alloc ⟨default, nullptr, nullptr⟩
  let (m_tail, h) := h.alloc ⟨default, nullptr, nullptr⟩
  let h ← h.setNext m_head m_tail
  let h ← h.setPrev m_tail m_head
  pure (⟨0, m_head, m_tail⟩, h)

/-- The loop `for(auto i(0u); i < count; i++)` of the constructor `list(count)`, with `n`
iterations left (the counter does not wrap for `count < 2^32`). -/
def list.ctor_count_loop [Inhabited α] (self : list) : Nat → Heap α → Option (Heap α)
  | 0, h => some h
  | n + 1, h => do
    let (node, h) := h.alloc ⟨default, nullptr, nullptr⟩
    let h ← h.setNext node self.m_tail
    let h ← h.setNext self.m_head node
    let h ← h.setPrev node self.m_head
    let h ← h.setPrev self.m_tail node
    list.ctor_count_loop self n h

/-- The constructor `list(count)`: `m_size = count`, then the loop. -/
def list.ctor_count [Inhabited α] (count : Nat) (h : Heap α) : Option (list × Heap α) := do
  let (m_head, h) := h.alloc ⟨default, nullptr, nullptr⟩
  let (m_tail, h) := h.alloc ⟨default, nullptr, nullptr⟩
  let h ← h.setNext m_head m_tail
  let h ← h.setPrev m_tail m_head
  let self : list := ⟨(count : Int), m_head, m_tail⟩
  let h ← self.ctor_count_loop count h
  pure (self, h)

/-- The constructor `list(first, last)`; `S` lists the values of the range. -/
def list.ctor_range [Inhabited α] (S : List α) (h : Heap α) : Option (list × Heap α) := do
  let (m_head, h) := h.alloc ⟨default, nullptr, nullptr⟩
  let (m_tail, h) := h.alloc ⟨default, nullptr, nullptr⟩
  let h ← h.setNext m_head m_tail
  let h ← h.setPrev m_tail m_head
  let self : list := ⟨0, m_head, m_tail⟩
  self.push_back_each S h

/-- The loop of the copy constructor and of the copy assignment, entered with `other_aux`. -/
def list.copy_loop (other : list) : Nat → list → Nat → Heap α → Option (list × Heap α)
  | 0, _, _, _ => none
  | fuel + 1, self, other_aux, h =>
    if other_aux ≠ other.m_tail then do
      let d ← h.dataOf other_aux
      let (self, h) ← self.push_back d h
      let other_aux ← h.nextOf other_aux
      list.copy_loop other fuel self other_aux h
    else some (self, h)

/-- The copy constructor `list(other)`. -/
def list.ctor_copy [Inhabited α] (other : list) (fuel : Nat) (h : Heap α) :
    Option (list × Heap α) := do
  let (m_head, h) := h.alloc ⟨default, nullptr, nullptr⟩
  let (m_tail, h) := h.alloc ⟨default, nullptr, nullptr⟩
  let self : list := ⟨0, m_head, m_tail⟩
  let h ← h.setNext m_head m_tail
  let h ← h.setPrev m_tail m_head
  let onext ← h.nextOf other.m_head
  if onext ≠ other.m_tail then do
    let other_aux ← h.nextOf other.m_head
    list.copy_loop other fuel self other_aux h
  else pure (self, h)

/-- The constructor `list(ilist)`. -/
def list.ctor_ilist [Inhabited α] (ilist : List α) (h : Heap α) : Option (list × Heap α) := do
  let (m_head, h) := h.alloc ⟨default, nullptr, nullptr⟩
  let (m_tail, h) := h.alloc ⟨default, nullptr, nullptr⟩
  let self : list := ⟨0, m_head, m_tail⟩
  let h ← h.setNext m_head m_tail
  let h ← h.setPrev m_tail m_head
  self.push_back_each ilist h

/-- The copy assignment `*this = other`; `clear_fuel` bounds the loop of `clear()` and `fuel`
the copy loop. -/
def list.operator_assign (self other : list) (clear_fuel fuel : Nat) (h : Heap α) :
    Option (list × Heap α) := do
  let (self, h) ← self.clear clear_fuel h
  let other_aux ← h.nextOf other.m_head
  list.copy_loop other fuel self other_aux h

/-- The assignment `*this = ilist`. -/
def list.operator_assign_ilist (self : list) (ilist : List α) (fuel : Nat) (h : Heap α) :
    Option (list × Heap α) := do
  let (self, h) ← self.clear fuel h
  self.push_back_each ilist h

/-! ### Comparison -/

/-- The loop `for(size_t i = 0; i < lhs.size(); i++)` of `operator==`, with `n` iterations
left. -/
def operator_eq_loop [DecidableEq α] (h : Heap α) :
    Nat → const_iterator → const_iterator → Option Bool
  | 0, _, _ => some true
  | n + 1, l, r => do
    let a ← l.deref h
    let b ← r.deref h
    if a ≠ b then pure false else
    let (_, l) ← l.postinc h
    let (_, r) ← r.postinc h
    operator_eq_loop h n l r

/-- The non-member `operator==(lhs, rhs)`. -/
def operator_eq [DecidableEq α] (lhs rhs : list) (h : Heap α) : Option Bool := do
  let l ← lhs.cbegin h
  let r ← rhs.cbegin h
  if lhs.size = rhs.size then
    operator_eq_loop h lhs.size.toNat l r
  else pure false

/-- The loop `for(size_t i = 0; i < lhs.size(); i++)` of `operator!=`, with `n` iterations
left. -/
def operator_ne_loop [DecidableEq α] (h : Heap α) :
    Nat → const_iterator → const_iterator → Option Bool
  | 0, _, _ => some false
  | n + 1, l, r => do
    let a ← l.deref h
    let b ← r.deref h
    if a ≠ b then pure true else
    let (_, l) ← l.postinc h
    let (_, r) ← r.postinc h
    operator_ne_loop h n l r

/-- The non-member `operator!=(lhs, rhs)`. -/
def operator_ne [DecidableEq α] (lhs rhs : list) (h : Heap α) : Option Bool := do
  let l ← lhs.cbegin h
  let r ← rhs.cbegin h
  if lhs.size = rhs.size then
    operator_ne_loop h lhs.size.toNat l r
  else pure true

/-! ### Forward iteration -/

/-- The client loop `for(it = begin(); it != end(); ++it) visit(*it)`, from `it` on: the values
visited, in order. -/
def traverse_loop (h : Heap α) (last : iterator) : Nat → iterator → Option (List α)
  | 0, _ => none
  | fuel + 1, it =>
    if it.ne last then do
      let x ← it.deref h
      let (_, it) ← it.preinc h
      let rest ← traverse_loop h last fuel it
      pure (x :: rest)
    else some []

/-- Forward iteration from `begin()` to `end()`. -/
def list.traverse (self : list) (fuel : Nat) (h : Heap α) : Option (List α) := do
  let b ← self.begin h
  traverse_loop h self.end fuel b

end ops

/-! ### Specification predicates -/

section predicates

variable {α : Type}

/-- A live address: its cell holds a node. -/
def Heap.Live (h : Heap α) (p : Nat) : Prop := (h.read p).isSome

/-- Two adjacent nodes of a chain: `a->next == b` and `b->prev == a`. -/
def Link (h : Heap α) (a b : Nat) : Prop := h.nextOf a = some b ∧ h.prevOf b = some a

/-- The chain of a list whose live nodes are at the addresses `ps`, in order: the head sentinel,
the live nodes, the tail sentinel. -/
def cells (l : list) (ps : List Nat) : List Nat := l.m_head :: (ps ++ [l.m_tail])

/-- The links of the list are well-formed, with live nodes at `ps` in order: the nodes of the
chain are pairwise distinct and each one is linked to the following one in both directions. -/
def Linked (h : Heap α) (l : list) (ps : List Nat) : Prop :=
  (cells l ps).Nodup ∧ (cells l ps).Chain' (Link h)

/-- The list `l` is well-formed in the heap `h` and its live nodes are, in order, the pairs
`(address, value)` of `ns`; `m_size` counts them. -/
def Rep (h : Heap α) (l : list) (ns : List (Nat × α)) : Prop :=
  Linked h l (ns.map Prod.fst) ∧ (∀ e ∈ ns, h.dataOf e.1 = some e.2) ∧ l.m_size = ns.length

/-- A well-formed list: following `next` from the head sentinel reaches the tail sentinel after
exactly `m_size` live nodes, and adjacent nodes point at each other. -/
def WellFormed (h : Heap α) (l : list) : Prop := ∃ ns : List (Nat × α), Rep h l ns

/-- The heap `h'` agrees with `h` on every address of the table of `h` that is not in `cs`: the
cells outside `cs` are untouched. -/
def Frame (h h' : Heap α) (cs : List Nat) : Prop :=
  ∀ x, x ≤ h.length → x ∉ cs →
    h'.nextOf x = h.nextOf x ∧ h'.prevOf x = h.prevOf x ∧ h'.dataOf x = h.dataOf x

instance (h : Heap α) (a b : Nat) : Decidable (Link h a b) :=
  inferInstanceAs (Decidable (h.nextOf a = some b ∧ h.prevOf b = some a))

/-- Deciding a chain of links by walking along it. -/
def decideChain (h : Heap α) : (cs : List Nat) → Decidable (cs.Chain' (Link h))
  | [] => isTrue List.chain'_nil
  | [a] => isTrue (List.chain'_singleton a)
  | a :: b :: rest =>
    match (inferInstance : Decidable (Link h a b)), decideChain h (b :: rest) with
    | isTrue h1, isTrue h2 => isTrue (List.chain'_cons.mpr ⟨h1, h2⟩)
    | isFalse h1, _ => isFalse (fun hc => h1 (List.chain'_cons.mp hc).1)
    | isTrue _, isFalse h2 => isFalse (fun hc => h2 (List.chain'_cons.mp hc).2)

instance (h : Heap α) (l : list) (ps : List Nat) : Decidable (Linked h l ps) :=
  @instDecidableAnd _ _ (inferInstance : Decidable (cells l ps).Nodup) (decideChain h (cells l ps))

instance [DecidableEq α] (h : Heap α) (l : list) (ns : List (Nat × α)) :
    Decidable (Rep h l ns) :=
  inferInstanceAs (Decidable (Linked h l (ns.map Prod.fst) ∧
    (∀ e ∈ ns, h.dataOf e.1 = some e.2) ∧ l.m_size = ns.length))

end predicates

/-! ### Client programs of the claims -/

section clients

variable {α : Type}

/-- A client loop calling `push_front(x)` for each value `x` of `S`, in order. -/
def list.push_front_each (self : list) : List α → Heap α → Option (list × Heap α)
  | [], h => some (self, h)
  | x :: S, h => do
    let (self, h) ← self.push_front x h
    list.push_front_each self S h

/-- A default-constructed list on which `push_back` is called for each value of `S`, in order. -/
def pushed_back [Inhabited α] (S : List α) (h : Heap α) : Option (list × Heap α) := do
  let (l, h) ← list.ctor h
  l.push_back_each S h

/-- A default-constructed list on which `push_front` is called for each value of `S`, in
order. -/
def pushed_front [Inhabited α] (S : List α) (h : Heap α) : Option (list × Heap α) := do
  let (l, h) ← list.ctor h
  l.push_front_each S h

/-- The example `list l; l.push_back(1); l.push_back(2); l.push_front(0);`. -/
def example_push (h : Heap Int) : Option (list × Heap Int) := do
  let (l, h) ← list.ctor h
  let (l, h) ← l.push_back 1 h
  let (l, h) ← l.push_back 2 h
  l.push_front 0 h

/-- A call of one of the four end operations. -/
inductive Call (α : Type) where
  | push_front (v : α)
  | push_back (v : α)
  | pop_front
  | pop_back
  deriving DecidableEq, Repr

/-- Perform one call on the list. -/
def Call.run : Call α → list → Heap α → Option (list × Heap α)
  | Call.push_front v, l, h => l.push_front v h
  | Call.push_back v, l, h => l.push_back v h
  | Call.pop_front, l, h => l.pop_front h
  | Call.pop_back, l, h => l.pop_back h

/-- Perform a sequence of calls, in order. -/
def run_calls : List (Call α) → list → Heap α → Option (list × Heap α)
  | [], l, h => some (l, h)
  | c :: cs, l, h => do
    let (l, h) ← c.run l h
    run_calls cs l h

/-- Whether a call is a push. -/
def Call.is_push : Call α → Bool
  | Call.push_front _ => true
  | Call.push_back _ => true
  | _ => false

/-- The number of pushes of a sequence of calls. -/
def count_pushes (cs : List (Call α)) : Nat := (cs.filter Call.is_push).length

/-- The number of pops of a sequence of calls that are performed on a non-empty list, as
`empty()` tells it on the state each pop starts from. -/
def count_pops : List (Call α) → list → Heap α → Option Nat
  | [], _, _ => some 0
  | c :: cs, l, h => do
    let e ← l.empty h
    let (l', h') ← c.run l h
    let k ← count_pops cs l' h'
    pure (if c.is_push || e then k else k + 1)

end clients

/-! ### Mutations of a list that shares the heap with another list -/

section mutations

variable {α : Type}

/-- A call of one of the public mutators, with its arguments. -/
inductive Mutation (α : Type) where
  | push_front (v : α)
  | push_back (v : α)
  | pop_front
  | pop_back
  | clear
  | assign (v : α)
  | assign_count (count : Nat) (v : α)
  | assign_range (S : List α)
  | assign_ilist (S : List α)
  | insert (pos : iterator) (v : α)
  | insert_range (pos : iterator) (S : List α)
  | insert_ilist (pos : iterator) (S : List α)
  | erase (pos : iterator)
  | erase_range (first last : iterator)

/-- Perform the call on the list; `fuel` bounds the pointer-chasing loop of the mutator, if it
has one. -/
def Mutation.run (fuel : Nat) : Mutation α → list → Heap α → Option (list × Heap α)
  | Mutation.push_front v, l, h => l.push_front v h
  | Mutation.push_back v, l, h => l.push_back v h
  | Mutation.pop_front, l, h => l.pop_front h
  | Mutation.pop_back, l, h => l.pop_back h
  | Mutation.clear, l, h => l.clear fuel h
  | Mutation.assign v, l, h => l.assign v fuel h
  | Mutation.assign_count count v, l, h => l.assign_count count v fuel h
  | Mutation.assign_range S, l, h => l.assign_range S fuel h
  | Mutation.assign_ilist S, l, h => l.assign_ilist S fuel h
  | Mutation.insert pos v, l, h => (l.insert pos v h).map Prod.snd
  | Mutation.insert_range pos S, l, h => (l.insert_range pos S h).map Prod.snd
  | Mutation.insert_ilist pos S, l, h => (l.insert_ilist pos S h).map Prod.snd
  | Mutation.erase pos, l, h => (l.erase pos h).map Prod.snd
  | Mutation.erase_range first last, l, h => (l.erase_range last fuel first h).map Prod.snd

/-- The positions passed to the call are positions of the list `l` whose live nodes are `ps`:
a live node or `end()` for an insertion, a live node for `erase(pos)`. -/
def Mutation.valid (l : list) (ps : List Nat) : Mutation α → Prop
  | Mutation.insert pos _ => pos.it ∈ ps ++ [l.m_tail]
  | Mutation.insert_range pos _ => pos.it ∈ ps ++ [l.m_tail]
  | Mutation.insert_ilist pos _ => pos.it ∈ ps ++ [l.m_tail]
  | Mutation.erase pos => pos.it ∈ ps
  | Mutation.erase_range first last => first.it ∈ ps ++ [l.m_tail] ∧ last.it ∈ ps ++ [l.m_tail]
  | _ => True

/-- One step of a list from `(h, c)` with live nodes `cs` to `(h', c')` with live nodes `cs'`:
the result is well-formed, the cells outside the chain of `c` are untouched, and the chain of
`c'` is made of cells of the chain of `c` and of cells allocated by the step. -/
def Step (h : Heap α) (c : list) (cs : List (Nat × α)) (h' : Heap α) (c' : list)
    (cs' : List (Nat × α)) : Prop :=
  Rep h' c' cs' ∧ Frame h h' (cells c (cs.map Prod.fst)) ∧ h.length ≤ h'.length ∧
    ∀ x ∈ cells c' (cs'.map Prod.fst), x ∈ cells c (cs.map Prod.fst) ∨ h.length < x

end mutations

/-! ### Concrete states -/

/-- The heap left by `list<int> l; l.push_back(5);` run in the empty heap. -/
def heap_one : Heap Int := [some ⟨0, 0, 3⟩, some ⟨0, 3, 0⟩, some ⟨5, 1, 2⟩]

/-- The list object of `heap_one`: sentinels at `1` and `2`, one live node at `3`. -/
def list_one : list := ⟨1, 1, 2⟩

/-- The heap left by `list<int> A{1,2,3}; list<int> B{1,2,3};` run in the empty heap. -/
def heap_ab : Heap Int :=
  [some ⟨0, 0, 3⟩, some ⟨0, 5, 0⟩, some ⟨1, 1, 4⟩, some ⟨2, 3, 5⟩, some ⟨3, 4, 2⟩,
   some ⟨0, 0, 8⟩, some ⟨0, 10, 0⟩, some ⟨1, 6, 9⟩, some ⟨2, 8, 10⟩, some ⟨3, 9, 7⟩]

/-- The list object `A` of `heap_ab`: sentinels at `1` and `2`, live nodes at `3`, `4`, `5`. -/
def list_a : list := ⟨3, 1, 2⟩

/-- The list object `B` of `heap_ab`: sentinels at `6` and `7`, live nodes at `8`, `9`, `10`. -/
def list_b : list := ⟨3, 6, 7⟩

/-- The example `A{1,2,3}`, `B{1,2,3}`: the value of `A == B`, then `B.pop_back()` and the
values of `A == B` and `A != B`. -/
def example_compare (h : Heap Int) : Option (Bool × Bool × Bool) := do
  let (A, h) ← list.ctor_ilist [1, 2, 3] h
  let (B, h) ← list.ctor_ilist [1, 2, 3] h
  let e1 ← operator_eq A B h
  let (B, h) ← B.pop_back h
  let e2 ← operator_eq A B h
  let n2 ← operator_ne A B h
  pure (e1, e2, n2)

/-- The heap left by `list<int> l{1, 2};` run in the empty heap. -/
def heap_12 : Heap Int := [some ⟨0, 0, 3⟩, some ⟨0, 4, 0⟩, some ⟨1, 1, 4⟩, some ⟨2, 3, 2⟩]

/-- The list object of `heap_12`: sentinels at `1` and `2`, live nodes at `3` and `4`. -/
def list_12 : list := ⟨2, 1, 2⟩

/-- The client expression `l.erase(l.insert(pos, v))`, followed by a forward iteration. -/
def erase_insert {α : Type} (l : list) (pos : iterator) (v : α) (fuel : Nat) (h : Heap α) :
    Option (List α) := do
  let (ret, l, h) ← l.insert pos v h
  let (_, l, h) ← l.erase ret h
  l.traverse fuel h

/-- The example `list<int> l{1, 2, 3}; auto r = l.erase(l.begin());`: the values then visited
by a forward iteration, and whether `r == l.begin()`. -/
def example_erase_begin (h : Heap Int) : Option (List Int × Bool) := do
  let (l, h) ← list.ctor_ilist [1, 2, 3] h
  let b ← l.begin h
  let (r, l, h) ← l.erase b h
  let xs ← l.traverse 3 h
  let nb ← l.begin h
  pure (xs, r.eq nb)

/-- A list state is well-linked when the two sentinels are two nodes, following `next` from the
head sentinel passes exactly `m_size` live nodes `ps` (nodes other than the sentinels) and then
reaches the tail sentinel, every live node `n` satisfies `n.prev.next == n` and
`n.next.prev == n`, and `head.next.prev == head` and `tail.prev.next == tail`. -/
def WellLinked {α : Type} (h : Heap α) (l : list) : Prop :=
  l.m_head ≠ l.m_tail ∧
  ∃ ps : List Nat, (ps.length : Int) = l.m_size ∧ l.m_head ∉ ps ∧ l.m_tail ∉ ps ∧
    (cells l ps).Chain' (fun a b => h.nextOf a = some b) ∧
    (∀ n ∈ ps, (∃ p, h.prevOf n = some p ∧ h.nextOf p = some n) ∧
      (∃ q, h.nextOf n = some q ∧ h.prevOf q = some n)) ∧
    (∃ q, h.nextOf l.m_head = some q ∧ h.prevOf q = some l.m_head) ∧
    (∃ p, h.prevOf l.m_tail = some p ∧ h.nextOf p = some l.m_tail)

/-! ### The calls compared in C21 -/

/-- The client call `l.insert(l.begin(), v)`, the returned handle dropped. -/
def insert_at_begin {α : Type} (l : list) (v : α) (h : Heap α) : Option (list × Heap α) := do
  let pos ← l.begin h
  let (_, l, h) ← l.insert pos v h
  pure (l, h)

/-- The client call `l.insert(l.end(), v)`, the returned handle dropped. -/
def insert_at_end {α : Type} (l : list) (v : α) (h : Heap α) : Option (list × Heap α) := do
  let (_, l, h) ← l.insert l.end v h
  pure (l, h)

/-- The client call `l.erase(l.begin())`, the returned handle dropped. -/
def erase_at_begin {α : Type} (l : list) (h : Heap α) : Option (list × Heap α) := do
  let pos ← l.begin h
  let (_, l, h) ← l.erase pos h
  pure (l, h)

/-- The client call `l.erase(--l.end())`, the returned handle dropped. -/
def erase_before_end {α : Type} (l : list) (h : Heap α) : Option (list × Heap α) := do
  let (pos, _) ← l.end.predec h
  let (_, l, h) ← l.erase pos h
  pure (l, h)

/-! ## Theorems -/

/-! ### The heap: reading after writing -/

namespace Heap

variable {α : Type}

theorem read_store {h : Heap α} {p : Nat} {n : Node α} (hp : h.read p = some n)
    (c : Option (Node α)) (q : Nat) :
    (h.store p c).read q = if q = p then c else h.read q := by
  cases p with
  | zero => simp [read] at hp
  | succ p =>
    have hlt : p < h.length := by
      by_contra hge
      simp [read, List.getElem?_eq_none (Nat.le_of_not_lt hge)] at hp
    cases q with
    | zero => simp [read]
    | succ q =>
      by_cases hqp : q = p
      · subst hqp
        simp [read, store, hlt]
      · have : p ≠ q := fun e => hqp e.symm
        simp [read, store, hqp, List.getElem?_set_ne this]

theorem read_alloc (h : Heap α) (n : Node α) (q : Nat) :
    (h.alloc n).2.read q = if q = h.length + 1 then some n else h.read q := by
  cases q with
  | zero => simp [read]
  | succ q =>
    by_cases hq : q = h.length
    · subst hq
      simp [read, alloc]
    · rcases Nat.lt_or_gt_of_ne hq with hlt | hgt
      · simp [read, alloc, hq, List.getElem?_append_left hlt]
      · have h1 : (h ++ [some n]).length ≤ q := by simp; omega
        have h2 : h.length ≤ q := by omega
        simp [read, alloc, hq, List.getElem?_eq_none h1, List.getElem?_eq_none h2]

theorem read_eq_none_of_length_lt {h : Heap α} {p : Nat} (hp : h.length < p) : h.read p = none := by
  cases p with
  | zero => rfl
  | succ p => simp [read, List.getElem?_eq_none (Nat.le_of_lt_succ hp)]

theorem live_iff_nextOf {h : Heap α} {p : Nat} : h.Live p ↔ (h.nextOf p).isSome := by
  simp [Live, nextOf]

theorem live_of_nextOf {h : Heap α} {p b : Nat} (e : h.nextOf p = some b) : h.Live p := by
  simp [live_iff_nextOf, e]

theorem live_of_prevOf {h : Heap α} {p b : Nat} (e : h.prevOf p = some b) : h.Live p := by
  simp only [prevOf, Option.map_eq_some'] at e
  obtain ⟨n, hn, _⟩ := e
  simp [Live, hn]

theorem live_of_dataOf {h : Heap α} {p : Nat} {b : α} (e : h.dataOf p = some b) : h.Live p := by
  simp only [dataOf, Option.map_eq_some'] at e
  obtain ⟨n, hn, _⟩ := e
  simp [Live, hn]

theorem live_le_length {h : Heap α} {p : Nat} (hp : h.Live p) : p ≤ h.length := by
  by_contra hlt
  simp [Live, read_eq_none_of_length_lt (Nat.lt_of_not_le hlt)] at hp

theorem live_ne_zero {h : Heap α} {p : Nat} (hp : h.Live p) : p ≠ 0 := by
  rintro rfl
  simp [Live, read] at hp

theorem store_length {h : Heap α} (p : Nat) (c : Option (Node α)) :
    (h.store p c).length = h.length := by
  cases p <;> simp [store]

theorem setNext_spec {h : Heap α} {p : Nat} (v : Nat) (hp : h.Live p) :
    ∃ h', h.setNext p v = some h' ∧ h'.length = h.length ∧
      (∀ q, h'.nextOf q = if q = p then some v else h.nextOf q) ∧
      (∀ q, h'.prevOf q = h.prevOf q) ∧ (∀ q, h'.dataOf q = h.dataOf q) := by
  obtain ⟨n, hn⟩ := Option.isSome_iff_exists.mp hp
  refine ⟨h.store p (some { n with next := v }), by simp [setNext, hn], store_length _ _, ?_, ?_, ?_⟩
  all_goals
    intro q
    by_cases hq : q = p
    · subst hq; simp [nextOf, prevOf, dataOf, read_store hn, hn]
    · simp [nextOf, prevOf, dataOf, read_store hn, hq]

theorem setPrev_spec {h : Heap α} {p : Nat} (v : Nat) (hp : h.Live p) :
    ∃ h', h.setPrev p v = some h' ∧ h'.length = h.length ∧
      (∀ q, h'.nextOf q = h.nextOf q) ∧
      (∀ q, h'.prevOf q = if q = p then some v else h.prevOf q) ∧
      (∀ q, h'.dataOf q = h.dataOf q) := by
  obtain ⟨n, hn⟩ := Option.isSome_iff_exists.mp hp
  refine ⟨h.store p (some { n with prev := v }), by simp [setPrev, hn], store_length _ _, ?_, ?_, ?_⟩
  all_goals
    intro q
    by_cases hq : q = p
    · subst hq; simp [nextOf, prevOf, dataOf, read_store hn, hn]
    · simp [nextOf, prevOf, dataOf, read_store hn, hq]

theorem setData_spec {h : Heap α} {p : Nat} (v : α) (hp : h.Live p) :
    ∃ h', h.setData p v = some h' ∧ h'.length = h.length ∧
      (∀ q, h'.nextOf q = h.nextOf q) ∧ (∀ q, h'.prevOf q = h.prevOf q) ∧
      (∀ q, h'.dataOf q = if q = p then some v else h.dataOf q) := by
  obtain ⟨n, hn⟩ := Option.isSome_iff_exists.mp hp
  refine ⟨h.store p (some { n with data := v }), by simp [setData, hn], store_length _ _, ?_, ?_, ?_⟩
  all_goals
    intro q
    by_cases hq : q = p
    · subst hq; simp [nextOf, prevOf, dataOf, read_store hn, hn]
    · simp [nextOf, prevOf, dataOf, read_store hn, hq]

theorem free_spec {h : Heap α} {p : Nat} (hp : h.Live p) :
    ∃ h', h.free p = some h' ∧ h'.length = h.length ∧
      (∀ q, h'.nextOf q = if q = p then none else h.nextOf q) ∧
      (∀ q, h'.prevOf q = if q = p then none else h.prevOf q) ∧
      (∀ q, h'.dataOf q = if q = p then none else h.dataOf q) := by
  obtain ⟨n, hn⟩ := Option.isSome_iff_exists.mp hp
  refine ⟨h.store p none, by simp [free, hn], store_length _ _, ?_, ?_, ?_⟩
  all_goals
    intro q
    by_cases hq : q = p
    · subst hq; simp [nextOf, prevOf, dataOf, read_store hn]
    · simp [nextOf, prevOf, dataOf, read_store hn, hq]

theorem alloc_spec (h : Heap α) (n : Node α) :
    ∃ h', h.alloc n = (h.length + 1, h') ∧ h'.length = h.length + 1 ∧
      (∀ q, h'.nextOf q = if q = h.length + 1 then some n.next else h.nextOf q) ∧
      (∀ q, h'.prevOf q = if q = h.length + 1 then some n.prev else h.prevOf q) ∧
      (∀ q, h'.dataOf q = if q = h.length + 1 then some n.data else h.dataOf q) := by
  refine ⟨(h.alloc n).2, rfl, by simp [alloc], ?_, ?_, ?_⟩
  all_goals
    intro q
    by_cases hq : q = h.length + 1
    · simp [nextOf, prevOf, dataOf, read_alloc, hq]
    · simp [nextOf, prevOf, dataOf, read_alloc, hq]

theorem Live.congr {h h' : Heap α} {p : Nat} (hl : h.Live p) (hd : h'.dataOf p = h.dataOf p) :
    h'.Live p := by
  simp only [Live, dataOf] at *
  cases hr : h.read p with
  | none => simp [hr] at hl
  | some n =>
    cases hr' : h'.read p with
    | none => simp [hr, hr'] at hd
    | some n' => rfl

theorem not_live_succ_length (h : Heap α) : ¬ h.Live (h.length + 1) := by
  simp [Live, read_eq_none_of_length_lt (Nat.lt_succ_self h.length)]

end Heap

/-! ### The effect of each operation on the fields of the heap -/

section operations
variable {α : Type}
open Heap

theorem list.push_back_spec {h : Heap α} (l : list) {q : Nat} (v : α)
    (hq : h.prevOf l.m_tail = some q) (hlq : h.Live q) :
    ∃ h', l.push_back v h = some ({ l with m_size := l.m_size + 1 }, h') ∧
      h'.length = h.length + 1 ∧
      (∀ x, h'.nextOf x = if x = q then some (h.length + 1)
        else if x = h.length + 1 then some l.m_tail else h.nextOf x) ∧
      (∀ x, h'.prevOf x = if x = l.m_tail then some (h.length + 1)
        else if x = h.length + 1 then some q else h.prevOf x) ∧
      (∀ x, h'.dataOf x = if x = h.length + 1 then some v else h.dataOf x) := by
  have hlt : h.Live l.m_tail := live_of_prevOf hq
  have ht1 : l.m_tail ≠ h.length + 1 := by have := live_le_length hlt; omega
  have hq1 : q ≠ h.length + 1 := by have := live_le_length hlq; omega
  obtain ⟨h1, e1, len1, n1, p1, d1⟩ := alloc_spec h ⟨v, nullptr, nullptr⟩
  have l1 : h1.Live (h.length + 1) := live_of_nextOf ((n1 _).trans (if_pos rfl))
  obtain ⟨h2, e2, len2, n2, p2, d2⟩ := setNext_spec l.m_tail l1
  have r2 : h2.prevOf l.m_tail = some q := by rw [p2, p1, if_neg ht1, hq]
  have l2 : h2.Live q := hlq.congr (by rw [d2, d1, if_neg hq1])
  obtain ⟨h3, e3, len3, n3, p3, d3⟩ := setNext_spec (h.length + 1) l2
  have r3 : h3.prevOf l.m_tail = some q := by rw [p3, r2]
  have l3 : h3.Live (h.length + 1) := l1.congr (by rw [d3, d2])
  obtain ⟨h4, e4, len4, n4, p4, d4⟩ := setPrev_spec q l3
  have l4 : h4.Live l.m_tail := hlt.congr (by rw [d4, d3, d2, d1, if_neg ht1])
  obtain ⟨h5, e5, len5, n5, p5, d5⟩ := setPrev_spec (h.length + 1) l4
  refine ⟨h5, ?_, by omega, ?_, ?_, ?_⟩
  · simp [list.push_back, e1, e2, r2, e3, r3, e4, e5]
  · intro x; rw [n5, n4, n3, n2, n1]; split_ifs <;> rfl
  · intro x; rw [p5, p4, p3, p2, p1]; split_ifs <;> rfl
  · intro x; rw [d5, d4, d3, d2, d1]

theorem list.push_front_spec {h : Heap α} (l : list) {p : Nat} (v : α)
    (hp : h.nextOf l.m_head = some p) (hlp : h.Live p) :
    ∃ h', l.push_front v h = some ({ l with m_size := l.m_size + 1 }, h') ∧
      h'.length = h.length + 1 ∧
      (∀ x, h'.nextOf x = if x = l.m_head then some (h.length + 1)
        else if x = h.length + 1 then some p else h.nextOf x) ∧
      (∀ x, h'.prevOf x = if x = p then some (h.length + 1)
        else if x = h.length + 1 then some l.m_head else h.prevOf x) ∧
      (∀ x, h'.dataOf x = if x = h.length + 1 then some v else h.dataOf x) := by
  have hlh : h.Live l.m_head := live_of_nextOf hp
  have hh1 : l.m_head ≠ h.length + 1 := by have := live_le_length hlh; omega
  have hp1 : p ≠ h.length + 1 := by have := live_le_length hlp; omega
  obtain ⟨h1, e1, len1, n1, p1, d1⟩ := alloc_spec h ⟨v, l.m_head, p⟩
  obtain ⟨h2, e2, len2, n2, p2, d2⟩ :=
    setNext_spec (h.length + 1) (hlh.congr (by rw [d1, if_neg hh1]) : h1.Live l.m_head)
  have r2 : h2.nextOf (h.length + 1) = some p := by
    rw [n2, if_neg (Ne.symm hh1), n1, if_pos rfl]
  obtain ⟨h3, e3, len3, n3, p3, d3⟩ :=
    setPrev_spec (h.length + 1) (hlp.congr (by rw [d2, d1, if_neg hp1]) : h2.Live p)
  refine ⟨h3, ?_, by omega, ?_, ?_, ?_⟩
  · simp [list.push_front, hp, e1, e2, r2, e3]
  · intro x; rw [n3, n2, n1]
  · intro x; rw [p3, p2, p1]
  · intro x; rw [d3, d2, d1]

theorem list.insert_spec {h : Heap α} (l : list) (pos : iterator) {q : Nat} (v : α)
    (hq : h.prevOf pos.it = some q) (hlq : h.Live q) :
    ∃ h', l.insert pos v h = some (⟨q⟩, { l with m_size := l.m_size + 1 }, h') ∧
      h'.length = h.length + 1 ∧
      (∀ x, h'.nextOf x = if x = q then some (h.length + 1)
        else if x = h.length + 1 then some pos.it else h.nextOf x) ∧
      (∀ x, h'.prevOf x = if x = pos.it then some (h.length + 1)
        else if x = h.length + 1 then some q else h.prevOf x) ∧
      (∀ x, h'.dataOf x = if x = h.length + 1 then some v else h.dataOf x) := by
  have hlt : h.Live pos.it := live_of_prevOf hq
  have ht1 : pos.it ≠ h.length + 1 := by have := live_le_length hlt; omega
  have hq1 : q ≠ h.length + 1 := by have := live_le_length hlq; omega
  obtain ⟨h1, e1, len1, n1, p1, d1⟩ := alloc_spec h ⟨v, nullptr, nullptr⟩
  have l1 : h1.Live (h.length + 1) := live_of_nextOf ((n1 _).trans (if_pos rfl))
  obtain ⟨h2, e2, len2, n2, p2, d2⟩ := setNext_spec pos.it l1
  have r2 : h2.prevOf pos.it = some q := by rw [p2, p1, if_neg ht1, hq]
  have l2 : h2.Live q := hlq.congr (by rw [d2, d1, if_neg hq1])
  obtain ⟨h3, e3, len3, n3, p3, d3⟩ := setNext_spec (h.length + 1) l2
  have r3 : h3.prevOf pos.it = some q := by rw [p3, r2]
  have l3 : h3.Live (h.length + 1) := l1.congr (by rw [d3, d2])
  obtain ⟨h4, e4, len4, n4, p4, d4⟩ := setPrev_spec q l3
  have l4 : h4.Live pos.it := hlt.congr (by rw [d4, d3, d2, d1, if_neg ht1])
  obtain ⟨h5, e5, len5, n5, p5, d5⟩ := setPrev_spec (h.length + 1) l4
  refine ⟨h5, ?_, by omega, ?_, ?_, ?_⟩
  · simp [list.insert, iterator.postdec, hq, e1, e2, r2, e3, r3, e4, e5]
  · intro x; rw [n5, n4, n3, n2, n1]; split_ifs <;> rfl
  · intro x; rw [p5, p4, p3, p2, p1]; split_ifs <;> rfl
  · intro x; rw [d5, d4, d3, d2, d1]

theorem list.erase_spec {h : Heap α} (l : list) (pos : iterator) {q r : Nat}
    (hq : h.prevOf pos.it = some q) (hr : h.nextOf pos.it = some r)
    (hlq : h.Live q) (hlr : h.Live r) :
    ∃ h', l.erase pos h = some (⟨r⟩, { l with m_size := l.m_size - 1 }, h') ∧
      h'.length = h.length ∧
      (∀ x, h'.nextOf x = if x = pos.it then none else if x = q then some r else h.nextOf x) ∧
      (∀ x, h'.prevOf x = if x = pos.it then none else if x = r then some q else h.prevOf x) ∧
      (∀ x, h'.dataOf x = if x = pos.it then none else h.dataOf x) := by
  have hlp : h.Live pos.it := live_of_prevOf hq
  obtain ⟨h1, e1, len1, n1, p1, d1⟩ := setNext_spec r hlq
  have r1n : h1.nextOf pos.it = some r := by rw [n1]; split_ifs <;> simp [hr]
  have r1p : h1.prevOf pos.it = some q := by rw [p1, hq]
  obtain ⟨h2, e2, len2, n2, p2, d2⟩ := setPrev_spec q (hlr.congr (d1 r) : h1.Live r)
  have r2n : h2.nextOf pos.it = some r := by rw [n2, r1n]
  obtain ⟨h3, e3, len3, n3, p3, d3⟩ :=
    free_spec (hlp.congr (by rw [d2, d1]) : h2.Live pos.it)
  refine ⟨h3, ?_, by omega, ?_, ?_, ?_⟩
  · simp [list.erase, hq, hr, e1, r1n, r1p, e2, r2n, e3]
  · intro x; rw [n3, n2, n1]
  · intro x; rw [p3, p2, p1]
  · intro x; rw [d3, d2, d1]

theorem list.pop_back_spec {h : Heap α} (l : list) {hn target q : Nat}
    (hhn : h.nextOf l.m_head = some hn) (hne : hn ≠ l.m_tail)
    (ht : h.prevOf l.m_tail = some target) (hq : h.prevOf target = some q) (hlq : h.Live q) :
    ∃ h', l.pop_back h = some ({ l with m_size := l.m_size - 1 }, h') ∧
      h'.length = h.length ∧
      (∀ x, h'.nextOf x = if x = target then none else if x = q then some l.m_tail
        else h.nextOf x) ∧
      (∀ x, h'.prevOf x = if x = target then none else if x = l.m_tail then some q
        else h.prevOf x) ∧
      (∀ x, h'.dataOf x = if x = target then none else h.dataOf x) := by
  have hlt : h.Live l.m_tail := live_of_prevOf ht
  have hltg : h.Live target := live_of_prevOf hq
  obtain ⟨h1, e1, len1, n1, p1, d1⟩ := setPrev_spec q hlt
  have r1 : h1.prevOf l.m_tail = some q := by rw [p1, if_pos rfl]
  obtain ⟨h2, e2, len2, n2, p2, d2⟩ := setNext_spec l.m_tail (hlq.congr (d1 q) : h1.Live q)
  obtain ⟨h3, e3, len3, n3, p3, d3⟩ :=
    free_spec (hltg.congr (by rw [d2, d1]) : h2.Live target)
  refine ⟨h3, ?_, by omega, ?_, ?_, ?_⟩
  · simp [list.pop_back, hhn, hne, ht, hq, e1, r1, e2, e3]
  · intro x; rw [n3, n2, n1]
  · intro x; rw [p3, p2, p1]
  · intro x; rw [d3, d2, d1]

theorem list.pop_front_spec {h : Heap α} (l : list) {target r : Nat}
    (ht : h.nextOf l.m_head = some target) (hne : target ≠ l.m_tail)
    (hr : h.nextOf target = some r) (hlr : h.Live r) :
    ∃ h', l.pop_front h = some ({ l with m_size := l.m_size - 1 }, h') ∧
      h'.length = h.length ∧
      (∀ x, h'.nextOf x = if x = target then none else if x = l.m_head then some r
        else h.nextOf x) ∧
      (∀ x, h'.prevOf x = if x = target then none else if x = r then some l.m_head
        else h.prevOf x) ∧
      (∀ x, h'.dataOf x = if x = target then none else h.dataOf x) := by
  have hlh : h.Live l.m_head := live_of_nextOf ht
  have hltg : h.Live target := live_of_nextOf hr
  obtain ⟨h1, e1, len1, n1, p1, d1⟩ := setNext_spec r hlh
  have r1 : h1.nextOf target = some r := by rw [n1]; split_ifs <;> simp [hr]
  obtain ⟨h2, e2, len2, n2, p2, d2⟩ := setPrev_spec l.m_head (hlr.congr (d1 r) : h1.Live r)
  obtain ⟨h3, e3, len3, n3, p3, d3⟩ :=
    free_spec (hltg.congr (by rw [d2, d1]) : h2.Live target)
  refine ⟨h3, ?_, by omega, ?_, ?_, ?_⟩
  · simp [list.pop_front, ht, hne, hr, e1, r1, e2, e3]
  · intro x; rw [n3, n2, n1]
  · intro x; rw [p3, p2, p1]
  · intro x; rw [d3, d2, d1]

theorem list.pop_back_empty {h : Heap α} {l : list} (hhn : h.nextOf l.m_head = some l.m_tail) :
    l.pop_back h = some (l, h) := by
  simp [list.pop_back, hhn]

theorem list.pop_front_empty {h : Heap α} {l : list} (hhn : h.nextOf l.m_head = some l.m_tail) :
    l.pop_front h = some (l, h) := by
  simp [list.pop_front, hhn]

theorem list.ctor_spec [Inhabited α] (h : Heap α) :
    ∃ h', list.ctor h = some (⟨0, h.length + 1, h.length + 2⟩, h') ∧
      h'.length = h.length + 2 ∧
      (∀ x, h'.nextOf x = if x = h.length + 1 then some (h.length + 2)
        else if x = h.length + 2 then some nullptr else h.nextOf x) ∧
      (∀ x, h'.prevOf x = if x = h.length + 2 then some (h.length + 1)
        else if x = h.length + 1 then some nullptr else h.prevOf x) ∧
      (∀ x, h'.dataOf x = if x = h.length + 2 then some default
        else if x = h.length + 1 then some default else h.dataOf x) := by
  obtain ⟨h1, e1, len1, n1, p1, d1⟩ := alloc_spec h ⟨(default : α), nullptr, nullptr⟩
  obtain ⟨h2, e2, len2, n2, p2, d2⟩ := alloc_spec h1 ⟨(default : α), nullptr, nullptr⟩
  rw [len1] at e2 n2 p2 d2
  have l1 : h1.Live (h.length + 1) := live_of_nextOf ((n1 _).trans (if_pos rfl))
  have l2 : h2.Live (h.length + 1 + 1) := live_of_nextOf ((n2 _).trans (if_pos rfl))
  obtain ⟨h3, e3, len3, n3, p3, d3⟩ :=
    setNext_spec (h.length + 1 + 1) (l1.congr (by rw [d2]; simp) : h2.Live (h.length + 1))
  obtain ⟨h4, e4, len4, n4, p4, d4⟩ :=
    setPrev_spec (h.length + 1) (l2.congr (d3 _) : h3.Live (h.length + 1 + 1))
  refine ⟨h4, ?_, by omega, ?_, ?_, ?_⟩
  · simp [list.ctor, e1, e2, e3, e4]
  · intro x; rw [n4, n3, n2, n1]
    by_cases hx1 : x = h.length + 1
    · simp [hx1]
    · by_cases hx2 : x = h.length + 2
      · simp [hx2]
      · simp [hx1, hx2]
  · intro x; rw [p4, p3, p2, p1]
    by_cases hx1 : x = h.length + 1
    · simp [hx1]
    · by_cases hx2 : x = h.length + 2
      · simp [hx2]
      · simp [hx1, hx2]
  · intro x; rw [d4, d3, d2, d1]

end operations

/-! ### Chains of linked nodes: frame, splice and unsplice -/

section chains
variable {α : Type}
open Heap

theorem chain_frame {h h' : Heap α} : ∀ {cs : List Nat}, cs.Chain' (Link h) →
    (∀ a ∈ cs.dropLast, h'.nextOf a = h.nextOf a) →
    (∀ b ∈ cs.tail, h'.prevOf b = h.prevOf b) → cs.Chain' (Link h')
  | [], _, _, _ => List.chain'_nil
  | [_], _, _, _ => List.chain'_singleton _
  | a :: b :: rest, hc, hn, hp => by
    rw [List.chain'_cons] at hc ⊢
    refine ⟨⟨?_, ?_⟩, chain_frame hc.2 ?_ ?_⟩
    · rw [hn a (by simp), hc.1.1]
    · rw [hp b (by simp), hc.1.2]
    · intro x hx; exact hn x (by simp [List.dropLast, hx])
    · intro x hx; exact hp x (by simp at hx ⊢; exact Or.inr hx)

theorem chain_live {h : Heap α} {cs : List Nat} (hc : cs.Chain' (Link h)) (hlen : 2 ≤ cs.length) :
    ∀ x ∈ cs, h.Live x := by
  induction cs with
  | nil => simp
  | cons a rest ih =>
    cases rest with
    | nil => simp at hlen
    | cons b rest2 =>
      rw [List.chain'_cons] at hc
      intro x hx
      rcases List.mem_cons.mp hx with rfl | hx
      · exact live_of_nextOf hc.1.1
      · cases rest2 with
        | nil =>
          simp at hx; subst hx
          exact live_of_prevOf hc.1.2
        | cons c rest3 => exact ih hc.2 (by simp) x hx

theorem chain_splice {h h' : Heap α} {X Y : List Nat} {q p t : Nat}
    (hnd : (X ++ q :: p :: Y).Nodup) (hc : (X ++ q :: p :: Y).Chain' (Link h))
    (ht : t ∉ X ++ q :: p :: Y)
    (hn : ∀ x, h'.nextOf x = if x = q then some t else if x = t then some p else h.nextOf x)
    (hp : ∀ x, h'.prevOf x = if x = p then some t else if x = t then some q else h.prevOf x) :
    (X ++ q :: t :: p :: Y).Nodup ∧ (X ++ q :: t :: p :: Y).Chain' (Link h') := by
  have hperm : (X ++ q :: t :: p :: Y).Perm (t :: (X ++ q :: p :: Y)) := by
    have := @List.perm_middle _ t (X ++ [q]) (p :: Y)
    simpa using this
  refine ⟨hperm.nodup_iff.mpr (List.nodup_cons.mpr ⟨ht, hnd⟩), ?_⟩
  simp only [List.mem_append, List.mem_cons, not_or] at ht
  obtain ⟨htX, htq, htp, htY⟩ := ht
  rw [List.nodup_append] at hnd
  obtain ⟨ndX, ndR, hdis⟩ := hnd
  simp only [List.nodup_cons, List.mem_cons, not_or] at ndR
  obtain ⟨⟨hqp, hqY⟩, hpY, ndY⟩ := ndR
  rw [List.chain'_split] at hc ⊢
  obtain ⟨hc1, hc2⟩ := hc
  rw [List.chain'_cons] at hc2
  refine ⟨chain_frame hc1 ?_ ?_, ?_⟩
  · intro a ha
    rw [List.dropLast_concat] at ha
    have haq : a ≠ q := fun e => hdis ha (by simp [e])
    have hat : a ≠ t := fun e => htX (e ▸ ha)
    rw [hn, if_neg haq, if_neg hat]
  · intro b hb
    have hb2 : b ∈ X ++ [q] := List.mem_of_mem_tail hb
    have hbp : b ≠ p := by
      rintro rfl
      rcases List.mem_append.mp hb2 with hbX | hbq
      · exact hdis hbX (by simp)
      · simp at hbq; exact hqp hbq.symm
    have hbt : b ≠ t := by
      rintro rfl
      rcases List.mem_append.mp hb2 with hbX | hbq
      · exact htX hbX
      · simp at hbq; exact htq hbq
    rw [hp, if_neg hbp, if_neg hbt]
  · rw [List.chain'_cons, List.chain'_cons]
    refine ⟨⟨?_, ?_⟩, ⟨?_, ?_⟩, chain_frame hc2.2 ?_ ?_⟩
    · rw [hn, if_pos rfl]
    · rw [hp, if_neg htp, if_pos rfl]
    · rw [hn, if_neg htq, if_pos rfl]
    · rw [hp, if_pos rfl]
    · intro a ha
      have ha2 : a ∈ p :: Y := List.mem_of_mem_dropLast ha
      have haq : a ≠ q := by
        rintro rfl
        rcases List.mem_cons.mp ha2 with e | e
        · exact hqp e
        · exact hqY e
      have hat : a ≠ t := by
        rintro rfl
        rcases List.mem_cons.mp ha2 with e | e
        · exact htp e
        · exact htY e
      rw [hn, if_neg haq, if_neg hat]
    · intro b hb
      simp only [List.tail_cons] at hb
      have hbp : b ≠ p := fun e => hpY (e ▸ hb)
      have hbt : b ≠ t := fun e => htY (e ▸ hb)
      rw [hp, if_neg hbp, if_neg hbt]

theorem chain_unsplice {h h' : Heap α} {X Y : List Nat} {q p r : Nat}
    (hnd : (X ++ q :: p :: r :: Y).Nodup) (hc : (X ++ q :: p :: r :: Y).Chain' (Link h))
    (hn : ∀ x, x ≠ p → h'.nextOf x = if x = q then some r else h.nextOf x)
    (hp : ∀ x, x ≠ p → h'.prevOf x = if x = r then some q else h.prevOf x) :
    (X ++ q :: r :: Y).Nodup ∧ (X ++ q :: r :: Y).Chain' (Link h') := by
  have hsub : (X ++ q :: r :: Y).Sublist (X ++ q :: p :: r :: Y) :=
    List.Sublist.append (List.Sublist.refl X)
      (List.Sublist.cons₂ q (List.Sublist.cons p (List.Sublist.refl _)))
  refine ⟨hnd.sublist hsub, ?_⟩
  rw [List.nodup_append] at hnd
  obtain ⟨ndX, ndR, hdis⟩ := hnd
  simp only [List.nodup_cons, List.mem_cons, not_or] at ndR
  obtain ⟨⟨hqp, hqr, hqY⟩, ⟨hpr, hpY⟩, hrY, ndY⟩ := ndR
  rw [List.chain'_split] at hc ⊢
  obtain ⟨hc1, hc2⟩ := hc
  rw [List.chain'_cons, List.chain'_cons] at hc2
  refine ⟨chain_frame hc1 ?_ ?_, ?_⟩
  · intro a ha
    rw [List.dropLast_concat] at ha
    have haq : a ≠ q := fun e => hdis ha (by simp [e])
    have hap : a ≠ p := fun e => hdis ha (by simp [e])
    rw [hn a hap, if_neg haq]
  · intro b hb
    have hb2 : b ∈ X ++ [q] := List.mem_of_mem_tail hb
    have hbp : b ≠ p := by
      rintro rfl
      rcases List.mem_append.mp hb2 with hbX | hbq
      · exact hdis hbX (by simp)
      · simp at hbq; exact hqp hbq.symm
    have hbr : b ≠ r := by
      rintro rfl
      rcases List.mem_append.mp hb2 with hbX | hbq
      · exact hdis hbX (by simp)
      · simp at hbq; exact hqr hbq.symm
    rw [hp b hbp, if_neg hbr]
  · rw [List.chain'_cons]
    refine ⟨⟨?_, ?_⟩, chain_frame hc2.2.2 ?_ ?_⟩
    · rw [hn q hqp, if_pos rfl]
    · rw [hp r (Ne.symm hpr), if_pos rfl]
    · intro a ha
      have ha2 : a ∈ r :: Y := List.mem_of_mem_dropLast ha
      have haq : a ≠ q := by
        rintro rfl
        rcases List.mem_cons.mp ha2 with e | e
        · exact hqr e
        · exact hqY e
      have hap : a ≠ p := by
        rintro rfl
        rcases List.mem_cons.mp ha2 with e | e
        · exact hpr e
        · exact hpY e
      rw [hn a hap, if_neg haq]
    · intro b hb
      simp only [List.tail_cons] at hb
      have hbr : b ≠ r := fun e => hrY (e ▸ hb)
      have hbp : b ≠ p := fun e => hpY (e ▸ hb)
      rw [hp b hbp, if_neg hbr]

end chains

/-! ### Well-formed lists: positions, splice and unsplice -/

section representation
variable {α : Type}
open Heap

theorem cells_split (l : list) {P Q : List Nat} {q p : Nat}
    (hq : (l.m_head :: P).getLast? = some q) (hp : (Q ++ [l.m_tail]).head? = some p) :
    ∃ X Y, l.m_head :: P = X ++ [q] ∧ Q ++ [l.m_tail] = p :: Y ∧
      cells l (P ++ Q) = X ++ q :: p :: Y := by
  obtain ⟨X, hX⟩ := List.getLast?_eq_some_iff.mp hq
  obtain ⟨Y, hY⟩ := List.head?_eq_some_iff.mp hp
  refine ⟨X, Y, hX, hY, ?_⟩
  unfold cells
  rw [List.append_assoc, ← List.cons_append, hX, hY]
  simp

theorem cells_length (l : list) (ps : List Nat) : 2 ≤ (cells l ps).length := by
  simp [cells]

theorem Linked.live {h : Heap α} {l : list} {ps : List Nat} (hl : Linked h l ps) :
    ∀ x ∈ cells l ps, h.Live x :=
  chain_live hl.2 (cells_length l ps)

theorem Linked.at_split {h : Heap α} {l : list} {P Q : List Nat} {q p : Nat}
    (hl : Linked h l (P ++ Q))
    (hq : (l.m_head :: P).getLast? = some q) (hp : (Q ++ [l.m_tail]).head? = some p) :
    h.nextOf q = some p ∧ h.prevOf p = some q ∧ h.Live q ∧ h.Live p := by
  obtain ⟨X, Y, -, -, hc⟩ := cells_split l hq hp
  have hlive := hl.live
  obtain ⟨-, hch⟩ := hl
  rw [hc] at hch hlive
  have h2 := (List.chain'_split.mp hch).2
  rw [List.chain'_cons] at h2
  exact ⟨h2.1.1, h2.1.2, hlive q (by simp), hlive p (by simp)⟩

theorem Linked.splice_links {h h' : Heap α} {l : list} {P Q : List Nat} {q p t : Nat}
    (hl : Linked h l (P ++ Q))
    (hq : (l.m_head :: P).getLast? = some q) (hp : (Q ++ [l.m_tail]).head? = some p)
    (ht : ¬ h.Live t)
    (hn : ∀ x, h'.nextOf x = if x = q then some t else if x = t then some p else h.nextOf x)
    (hpv : ∀ x, h'.prevOf x = if x = p then some t else if x = t then some q else h.prevOf x) :
    Linked h' l (P ++ t :: Q) := by
  obtain ⟨X, Y, hX, hY, hc⟩ := cells_split l hq hp
  have hlive := hl.live
  have htc : t ∉ cells l (P ++ Q) := fun hmem => ht (hlive t hmem)
  obtain ⟨hnd, hch⟩ := hl
  rw [hc] at hnd hch htc
  have key := chain_splice hnd hch htc hn hpv
  have hc' : cells l (P ++ t :: Q) = X ++ q :: t :: p :: Y := by
    unfold cells
    rw [List.append_assoc, ← List.cons_append, hX, List.cons_append, hY]
    simp
  unfold Linked
  rw [hc']
  exact key

theorem Linked.unsplice_links {h h' : Heap α} {l : list} {P Q : List Nat} {q p r : Nat}
    (hl : Linked h l (P ++ p :: Q))
    (hq : (l.m_head :: P).getLast? = some q) (hr : (Q ++ [l.m_tail]).head? = some r)
    (hn : ∀ x, x ≠ p → h'.nextOf x = if x = q then some r else h.nextOf x)
    (hpv : ∀ x, x ≠ p → h'.prevOf x = if x = r then some q else h.prevOf x) :
    Linked h' l (P ++ Q) := by
  obtain ⟨X, Y, hX, hY, hc⟩ := cells_split l hq hr
  have hc' : cells l (P ++ p :: Q) = X ++ q :: p :: r :: Y := by
    unfold cells
    rw [List.append_assoc, ← List.cons_append, hX, List.cons_append, hY]
    simp
  obtain ⟨hnd, hch⟩ := hl
  rw [hc'] at hnd hch
  have key := chain_unsplice hnd hch hn hpv
  unfold Linked
  rw [hc]
  exact key

theorem Linked.at_node {h : Heap α} {l : list} {P Q : List Nat} {q p r : Nat}
    (hl : Linked h l (P ++ p :: Q))
    (hq : (l.m_head :: P).getLast? = some q) (hr : (Q ++ [l.m_tail]).head? = some r) :
    h.prevOf p = some q ∧ h.nextOf p = some r ∧ h.Live q ∧ h.Live r ∧ h.Live p := by
  have hp1 : ((p :: Q) ++ [l.m_tail]).head? = some p := by simp
  have h1 := Linked.at_split hl hq hp1
  have hl2 : Linked h l ((P ++ [p]) ++ Q) := by simpa using hl
  have hp2 : (l.m_head :: (P ++ [p])).getLast? = some p := by
    rw [← List.cons_append, List.getLast?_concat]
  have h2 := Linked.at_split hl2 hp2 hr
  exact ⟨h1.2.1, h2.1, h1.2.2.1, h2.2.2.2, h1.2.2.2⟩

theorem mem_cells_of_getLast {l : list} {P Q : List Nat} {q : Nat}
    (hq : (l.m_head :: P).getLast? = some q) : q ∈ cells l (P ++ Q) := by
  have := List.mem_of_getLast?_eq_some hq
  simp only [cells, List.mem_cons, List.mem_append] at this ⊢
  tauto

theorem mem_cells_of_head {l : list} {P Q : List Nat} {p : Nat}
    (hp : (Q ++ [l.m_tail]).head? = some p) : p ∈ cells l (P ++ Q) := by
  have := List.mem_of_mem_head? hp
  simp only [cells, List.mem_cons, List.mem_append] at this ⊢
  tauto

theorem Rep.splice {h h' : Heap α} {l : list} {P Q : List (Nat × α)} {q p : Nat} {v : α}
    (hr : Rep h l (P ++ Q))
    (hq : (l.m_head :: P.map Prod.fst).getLast? = some q)
    (hp : (Q.map Prod.fst ++ [l.m_tail]).head? = some p)
    (hn : ∀ x, h'.nextOf x = if x = q then some (h.length + 1)
      else if x = h.length + 1 then some p else h.nextOf x)
    (hpv : ∀ x, h'.prevOf x = if x = p then some (h.length + 1)
      else if x = h.length + 1 then some q else h.prevOf x)
    (hd : ∀ x, h'.dataOf x = if x = h.length + 1 then some v else h.dataOf x) :
    Rep h' { l with m_size := l.m_size + 1 } (P ++ (h.length + 1, v) :: Q) ∧
      Frame h h' (cells l ((P ++ Q).map Prod.fst)) := by
  obtain ⟨hl, hdat, hsz⟩ := hr
  rw [List.map_append] at hl
  have hfresh : ∀ x, h.Live x → x ≠ h.length + 1 := by
    intro x hx; have := live_le_length hx; omega
  refine ⟨⟨?_, ?_, ?_⟩, ?_⟩
  · have := Linked.splice_links hl hq hp (not_live_succ_length h) hn hpv
    simpa using this
  · intro e he
    rw [hd]
    rcases List.mem_append.mp he with he | he
    · rw [if_neg (hfresh _ (live_of_dataOf (hdat e (by simp [he]))))]
      exact hdat e (by simp [he])
    · rcases List.mem_cons.mp he with rfl | he
      · simp
      · rw [if_neg (hfresh _ (live_of_dataOf (hdat e (by simp [he]))))]
        exact hdat e (by simp [he])
  · simp only [List.length_append, List.length_cons] at hsz ⊢
    rw [hsz]; push_cast; ring
  · intro x hx hxc
    rw [List.map_append] at hxc
    have hxq : x ≠ q := fun e => hxc (e ▸ mem_cells_of_getLast hq)
    have hxp : x ≠ p := fun e => hxc (e ▸ mem_cells_of_head hp)
    have hxt : x ≠ h.length + 1 := by omega
    rw [hn, hpv, hd, if_neg hxq, if_neg hxp, if_neg hxt, if_neg hxt, if_neg hxt]
    exact ⟨rfl, rfl, rfl⟩

theorem Rep.unsplice {h h' : Heap α} {l : list} {P Q : List (Nat × α)} {p q r : Nat} {a : α}
    (hr : Rep h l (P ++ (p, a) :: Q))
    (hq : (l.m_head :: P.map Prod.fst).getLast? = some q)
    (hrr : (Q.map Prod.fst ++ [l.m_tail]).head? = some r)
    (hn : ∀ x, h'.nextOf x = if x = p then none else if x = q then some r else h.nextOf x)
    (hpv : ∀ x, h'.prevOf x = if x = p then none else if x = r then some q else h.prevOf x)
    (hd : ∀ x, h'.dataOf x = if x = p then none else h.dataOf x) :
    Rep h' { l with m_size := l.m_size - 1 } (P ++ Q) ∧
      Frame h h' (cells l ((P ++ (p, a) :: Q).map Prod.fst)) := by
  obtain ⟨hl, hdat, hsz⟩ := hr
  rw [List.map_append, List.map_cons] at hl
  have hnd := hl.1
  refine ⟨⟨?_, ?_, ?_⟩, ?_⟩
  · have := Linked.unsplice_links hl hq hrr (fun x hx => by rw [hn, if_neg hx])
      (fun x hx => by rw [hpv, if_neg hx])
    simpa using this
  · intro e he
    have hmem : e ∈ P ++ (p, a) :: Q := by
      rcases List.mem_append.mp he with he | he
      · simp [he]
      · simp [he]
    have hne : e.1 ≠ p := by
      intro hep
      have hnd2 : (P.map Prod.fst ++ p :: Q.map Prod.fst).Nodup :=
        (List.nodup_cons.mp hnd).2.of_append_left
      have hnot := (List.nodup_cons.mp (List.nodup_middle.mp hnd2)).1
      apply hnot
      rw [← hep, ← List.map_append]
      exact List.mem_map_of_mem _ he
    rw [hd, if_neg hne]
    exact hdat e hmem
  · simp only [List.length_append, List.length_cons] at hsz ⊢
    rw [hsz]; push_cast; ring
  · intro x hx hxc
    rw [List.map_append, List.map_cons] at hxc
    have hxq : x ≠ q := fun e => hxc (e ▸ mem_cells_of_getLast hq)
    have hxr : x ≠ r := by
      intro e
      have := @mem_cells_of_head l (P.map Prod.fst ++ [p]) (Q.map Prod.fst) r hrr
      simp only [List.append_assoc, List.singleton_append] at this
      exact hxc (e ▸ this)
    have hxp : x ≠ p := by
      intro e; apply hxc; simp [cells, e]
    rw [hn, hpv, hd, if_neg hxq, if_neg hxp, if_neg hxr, if_neg hxp, if_neg hxp]
    exact ⟨rfl, rfl, rfl⟩

end representation

/-! ### The end and position operations on a well-formed list -/

section representation_ops
variable {α : Type}
open Heap

theorem exists_getLast (a : Nat) (P : List Nat) : ∃ q, (a :: P).getLast? = some q := by
  cases hq : (a :: P).getLast? with
  | none => simp at hq
  | some q => exact ⟨q, rfl⟩

theorem exists_head (Q : List Nat) (b : Nat) : ∃ p, (Q ++ [b]).head? = some p := by
  cases Q with
  | nil => exact ⟨b, rfl⟩
  | cons c Q => exact ⟨c, rfl⟩

theorem Rep.insert {h : Heap α} {l : list} {P Q : List (Nat × α)} {q p : Nat} (v : α)
    (hr : Rep h l (P ++ Q))
    (hq : (l.m_head :: P.map Prod.fst).getLast? = some q)
    (hp : (Q.map Prod.fst ++ [l.m_tail]).head? = some p) :
    ∃ h', l.insert ⟨p⟩ v h = some (⟨q⟩, { l with m_size := l.m_size + 1 }, h') ∧
      h'.length = h.length + 1 ∧
      Rep h' { l with m_size := l.m_size + 1 } (P ++ (h.length + 1, v) :: Q) ∧
      Frame h h' (cells l ((P ++ Q).map Prod.fst)) := by
  have hl := hr.1
  rw [List.map_append] at hl
  obtain ⟨-, hpq, hlq, -⟩ := Linked.at_split hl hq hp
  obtain ⟨h', e, len, hn, hpv, hd⟩ :=
    list.insert_spec l ⟨p⟩ v hpq hlq
  obtain ⟨r1, r2⟩ := Rep.splice hr hq hp hn hpv hd
  exact ⟨h', e, len, r1, r2⟩

theorem Rep.push_back {h : Heap α} {l : list} {ns : List (Nat × α)} (v : α) (hr : Rep h l ns) :
    ∃ h', l.push_back v h = some ({ l with m_size := l.m_size + 1 }, h') ∧
      h'.length = h.length + 1 ∧
      Rep h' { l with m_size := l.m_size + 1 } (ns ++ [(h.length + 1, v)]) ∧
      Frame h h' (cells l (ns.map Prod.fst)) := by
  obtain ⟨q, hq⟩ := exists_getLast l.m_head (ns.map Prod.fst)
  have hp : ((([] : List (Nat × α)).map Prod.fst) ++ [l.m_tail]).head? = some l.m_tail := rfl
  have hr' : Rep h l (ns ++ []) := by simpa using hr
  have hl := hr'.1
  rw [List.map_append] at hl
  obtain ⟨-, hpq, hlq, -⟩ := Linked.at_split hl hq hp
  obtain ⟨h', e, len, hn, hpv, hd⟩ := list.push_back_spec l v hpq hlq
  obtain ⟨r1, r2⟩ := Rep.splice hr' hq hp hn hpv hd
  refine ⟨h', e, len, r1, ?_⟩
  simpa using r2

theorem Rep.push_front {h : Heap α} {l : list} {ns : List (Nat × α)} (v : α) (hr : Rep h l ns) :
    ∃ h', l.push_front v h = some ({ l with m_size := l.m_size + 1 }, h') ∧
      h'.length = h.length + 1 ∧
      Rep h' { l with m_size := l.m_size + 1 } ((h.length + 1, v) :: ns) ∧
      Frame h h' (cells l (ns.map Prod.fst)) := by
  obtain ⟨p, hp⟩ := exists_head (ns.map Prod.fst) l.m_tail
  have hq : (l.m_head :: (([] : List (Nat × α)).map Prod.fst)).getLast? = some l.m_head := rfl
  have hr' : Rep h l ([] ++ ns) := by simpa using hr
  have hl := hr'.1
  rw [List.map_append] at hl
  obtain ⟨hqp, -, -, hlp⟩ := Linked.at_split hl hq hp
  obtain ⟨h', e, len, hn, hpv, hd⟩ := list.push_front_spec l v hqp hlp
  obtain ⟨r1, r2⟩ := Rep.splice hr' hq hp hn hpv hd
  refine ⟨h', e, len, ?_, ?_⟩
  · simpa using r1
  · simpa using r2

theorem Rep.erase {h : Heap α} {l : list} {P Q : List (Nat × α)} {p q r : Nat} {a : α}
    (hr : Rep h l (P ++ (p, a) :: Q))
    (hq : (l.m_head :: P.map Prod.fst).getLast? = some q)
    (hrr : (Q.map Prod.fst ++ [l.m_tail]).head? = some r) :
    ∃ h', l.erase ⟨p⟩ h = some (⟨r⟩, { l with m_size := l.m_size - 1 }, h') ∧
      h'.length = h.length ∧
      Rep h' { l with m_size := l.m_size - 1 } (P ++ Q) ∧
      Frame h h' (cells l ((P ++ (p, a) :: Q).map Prod.fst)) := by
  have hl := hr.1
  rw [List.map_append, List.map_cons] at hl
  obtain ⟨hpq, hpr, hlq, hlr, -⟩ := Linked.at_node hl hq hrr
  obtain ⟨h', e, len, hn, hpv, hd⟩ :=
    list.erase_spec l ⟨p⟩ hpq hpr hlq hlr
  obtain ⟨r1, r2⟩ := Rep.unsplice hr hq hrr hn hpv hd
  exact ⟨h', e, len, r1, r2⟩

theorem Rep.rep_head_next {h : Heap α} {l : list} {ns : List (Nat × α)} (hr : Rep h l ns) :
    h.nextOf l.m_head = (ns.map Prod.fst ++ [l.m_tail]).head? := by
  obtain ⟨p, hp⟩ := exists_head (ns.map Prod.fst) l.m_tail
  have hq : (l.m_head :: (([] : List (Nat × α)).map Prod.fst)).getLast? = some l.m_head := rfl
  have hl : Linked h l ((([] : List (Nat × α)).map Prod.fst) ++ ns.map Prod.fst) := by
    simpa using hr.1
  rw [hp]
  exact (Linked.at_split hl hq hp).1

theorem Rep.rep_tail_prev {h : Heap α} {l : list} {ns : List (Nat × α)} (hr : Rep h l ns) :
    h.prevOf l.m_tail = (l.m_head :: ns.map Prod.fst).getLast? := by
  obtain ⟨q, hq⟩ := exists_getLast l.m_head (ns.map Prod.fst)
  have hp : ((([] : List (Nat × α)).map Prod.fst) ++ [l.m_tail]).head? = some l.m_tail := rfl
  have hl : Linked h l (ns.map Prod.fst ++ (([] : List (Nat × α)).map Prod.fst)) := by
    simpa using hr.1
  rw [hq]
  exact (Linked.at_split hl hq hp).2.1

theorem Rep.ne_tail {h : Heap α} {l : list} {ns : List (Nat × α)} (hr : Rep h l ns) :
    ∀ e ∈ ns, e.1 ≠ l.m_tail := by
  intro e he heq
  have hnd := (List.nodup_cons.mp hr.1.1).2
  have := (List.nodup_cons.mp (List.nodup_middle.mp hnd)).1
  apply this
  rw [← heq]
  simpa using List.mem_map_of_mem Prod.fst he

theorem Rep.ne_head {h : Heap α} {l : list} {ns : List (Nat × α)} (hr : Rep h l ns) :
    ∀ e ∈ ns, e.1 ≠ l.m_head := by
  intro e he heq
  have hnd := (List.nodup_cons.mp hr.1.1).1
  apply hnd
  rw [← heq]
  simp only [List.mem_append]
  exact Or.inl (List.mem_map_of_mem Prod.fst he)

theorem Rep.head_ne_tail {h : Heap α} {l : list} {ns : List (Nat × α)} (hr : Rep h l ns) :
    l.m_head ≠ l.m_tail := by
  intro heq
  have hnd := (List.nodup_cons.mp hr.1.1).1
  apply hnd
  simp [heq]

theorem Rep.pop_front {h : Heap α} {l : list} {Q : List (Nat × α)} {p : Nat} {a : α}
    (hr : Rep h l ((p, a) :: Q)) :
    ∃ h', l.pop_front h = some ({ l with m_size := l.m_size - 1 }, h') ∧
      h'.length = h.length ∧
      Rep h' { l with m_size := l.m_size - 1 } Q ∧
      Frame h h' (cells l (((p, a) :: Q).map Prod.fst)) := by
  obtain ⟨r, hrr⟩ := exists_head (Q.map Prod.fst) l.m_tail
  have hq : (l.m_head :: (([] : List (Nat × α)).map Prod.fst)).getLast? = some l.m_head := rfl
  have hr' : Rep h l ([] ++ (p, a) :: Q) := by simpa using hr
  have hl := hr'.1
  rw [List.map_append, List.map_cons] at hl
  obtain ⟨-, hpr, -, hlr, -⟩ := Linked.at_node hl hq hrr
  have hhn := hr.rep_head_next
  simp only [List.map_cons, List.cons_append, List.head?_cons] at hhn
  have hne : p ≠ l.m_tail := hr.ne_tail (p, a) (by simp)
  obtain ⟨h', e, len, hn, hpv, hd⟩ := list.pop_front_spec l hhn hne hpr hlr
  obtain ⟨r1, r2⟩ := Rep.unsplice hr' hq hrr hn hpv hd
  refine ⟨h', e, len, ?_, ?_⟩
  · simpa using r1
  · simpa using r2

theorem Rep.pop_back {h : Heap α} {l : list} {P : List (Nat × α)} {p : Nat} {a : α}
    (hr : Rep h l (P ++ [(p, a)])) :
    ∃ h', l.pop_back h = some ({ l with m_size := l.m_size - 1 }, h') ∧
      h'.length = h.length ∧
      Rep h' { l with m_size := l.m_size - 1 } P ∧
      Frame h h' (cells l ((P ++ [(p, a)]).map Prod.fst)) := by
  obtain ⟨q, hq⟩ := exists_getLast l.m_head (P.map Prod.fst)
  have hrr : ((([] : List (Nat × α)).map Prod.fst) ++ [l.m_tail]).head? = some l.m_tail := rfl
  have hl := hr.1
  rw [List.map_append, List.map_cons] at hl
  obtain ⟨hpq, -, hlq, -, -⟩ := Linked.at_node hl hq hrr
  obtain ⟨hn0, hhn0⟩ := exists_head ((P ++ [(p, a)]).map Prod.fst) l.m_tail
  have hhn := hr.rep_head_next
  rw [hhn0] at hhn
  have hne : hn0 ≠ l.m_tail := by
    have hmem := List.mem_of_mem_head? hhn0
    have : hn0 ∈ (P ++ [(p, a)]).map Prod.fst := by
      cases hP : (P ++ [(p, a)]).map Prod.fst with
      | nil => simp at hP
      | cons c rest =>
        rw [hP] at hhn0
        simp only [List.cons_append, List.head?_cons, Option.some.injEq] at hhn0
        rw [← hhn0]; simp
    obtain ⟨e, he, rfl⟩ := List.mem_map.mp this
    exact hr.ne_tail e he
  have htp := hr.rep_tail_prev
  rw [List.map_append, List.map_cons, List.map_nil, ← List.cons_append,
    List.getLast?_concat] at htp
  obtain ⟨h', e, len, hn, hpv, hd⟩ := list.pop_back_spec l hhn hne htp hpq hlq
  have hpv' : ∀ x, h'.prevOf x = if x = p then none else if x = l.m_tail then some q
      else h.prevOf x := hpv
  obtain ⟨r1, r2⟩ := Rep.unsplice hr hq hrr hn hpv' hd
  refine ⟨h', e, len, ?_, r2⟩
  simpa using r1

end representation_ops

/-! ### The default constructor and forward iteration -/

section traversal
variable {α : Type}
open Heap

theorem Rep.ctor [Inhabited α] (h : Heap α) :
    ∃ h', list.ctor h = some (⟨0, h.length + 1, h.length + 2⟩, h') ∧
      h'.length = h.length + 2 ∧ Rep h' ⟨0, h.length + 1, h.length + 2⟩ [] ∧ Frame h h' [] := by
  obtain ⟨h', e, len, hn, hpv, hd⟩ := list.ctor_spec h
  refine ⟨h', e, len, ⟨⟨?_, ?_⟩, ?_, ?_⟩, ?_⟩
  · simp [cells]
  · simp only [cells, List.map_nil, List.nil_append, List.chain'_cons, List.chain'_singleton,
      and_true, Link]
    constructor
    · rw [hn, if_pos rfl]
    · rw [hpv, if_pos rfl]
  · simp
  · simp
  · intro x hx _
    have h1 : x ≠ h.length + 1 := by omega
    have h2 : x ≠ h.length + 2 := by omega
    rw [hn, hpv, hd, if_neg h1, if_neg h2, if_neg h1, if_neg h2, if_neg h1, if_neg h2]
    exact ⟨rfl, rfl, rfl⟩

theorem traverse_loop_chain {h : Heap α} {tl : Nat} :
    ∀ (ns : List (Nat × α)) (fuel p : Nat),
      (ns.map Prod.fst ++ [tl]).Chain' (Link h) → (∀ e ∈ ns, e.1 ≠ tl) →
      (∀ e ∈ ns, h.dataOf e.1 = some e.2) → ns.length < fuel →
      (ns.map Prod.fst ++ [tl]).head? = some p →
      traverse_loop h ⟨tl⟩ fuel ⟨p⟩ = some (ns.map Prod.snd)
  | [], fuel, p, _, _, _, hf, hp => by
    obtain ⟨n, rfl⟩ : ∃ n, fuel = n + 1 := ⟨fuel - 1, by simp at hf; omega⟩
    simp at hp
    simp [traverse_loop, iterator.ne, hp]
  | (a, x) :: rest, fuel, p, hc, hne, hd, hf, hp => by
    obtain ⟨n, rfl⟩ : ∃ n, fuel = n + 1 := ⟨fuel - 1, by simp at hf; omega⟩
    simp only [List.map_cons, List.cons_append, List.head?_cons, Option.some.injEq] at hp
    subst hp
    obtain ⟨p', hp'⟩ := exists_head (rest.map Prod.fst) tl
    have hc' : (a :: (rest.map Prod.fst ++ [tl])).Chain' (Link h) := by simpa using hc
    rw [List.chain'_cons'] at hc'
    have hnext : h.nextOf a = some p' := (hc'.1 p' hp').1
    have ih := traverse_loop_chain rest n p' hc'.2 (fun e he => hne e (by simp [he]))
      (fun e he => hd e (by simp [he])) (by simp at hf; omega) hp'
    have hat : a ≠ tl := hne (a, x) (by simp)
    have hda : h.dataOf a = some x := hd (a, x) (by simp)
    simp [traverse_loop, iterator.ne, hat, iterator.deref, hda, iterator.preinc, hnext, ih]

theorem Rep.rep_traverse {h : Heap α} {l : list} {ns : List (Nat × α)} (hr : Rep h l ns)
    (fuel : Nat) (hf : ns.length < fuel) :
    l.traverse fuel h = some (ns.map Prod.snd) := by
  obtain ⟨p, hp⟩ := exists_head (ns.map Prod.fst) l.m_tail
  have hhn := hr.rep_head_next
  rw [hp] at hhn
  have hc : (ns.map Prod.fst ++ [l.m_tail]).Chain' (Link h) := by
    have := hr.1.2
    unfold cells at this
    exact (List.chain'_cons'.mp this).2
  have := traverse_loop_chain ns fuel p hc hr.ne_tail hr.2.1 hf hp
  simp [list.traverse, list.begin, hhn, list.end, this]

end traversal

/-! ### Frames across several steps and the loop of `push_back` -/

section push_loops
variable {α : Type}
open Heap

theorem Frame.trans {h h1 h2 : Heap α} {cs cs' : List Nat} (f1 : Frame h h1 cs)
    (f2 : Frame h1 h2 cs') (hlen : h.length ≤ h1.length)
    (hsub : ∀ x ∈ cs', x ≤ h.length → x ∈ cs) : Frame h h2 cs := by
  intro x hx hxc
  obtain ⟨a1, a2, a3⟩ := f1 x hx hxc
  obtain ⟨b1, b2, b3⟩ := f2 x (by omega) (fun hm => hxc (hsub x hm hx))
  exact ⟨b1.trans a1, b2.trans a2, b3.trans a3⟩

theorem Frame.refl (h : Heap α) (cs : List Nat) : Frame h h cs :=
  fun _ _ _ => ⟨rfl, rfl, rfl⟩

theorem cells_append_singleton_sub {l : list} {ps : List Nat} {t n : Nat} (ht : n < t) :
    ∀ x ∈ cells l (ps ++ [t]), x ≤ n → x ∈ cells l ps := by
  intro x hx hxn
  simp only [cells, List.mem_cons, List.mem_append, List.mem_singleton, List.not_mem_nil,
    or_false] at hx ⊢
  rcases hx with h1 | (h2 | h3) | h4
  · exact Or.inl h1
  · exact Or.inr (Or.inl h2)
  · omega
  · exact Or.inr (Or.inr h4)

theorem Rep.push_back_each {h : Heap α} {l : list} {ns : List (Nat × α)} (hr : Rep h l ns) :
    ∀ (S : List α), ∃ l' h' ns', l.push_back_each S h = some (l', h') ∧
      Rep h' l' (ns ++ ns') ∧ ns'.map Prod.snd = S ∧
      l'.m_head = l.m_head ∧ l'.m_tail = l.m_tail ∧ h'.length = h.length + S.length ∧
      (∀ e ∈ ns', h.length < e.1) ∧ Frame h h' (cells l (ns.map Prod.fst)) := by
  intro S
  induction S generalizing h l ns with
  | nil =>
    exact ⟨l, h, [], rfl, by simpa using hr, rfl, rfl, rfl, rfl, by simp, Frame.refl _ _⟩
  | cons v S ih =>
    obtain ⟨h1, e1, len1, r1, f1⟩ := hr.push_back v
    obtain ⟨l2, h2, ns2, e2, r2, hS, hh, ht, len2, hfresh, f2⟩ := ih r1
    refine ⟨l2, h2, (h.length + 1, v) :: ns2, ?_, ?_, ?_, hh, ht, ?_, ?_, ?_⟩
    · simp [list.push_back_each, e1, e2]
    · simpa using r2
    · simp [hS]
    · simp only [List.length_cons]; omega
    · intro e he
      rcases List.mem_cons.mp he with rfl | he
      · simp
      · have := hfresh e he; omega
    · refine Frame.trans f1 f2 (by omega) ?_
      intro x hx hxn
      have hx' : x ∈ cells l ((ns.map Prod.fst) ++ [h.length + 1]) := by
        simpa [cells] using hx
      exact cells_append_singleton_sub (Nat.lt_succ_self _) x hx' hxn

end push_loops

/-! ### `empty()`, `front()` and `back()` -/

section access
variable {α : Type}
open Heap

theorem Linked.head_next {h : Heap α} {l : list} {ps : List Nat} (hl : Linked h l ps) :
    h.nextOf l.m_head = (ps ++ [l.m_tail]).head? := by
  obtain ⟨p, hp⟩ := exists_head ps l.m_tail
  have hq : (l.m_head :: ([] : List Nat)).getLast? = some l.m_head := rfl
  have hl' : Linked h l ([] ++ ps) := by simpa using hl
  rw [hp]
  exact (Linked.at_split hl' hq hp).1

theorem Linked.tail_prev {h : Heap α} {l : list} {ps : List Nat} (hl : Linked h l ps) :
    h.prevOf l.m_tail = (l.m_head :: ps).getLast? := by
  obtain ⟨q, hq⟩ := exists_getLast l.m_head ps
  have hp : (([] : List Nat) ++ [l.m_tail]).head? = some l.m_tail := rfl
  have hl' : Linked h l (ps ++ []) := by simpa using hl
  rw [hq]
  exact (Linked.at_split hl' hq hp).2.1

theorem Linked.not_mem_tail {h : Heap α} {l : list} {ps : List Nat} (hl : Linked h l ps) :
    l.m_tail ∉ ps := by
  have hnd := (List.nodup_cons.mp hl.1).2
  have := (List.nodup_cons.mp (List.nodup_middle.mp hnd)).1
  simpa using this

theorem Linked.head_next_eq_tail_iff {h : Heap α} {l : list} {ps : List Nat}
    (hl : Linked h l ps) : h.nextOf l.m_head = some l.m_tail ↔ ps = [] := by
  rw [hl.head_next]
  cases ps with
  | nil => simp
  | cons p ps =>
    have := hl.not_mem_tail
    simp only [List.mem_cons, not_or] at this
    simp only [List.cons_append, List.head?_cons, Option.some.injEq, reduceCtorEq, iff_false]
    exact fun e => this.1 e.symm

theorem Linked.empty {h : Heap α} {l : list} {ps : List Nat} (hl : Linked h l ps) :
    l.empty h = some (decide (ps = [])) := by
  obtain ⟨p, hp⟩ := exists_head ps l.m_tail
  have hn := hl.head_next
  rw [hp] at hn
  have hiff := hl.head_next_eq_tail_iff
  rw [hn] at hiff
  simp only [Option.some.injEq] at hiff
  simp [list.empty, hn, hiff]

theorem Linked.front_nil {h : Heap α} {l : list} (hl : Linked h l []) :
    (l.front h : Option (Access α)) = some (Access.runtime_error "Invalid Action!") := by
  have := hl.head_next_eq_tail_iff.mpr rfl
  simp [list.front, this]

theorem Linked.back_nil {h : Heap α} {l : list} (hl : Linked h l []) :
    (l.back h : Option (Access α)) = some (Access.runtime_error "Invalid Action!") := by
  have := hl.head_next_eq_tail_iff.mpr rfl
  simp [list.back, this]

theorem Linked.front_cons {h : Heap α} {l : list} {p : Nat} {ps : List Nat} {a : α}
    (hl : Linked h l (p :: ps)) (hd : h.dataOf p = some a) :
    l.front h = some (Access.value a) := by
  have hn := hl.head_next
  simp only [List.cons_append, List.head?_cons] at hn
  have hne : p ≠ l.m_tail := by
    have := hl.not_mem_tail
    simp only [List.mem_cons, not_or] at this
    exact fun e => this.1 e.symm
  simp [list.front, hn, hne, hd]

theorem Linked.back_concat {h : Heap α} {l : list} {p : Nat} {ps : List Nat} {a : α}
    (hl : Linked h l (ps ++ [p])) (hd : h.dataOf p = some a) :
    l.back h = some (Access.value a) := by
  obtain ⟨p0, hp0⟩ := exists_head (ps ++ [p]) l.m_tail
  have hn := hl.head_next
  rw [hp0] at hn
  have hne : p0 ≠ l.m_tail := by
    intro e
    have h1 := hl.head_next_eq_tail_iff.mp (by rw [hn, e])
    simp at h1
  have ht := hl.tail_prev
  rw [← List.cons_append, List.getLast?_concat] at ht
  simp [list.back, hn, hne, ht, hd]

end access

/-! ### `operator==` and `operator!=` -/

section compare
variable {α : Type}
open Heap

theorem operator_eq_loop_chain [DecidableEq α] {h : Heap α} {tA tB : Nat} :
    ∀ (nsA nsB : List (Nat × α)) (pA pB : Nat), nsA.length = nsB.length →
      (nsA.map Prod.fst ++ [tA]).Chain' (Link h) → (nsB.map Prod.fst ++ [tB]).Chain' (Link h) →
      (∀ e ∈ nsA, h.dataOf e.1 = some e.2) → (∀ e ∈ nsB, h.dataOf e.1 = some e.2) →
      (nsA.map Prod.fst ++ [tA]).head? = some pA → (nsB.map Prod.fst ++ [tB]).head? = some pB →
      operator_eq_loop h nsA.length ⟨pA⟩ ⟨pB⟩
        = some (decide (nsA.map Prod.snd = nsB.map Prod.snd))
  | [], [], _, _, _, _, _, _, _, _, _ => by simp [operator_eq_loop]
  | [], _ :: _, _, _, hlen, _, _, _, _, _, _ => by simp at hlen
  | _ :: _, [], _, _, hlen, _, _, _, _, _, _ => by simp at hlen
  | (a, x) :: rA, (b, y) :: rB, pA, pB, hlen, hcA, hcB, hdA, hdB, hpA, hpB => by
    simp only [List.map_cons, List.cons_append, List.head?_cons, Option.some.injEq] at hpA hpB
    subst hpA; subst hpB
    obtain ⟨pA', hpA'⟩ := exists_head (rA.map Prod.fst) tA
    obtain ⟨pB', hpB'⟩ := exists_head (rB.map Prod.fst) tB
    have hcA' : (a :: (rA.map Prod.fst ++ [tA])).Chain' (Link h) := by simpa using hcA
    have hcB' : (b :: (rB.map Prod.fst ++ [tB])).Chain' (Link h) := by simpa using hcB
    rw [List.chain'_cons'] at hcA' hcB'
    have hnA : h.nextOf a = some pA' := (hcA'.1 pA' hpA').1
    have hnB : h.nextOf b = some pB' := (hcB'.1 pB' hpB').1
    have hda : h.dataOf a = some x := hdA (a, x) (by simp)
    have hdb : h.dataOf b = some y := hdB (b, y) (by simp)
    have ih := operator_eq_loop_chain rA rB pA' pB' (by simpa using hlen) hcA'.2 hcB'.2
      (fun e he => hdA e (by simp [he])) (fun e he => hdB e (by simp [he])) hpA' hpB'
    by_cases hxy : x = y
    · subst hxy
      simp [operator_eq_loop, const_iterator.deref, hda, hdb, const_iterator.postinc, hnA, hnB, ih]
    · simp [operator_eq_loop, const_iterator.deref, hda, hdb, hxy]

theorem Rep.tail_chain {h : Heap α} {l : list} {ns : List (Nat × α)} (hr : Rep h l ns) :
    (ns.map Prod.fst ++ [l.m_tail]).Chain' (Link h) := by
  have := hr.1.2
  unfold cells at this
  exact (List.chain'_cons'.mp this).2

theorem Rep.operator_eq [DecidableEq α] {h : Heap α} {A B : list} {nsA nsB : List (Nat × α)}
    (hA : Rep h A nsA) (hB : Rep h B nsB) :
    operator_eq A B h
      = some (decide (A.size = B.size ∧ nsA.map Prod.snd = nsB.map Prod.snd)) := by
  obtain ⟨pA, hpA⟩ := exists_head (nsA.map Prod.fst) A.m_tail
  obtain ⟨pB, hpB⟩ := exists_head (nsB.map Prod.fst) B.m_tail
  have hnA := hA.rep_head_next
  have hnB := hB.rep_head_next
  rw [hpA] at hnA
  rw [hpB] at hnB
  by_cases hsz : A.size = B.size
  · have hlen : nsA.length = nsB.length := by
      have := hsz
      simp only [list.size, hA.2.2, hB.2.2] at this
      exact_mod_cast this
    have key := operator_eq_loop_chain nsA nsB pA pB hlen hA.tail_chain hB.tail_chain
      hA.2.1 hB.2.1 hpA hpB
    have hto : A.size.toNat = nsA.length := by simp [list.size, hA.2.2]
    have htoB : B.size.toNat = nsA.length := by rw [← hsz]; exact hto
    simp [sc.operator_eq, list.cbegin, hnA, hnB, hsz, htoB, key]
  · simp [sc.operator_eq, list.cbegin, hnA, hnB, hsz]

theorem operator_ne_loop_eq_not [DecidableEq α] (h : Heap α) :
    ∀ (n : Nat) (l r : const_iterator),
      operator_ne_loop h n l r = (operator_eq_loop h n l r).map not
  | 0, _, _ => rfl
  | n + 1, l, r => by
    simp only [operator_ne_loop, operator_eq_loop]
    cases hl : l.deref h with
    | none => rfl
    | some a =>
      cases hr : r.deref h with
      | none => rfl
      | some b =>
        by_cases hab : a = b
        · cases hpl : l.postinc h with
          | none => simp [hab]
          | some pl =>
            cases hpr : r.postinc h with
            | none => simp [hab]
            | some pr => simp [hab, operator_ne_loop_eq_not h n]
        · simp [hab]

theorem operator_ne_eq_not [DecidableEq α] (A B : list) (h : Heap α) :
    operator_ne A B h = (operator_eq A B h).map not := by
  simp only [operator_ne, operator_eq]
  cases hl : A.cbegin h with
  | none => rfl
  | some l =>
    cases hr : B.cbegin h with
    | none => rfl
    | some r =>
      by_cases hsz : A.size = B.size
      · simp [hsz, operator_ne_loop_eq_not]
      · simp [hsz]

theorem operator_eq_of_size_ne [DecidableEq α] {A B : list} (hsz : A.size ≠ B.size)
    (h : Heap α) (hA : (h.nextOf A.m_head).isSome) (hB : (h.nextOf B.m_head).isSome) :
    operator_eq A B h = some false := by
  obtain ⟨a, ha⟩ := Option.isSome_iff_exists.mp hA
  obtain ⟨b, hb⟩ := Option.isSome_iff_exists.mp hB
  simp [operator_eq, list.cbegin, ha, hb, hsz]

end compare

/-! ### `clear()` -/

section clearing
variable {α : Type}
open Heap

theorem Rep.of_frame {h h' : Heap α} {l : list} {ns : List (Nat × α)} {cs : List Nat}
    (hr : Rep h l ns) (hf : Frame h h' cs) (hdis : ∀ x ∈ cells l (ns.map Prod.fst), x ∉ cs) :
    Rep h' l ns := by
  have hlive := hr.1.live
  have same : ∀ x ∈ cells l (ns.map Prod.fst),
      h'.nextOf x = h.nextOf x ∧ h'.prevOf x = h.prevOf x ∧ h'.dataOf x = h.dataOf x :=
    fun x hx => hf x (live_le_length (hlive x hx)) (hdis x hx)
  refine ⟨⟨hr.1.1, chain_frame hr.1.2 ?_ ?_⟩, ?_, hr.2.2⟩
  · intro a ha
    exact (same a (List.mem_of_mem_dropLast ha)).1
  · intro b hb
    exact (same b (List.mem_of_mem_tail hb)).2.1
  · intro e he
    have hmem : e.1 ∈ cells l (ns.map Prod.fst) := by
      simp only [cells, List.mem_cons, List.mem_append]
      exact Or.inr (Or.inl (List.mem_map_of_mem Prod.fst he))
    rw [(same e.1 hmem).2.2]
    exact hr.2.1 e he

theorem list.clear_loop_congr (l l' : list) (hh : l.m_head = l'.m_head)
    (ht : l.m_tail = l'.m_tail) :
    ∀ (fuel aux : Nat) (h : Heap α), l.clear_loop fuel aux h = l'.clear_loop fuel aux h
  | 0, _, _ => rfl
  | fuel + 1, aux, h => by
    have ih := list.clear_loop_congr l l' hh ht fuel
    simp only [list.clear_loop, hh, ht, ih]

theorem clear_step_spec {h : Heap α} (l : list) {target r : Nat}
    (hlh : h.Live l.m_head) (hr : h.nextOf target = some r) (hlr : h.Live r) :
    ∃ h1 h2 h', h.setNext l.m_head r = some h1 ∧ h1.setPrev r l.m_head = some h2 ∧
      h2.free target = some h' ∧ h'.length = h.length ∧
      (∀ x, h'.nextOf x = if x = target then none else if x = l.m_head then some r
        else h.nextOf x) ∧
      (∀ x, h'.prevOf x = if x = target then none else if x = r then some l.m_head
        else h.prevOf x) ∧
      (∀ x, h'.dataOf x = if x = target then none else h.dataOf x) := by
  have hltg : h.Live target := live_of_nextOf hr
  obtain ⟨h1, e1, len1, n1, p1, d1⟩ := setNext_spec r hlh
  obtain ⟨h2, e2, len2, n2, p2, d2⟩ := setPrev_spec l.m_head (hlr.congr (d1 r) : h1.Live r)
  obtain ⟨h3, e3, len3, n3, p3, d3⟩ :=
    free_spec (hltg.congr (by rw [d2, d1]) : h2.Live target)
  refine ⟨h1, h2, h3, e1, e2, e3, by omega, ?_, ?_, ?_⟩
  · intro x; rw [n3, n2, n1]
  · intro x; rw [p3, p2, p1]
  · intro x; rw [d3, d2, d1]

theorem Rep.clear_loop {h : Heap α} {l : list} {ns : List (Nat × α)} (hr : Rep h l ns) :
    ∀ {p : Nat}, (ns.map Prod.fst ++ [l.m_tail]).head? = some p →
    ∃ h', Rep h' { l with m_size := 0 } [] ∧ h'.length = h.length ∧
      Frame h h' (cells l (ns.map Prod.fst)) ∧
      ∀ fuel, l.clear_loop fuel p h = if ns.length < fuel then some h' else none := by
  induction ns generalizing h l with
  | nil =>
    intro p hp
    simp only [List.map_nil, List.nil_append, List.head?_cons, Option.some.injEq] at hp
    subst hp
    refine ⟨h, ⟨hr.1, hr.2.1, by simp⟩, rfl, Frame.refl _ _, ?_⟩
    intro fuel
    cases fuel with
    | zero => simp [list.clear_loop]
    | succ n => simp [list.clear_loop]
  | cons e Q ih =>
    intro p hp
    obtain ⟨a, x⟩ := e
    simp only [List.map_cons, List.cons_append, List.head?_cons, Option.some.injEq] at hp
    subst hp
    obtain ⟨r, hrr⟩ := exists_head (Q.map Prod.fst) l.m_tail
    have hq : (l.m_head :: (([] : List (Nat × α)).map Prod.fst)).getLast? = some l.m_head := rfl
    have hr' : Rep h l ([] ++ (a, x) :: Q) := by simpa using hr
    have hl := hr'.1
    rw [List.map_append, List.map_cons] at hl
    obtain ⟨-, hpr, hlh, hlr, -⟩ := Linked.at_node hl hq hrr
    have hne : a ≠ l.m_tail := hr.ne_tail (a, x) (by simp)
    obtain ⟨g1, g2, h1, e1, e2, e3, len1, hn, hpv, hd⟩ := clear_step_spec l hlh hpr hlr
    obtain ⟨r1, f1⟩ := Rep.unsplice hr' hq hrr hn hpv hd
    simp only [List.nil_append] at r1 f1
    obtain ⟨h2, r2, len2, f2, hloop⟩ := ih r1 hrr
    refine ⟨h2, by simpa using r2, by omega, ?_, ?_⟩
    · refine Frame.trans f1 f2 (by omega) ?_
      intro y hy _
      simp only [cells, List.map_cons, List.mem_cons, List.mem_append] at hy ⊢
      tauto
    · intro fuel
      cases fuel with
      | zero => simp [list.clear_loop]
      | succ n =>
        have hcongr := list.clear_loop_congr l { l with m_size := l.m_size - 1 } rfl rfl n r h1
        simp only [list.clear_loop, hne, ne_eq, not_false_eq_true, if_true, hpr,
          Option.bind_eq_bind, Option.some_bind, e1, e2, e3, hcongr, hloop, List.length_cons,
          Nat.add_lt_add_iff_right]

theorem Rep.clear {h : Heap α} {l : list} {ns : List (Nat × α)} (hr : Rep h l ns) :
    ∃ h', Rep h' { l with m_size := 0 } [] ∧ h'.length = h.length ∧
      Frame h h' (cells l (ns.map Prod.fst)) ∧
      ∀ fuel, l.clear fuel h
        = if ns.length < fuel then some ({ l with m_size := 0 }, h') else none := by
  obtain ⟨p, hp⟩ := exists_head (ns.map Prod.fst) l.m_tail
  have hn := hr.rep_head_next
  rw [hp] at hn
  obtain ⟨h', r, len, f, hloop⟩ := hr.clear_loop hp
  refine ⟨h', r, len, f, fun fuel => ?_⟩
  simp only [list.clear, hn, Option.bind_eq_bind, Option.some_bind, hloop]
  split_ifs <;> rfl

end clearing

/-! ### The copy loop, the copy constructor and the copy assignment -/

section copying
variable {α : Type}
open Heap

theorem Rep.next_at {h : Heap α} {l : list} {P Q : List (Nat × α)} {a : Nat} {x : α}
    (hr : Rep h l (P ++ (a, x) :: Q)) :
    h.nextOf a = (Q.map Prod.fst ++ [l.m_tail]).head? := by
  obtain ⟨q, hq⟩ := exists_getLast l.m_head (P.map Prod.fst)
  obtain ⟨r, hrr⟩ := exists_head (Q.map Prod.fst) l.m_tail
  have hl := hr.1
  rw [List.map_append, List.map_cons] at hl
  rw [hrr]
  exact (Linked.at_node hl hq hrr).2.1

theorem Rep.cells_le {h : Heap α} {l : list} {ns : List (Nat × α)} (hr : Rep h l ns) :
    ∀ x ∈ cells l (ns.map Prod.fst), x ≤ h.length :=
  fun x hx => live_le_length (hr.1.live x hx)

theorem Rep.copy_loop {h : Heap α} {src : list} {todo : List (Nat × α)} :
    ∀ {done : List (Nat × α)} {self : list} {cs : List (Nat × α)} {p : Nat},
      Rep h src (done ++ todo) → Rep h self cs →
      (∀ x ∈ cells self (cs.map Prod.fst), x ∉ cells src ((done ++ todo).map Prod.fst)) →
      (todo.map Prod.fst ++ [src.m_tail]).head? = some p →
      ∃ self' h' cs', Rep h' self' (cs ++ cs') ∧ cs'.map Prod.snd = todo.map Prod.snd ∧
        Rep h' src (done ++ todo) ∧ (∀ e ∈ cs', h.length < e.1) ∧
        self'.m_head = self.m_head ∧ self'.m_tail = self.m_tail ∧
        h'.length = h.length + todo.length ∧
        Frame h h' (cells self (cs.map Prod.fst)) ∧
        ∀ fuel, list.copy_loop src fuel self p h
          = if todo.length < fuel then some (self', h') else none := by
  induction todo generalizing h with
  | nil =>
    intro done self cs p hsrc hself _ hp
    simp only [List.map_nil, List.nil_append, List.head?_cons, Option.some.injEq] at hp
    subst hp
    refine ⟨self, h, [], by simpa using hself, rfl, hsrc, by simp, rfl, rfl, rfl,
      Frame.refl _ _, ?_⟩
    intro fuel
    cases fuel with
    | zero => simp [list.copy_loop]
    | succ n => simp [list.copy_loop]
  | cons e rest ih =>
    intro done self cs p hsrc hself hdis hp
    obtain ⟨a, x⟩ := e
    simp only [List.map_cons, List.cons_append, List.head?_cons, Option.some.injEq] at hp
    subst hp
    have hne : a ≠ src.m_tail := hsrc.ne_tail (a, x) (by simp)
    have hda : h.dataOf a = some x := hsrc.2.1 (a, x) (by simp)
    obtain ⟨h1, e1, len1, r1, f1⟩ := hself.push_back x
    have hsrc1 : Rep h1 src (done ++ (a, x) :: rest) :=
      hsrc.of_frame f1 (fun y hy hyc => hdis y hyc hy)
    obtain ⟨p', hp'⟩ := exists_head (rest.map Prod.fst) src.m_tail
    have hnext : h1.nextOf a = some p' := by rw [hsrc1.next_at, hp']
    have hsrc1' : Rep h1 src ((done ++ [(a, x)]) ++ rest) := by simpa using hsrc1
    have hdis1 : ∀ y ∈ cells { self with m_size := self.m_size + 1 }
        ((cs ++ [(h.length + 1, x)]).map Prod.fst),
        y ∉ cells src (((done ++ [(a, x)]) ++ rest).map Prod.fst) := by
      intro y hy hys
      have hys' : y ∈ cells src ((done ++ (a, x) :: rest).map Prod.fst) := by simpa using hys
      have hle := hsrc.cells_le y hys'
      have hy' : y ∈ cells self (cs.map Prod.fst ++ [h.length + 1]) := by
        simpa [cells] using hy
      exact hdis y (cells_append_singleton_sub (Nat.lt_succ_self _) y hy' hle) hys'
    obtain ⟨self2, h2, cs2, r2, hS, hsrc2, hfresh, hh, ht, len2, f2, hloop⟩ :=
      ih hsrc1' r1 hdis1 hp'
    refine ⟨self2, h2, (h.length + 1, x) :: cs2, by simpa using r2, by simp [hS],
      by simpa using hsrc2, ?_, hh, ht, ?_, ?_, ?_⟩
    · intro e he
      rcases List.mem_cons.mp he with rfl | he
      · simp
      · have := hfresh e he; omega
    · simp only [List.length_cons]; omega
    · refine Frame.trans f1 f2 (by omega) ?_
      intro y hy hyn
      have hy' : y ∈ cells self (cs.map Prod.fst ++ [h.length + 1]) := by
        simpa [cells] using hy
      exact cells_append_singleton_sub (Nat.lt_succ_self _) y hy' hyn
    · intro fuel
      cases fuel with
      | zero => simp [list.copy_loop]
      | succ n =>
        simp only [list.copy_loop, hne, ne_eq, not_false_eq_true, if_true, hda,
          Option.bind_eq_bind, Option.some_bind, e1, hnext, hloop, List.length_cons,
          Nat.add_lt_add_iff_right]

theorem list.ctor_copy_eq [Inhabited α] (other : list) (fuel : Nat) (h : Heap α) :
    list.ctor_copy other fuel h = (list.ctor h).bind fun s =>
      (s.2.nextOf other.m_head).bind fun onext =>
        if onext ≠ other.m_tail then
          (s.2.nextOf other.m_head).bind fun aux => list.copy_loop other fuel s.1 aux s.2
        else some s := by
  simp only [list.ctor_copy, list.ctor, Option.bind_eq_bind, Option.pure_def]
  cases ((h.alloc ⟨default, nullptr, nullptr⟩).2.alloc ⟨default, nullptr, nullptr⟩).2.setNext
      (h.alloc ⟨default, nullptr, nullptr⟩).1
      ((h.alloc ⟨default, nullptr, nullptr⟩).2.alloc ⟨default, nullptr, nullptr⟩).1 with
  | none => rfl
  | some h3 =>
    simp only [Option.some_bind]
    cases h3.setPrev ((h.alloc ⟨default, nullptr, nullptr⟩).2.alloc ⟨default, nullptr, nullptr⟩).1
        (h.alloc ⟨default, nullptr, nullptr⟩).1 with
    | none => rfl
    | some h4 => rfl

theorem fresh_not_mem_cells {h : Heap α} {l : list} {ns : List (Nat × α)} (hr : Rep h l ns)
    {y : Nat} (hy : h.length < y) : y ∉ cells l (ns.map Prod.fst) := by
  intro hm
  have := hr.cells_le y hm
  omega

theorem Rep.ctor_copy [Inhabited α] {h : Heap α} {src : list} {ns : List (Nat × α)}
    (hsrc : Rep h src ns) :
    ∃ c h' cs, (∀ fuel, ns.length < fuel → list.ctor_copy src fuel h = some (c, h')) ∧
      Rep h' c cs ∧ cs.map Prod.snd = ns.map Prod.snd ∧ Rep h' src ns ∧
      (∀ x ∈ cells c (cs.map Prod.fst), x ∉ cells src (ns.map Prod.fst)) ∧
      Frame h h' [] := by
  obtain ⟨h1, e1, len1, r1, f1⟩ := Rep.ctor h
  have hsrc1 : Rep h1 src ns := hsrc.of_frame f1 (fun _ _ hm => by simp at hm)
  obtain ⟨p, hp⟩ := exists_head (ns.map Prod.fst) src.m_tail
  have hn := hsrc1.rep_head_next
  rw [hp] at hn
  have hdis1 : ∀ x ∈ cells (⟨0, h.length + 1, h.length + 2⟩ : list)
      (([] : List (Nat × α)).map Prod.fst), x ∉ cells src (([] ++ ns).map Prod.fst) := by
    intro x hx
    simp only [cells, List.map_nil, List.nil_append, List.mem_cons, List.mem_singleton,
      List.not_mem_nil, or_false] at hx
    apply fresh_not_mem_cells hsrc
    omega
  have hsrc1' : Rep h1 src ([] ++ ns) := by simpa using hsrc1
  obtain ⟨c, h2, cs, r2, hS, hsrc2, hfresh, hh, ht, len2, f2, hloop⟩ :=
    Rep.copy_loop hsrc1' r1 hdis1 hp
  simp only [List.nil_append] at r2 hsrc2
  refine ⟨c, h2, cs, ?_, r2, hS, hsrc2, ?_, ?_⟩
  · intro fuel hfuel
    rw [list.ctor_copy_eq, e1]
    simp only [Option.some_bind, hn, hloop, if_pos hfuel]
    by_cases hpt : p = src.m_tail
    · have hnil : ns = [] := by
        have := hsrc1.1.head_next_eq_tail_iff.mp (by rw [hn, hpt])
        simpa using this
      subst hnil
      have h0 := hloop 1
      simp only [List.length_nil, Nat.lt_one_iff, if_true, list.copy_loop] at h0
      simp only [List.map_nil, List.nil_append, List.head?_cons, Option.some.injEq] at hp
      simp only [← hp, ne_eq, not_true_eq_false, if_false, Option.some.injEq] at h0
      simp [hpt, h0]
    · simp [hpt]
  · intro x hx
    have hx' : x = c.m_head ∨ x ∈ cs.map Prod.fst ∨ x = c.m_tail := by
      simpa [cells] using hx
    apply fresh_not_mem_cells hsrc
    rcases hx' with rfl | hx' | rfl
    · rw [hh]; show h.length < h.length + 1; omega
    · obtain ⟨e, he, rfl⟩ := List.mem_map.mp hx'
      have := hfresh e he
      omega
    · rw [ht]; show h.length < h.length + 2; omega
  · refine Frame.trans f1 f2 (by omega) ?_
    intro y hy hyn
    simp only [cells, List.map_nil, List.nil_append, List.mem_cons, List.mem_singleton,
      List.not_mem_nil, or_false] at hy
    omega

theorem Rep.operator_assign {h : Heap α} {dst src : list} {nd ns : List (Nat × α)}
    (hdst : Rep h dst nd) (hsrc : Rep h src ns)
    (hdis : ∀ x ∈ cells dst (nd.map Prod.fst), x ∉ cells src (ns.map Prod.fst)) :
    ∃ c h' cs, (∀ f1 f2, nd.length < f1 → ns.length < f2 →
        dst.operator_assign src f1 f2 h = some (c, h')) ∧
      Rep h' c cs ∧ cs.map Prod.snd = ns.map Prod.snd ∧ Rep h' src ns ∧
      (∀ x ∈ cells c (cs.map Prod.fst), x ∉ cells src (ns.map Prod.fst)) ∧
      c.m_head = dst.m_head ∧ c.m_tail = dst.m_tail ∧
      Frame h h' (cells dst (nd.map Prod.fst)) := by
  obtain ⟨h1, r1, len1, f1, hclear⟩ := hdst.clear
  have hsrc1 : Rep h1 src ns := hsrc.of_frame f1 (fun y hy hyc => hdis y hyc hy)
  obtain ⟨p, hp⟩ := exists_head (ns.map Prod.fst) src.m_tail
  have hn := hsrc1.rep_head_next
  rw [hp] at hn
  have hdis1 : ∀ x ∈ cells ({ dst with m_size := 0 } : list)
      (([] : List (Nat × α)).map Prod.fst), x ∉ cells src (([] ++ ns).map Prod.fst) := by
    intro x hx
    apply hdis
    simp only [cells, List.map_nil, List.nil_append, List.mem_cons, List.mem_singleton,
      List.not_mem_nil, or_false, List.mem_append] at hx ⊢
    tauto
  have hsrc1' : Rep h1 src ([] ++ ns) := by simpa using hsrc1
  obtain ⟨c, h2, cs, r2, hS, hsrc2, hfresh, hh, ht, len2, f2, hloop⟩ :=
    Rep.copy_loop hsrc1' r1 hdis1 hp
  simp only [List.nil_append] at r2 hsrc2
  refine ⟨c, h2, cs, ?_, r2, hS, hsrc2, ?_, hh, ht, ?_⟩
  · intro g1 g2 hg1 hg2
    simp only [list.operator_assign, hclear, if_pos hg1, Option.bind_eq_bind, Option.some_bind,
      hn, hloop, if_pos hg2]
  · intro x hx
    have hx' : x = c.m_head ∨ x ∈ cs.map Prod.fst ∨ x = c.m_tail := by
      simpa [cells] using hx
    rcases hx' with rfl | hx' | rfl
    · rw [hh]; exact hdis _ (by simp [cells])
    · obtain ⟨e, he, rfl⟩ := List.mem_map.mp hx'
      apply fresh_not_mem_cells hsrc
      have := hfresh e he
      omega
    · rw [ht]; exact hdis _ (by simp [cells])
  · refine Frame.trans f1 f2 (by omega) ?_
    intro y hy _
    simp only [cells, List.map_nil, List.nil_append, List.mem_cons, List.mem_singleton,
      List.not_mem_nil, or_false, List.mem_append] at hy ⊢
    tauto

end copying

/-! ### Steps of a list next to another list -/

section steps
variable {α : Type}
open Heap

theorem Step.step_refl {h : Heap α} {c : list} {cs : List (Nat × α)} (hr : Rep h c cs) :
    Step h c cs h c cs :=
  ⟨hr, Frame.refl _ _, Nat.le_refl _, fun _ hx => Or.inl hx⟩

theorem Step.step_trans {h h1 h2 : Heap α} {c c1 c2 : list} {cs cs1 cs2 : List (Nat × α)}
    (s1 : Step h c cs h1 c1 cs1) (s2 : Step h1 c1 cs1 h2 c2 cs2) : Step h c cs h2 c2 cs2 := by
  obtain ⟨-, f1, len1, m1⟩ := s1
  obtain ⟨r2, f2, len2, m2⟩ := s2
  refine ⟨r2, Frame.trans f1 f2 len1 ?_, by omega, ?_⟩
  · intro x hx hxn
    rcases m1 x hx with hm | hlt
    · exact hm
    · omega
  · intro x hx
    rcases m2 x hx with hm | hlt
    · exact m1 x hm
    · exact Or.inr (by omega)

theorem Step.of_splice {h h' : Heap α} {l l' : list} {P Q : List (Nat × α)} {v : α}
    (hr : Rep h' l' (P ++ (h.length + 1, v) :: Q))
    (hf : Frame h h' (cells l ((P ++ Q).map Prod.fst))) (hlen : h.length ≤ h'.length)
    (hh : l'.m_head = l.m_head) (ht : l'.m_tail = l.m_tail) :
    Step h l (P ++ Q) h' l' (P ++ (h.length + 1, v) :: Q) := by
  refine ⟨hr, hf, hlen, ?_⟩
  intro x hx
  simp only [cells, hh, ht, List.map_append, List.map_cons, List.mem_cons, List.mem_append,
    List.mem_singleton, List.not_mem_nil, or_false] at hx ⊢
  rcases hx with h1 | (h2 | h3 | h4) | h5
  · exact Or.inl (Or.inl h1)
  · exact Or.inl (Or.inr (Or.inl (Or.inl h2)))
  · exact Or.inr (by omega)
  · exact Or.inl (Or.inr (Or.inl (Or.inr h4)))
  · exact Or.inl (Or.inr (Or.inr h5))

theorem Step.of_unsplice {h h' : Heap α} {l l' : list} {P Q : List (Nat × α)} {e : Nat × α}
    (hr : Rep h' l' (P ++ Q))
    (hf : Frame h h' (cells l ((P ++ e :: Q).map Prod.fst))) (hlen : h.length ≤ h'.length)
    (hh : l'.m_head = l.m_head) (ht : l'.m_tail = l.m_tail) :
    Step h l (P ++ e :: Q) h' l' (P ++ Q) := by
  refine ⟨hr, hf, hlen, ?_⟩
  intro x hx
  simp only [cells, hh, ht, List.map_append, List.map_cons, List.mem_cons, List.mem_append,
    List.mem_singleton, List.not_mem_nil, or_false] at hx ⊢
  rcases hx with h1 | (h2 | h4) | h5
  · exact Or.inl (Or.inl h1)
  · exact Or.inl (Or.inr (Or.inl (Or.inl h2)))
  · exact Or.inl (Or.inr (Or.inl (Or.inr (Or.inr h4))))
  · exact Or.inl (Or.inr (Or.inr h5))

theorem Step.step_insert {h : Heap α} {l : list} {P Q : List (Nat × α)} {q p : Nat} (v : α)
    (hr : Rep h l (P ++ Q))
    (hq : (l.m_head :: P.map Prod.fst).getLast? = some q)
    (hp : (Q.map Prod.fst ++ [l.m_tail]).head? = some p) :
    ∃ h', l.insert ⟨p⟩ v h = some (⟨q⟩, { l with m_size := l.m_size + 1 }, h') ∧
      Step h l (P ++ Q) h' { l with m_size := l.m_size + 1 } (P ++ (h.length + 1, v) :: Q) := by
  obtain ⟨h', e, len, r, f⟩ := hr.insert v hq hp
  exact ⟨h', e, Step.of_splice r f (by omega) rfl rfl⟩

theorem Step.step_push_back {h : Heap α} {l : list} {ns : List (Nat × α)} (v : α)
    (hr : Rep h l ns) :
    ∃ h', l.push_back v h = some ({ l with m_size := l.m_size + 1 }, h') ∧
      Step h l ns h' { l with m_size := l.m_size + 1 } (ns ++ [(h.length + 1, v)]) := by
  obtain ⟨h', e, len, r, f⟩ := hr.push_back v
  have f' : Frame h h' (cells l ((ns ++ []).map Prod.fst)) := by simpa using f
  have := Step.of_splice r f' (by omega) rfl rfl
  exact ⟨h', e, by simpa using this⟩

theorem Step.step_push_front {h : Heap α} {l : list} {ns : List (Nat × α)} (v : α)
    (hr : Rep h l ns) :
    ∃ h', l.push_front v h = some ({ l with m_size := l.m_size + 1 }, h') ∧
      Step h l ns h' { l with m_size := l.m_size + 1 } ((h.length + 1, v) :: ns) := by
  obtain ⟨h', e, len, r, f⟩ := hr.push_front v
  have r' : Rep h' { l with m_size := l.m_size + 1 } ([] ++ (h.length + 1, v) :: ns) := by
    simpa using r
  have f' : Frame h h' (cells l (([] ++ ns).map Prod.fst)) := by simpa using f
  have := Step.of_splice r' f' (by omega) rfl rfl
  exact ⟨h', e, by simpa using this⟩

theorem Step.step_erase {h : Heap α} {l : list} {P Q : List (Nat × α)} {p q r : Nat} {a : α}
    (hr : Rep h l (P ++ (p, a) :: Q))
    (hq : (l.m_head :: P.map Prod.fst).getLast? = some q)
    (hrr : (Q.map Prod.fst ++ [l.m_tail]).head? = some r) :
    ∃ h', l.erase ⟨p⟩ h = some (⟨r⟩, { l with m_size := l.m_size - 1 }, h') ∧
      Step h l (P ++ (p, a) :: Q) h' { l with m_size := l.m_size - 1 } (P ++ Q) := by
  obtain ⟨h', e, len, r1, f⟩ := hr.erase hq hrr
  exact ⟨h', e, Step.of_unsplice r1 f (by omega) rfl rfl⟩

theorem Step.step_pop_front {h : Heap α} {l : list} {Q : List (Nat × α)} {e : Nat × α}
    (hr : Rep h l (e :: Q)) :
    ∃ h', l.pop_front h = some ({ l with m_size := l.m_size - 1 }, h') ∧
      Step h l (e :: Q) h' { l with m_size := l.m_size - 1 } Q := by
  obtain ⟨p, a⟩ := e
  obtain ⟨h', e1, len, r1, f⟩ := hr.pop_front
  have r' : Rep h' { l with m_size := l.m_size - 1 } ([] ++ Q) := by simpa using r1
  have f' : Frame h h' (cells l (([] ++ (p, a) :: Q).map Prod.fst)) := by simpa using f
  have := Step.of_unsplice r' f' (by omega) rfl rfl
  exact ⟨h', e1, by simpa using this⟩

theorem Step.step_pop_back {h : Heap α} {l : list} {P : List (Nat × α)} {e : Nat × α}
    (hr : Rep h l (P ++ [e])) :
    ∃ h', l.pop_back h = some ({ l with m_size := l.m_size - 1 }, h') ∧
      Step h l (P ++ [e]) h' { l with m_size := l.m_size - 1 } P := by
  obtain ⟨p, a⟩ := e
  obtain ⟨h', e1, len, r1, f⟩ := hr.pop_back
  have r' : Rep h' { l with m_size := l.m_size - 1 } (P ++ []) := by simpa using r1
  have := Step.of_unsplice r' f (by omega) rfl rfl
  exact ⟨h', e1, by simpa using this⟩

theorem Step.step_clear {h : Heap α} {l : list} {ns : List (Nat × α)} (hr : Rep h l ns) :
    ∃ h', Step h l ns h' { l with m_size := 0 } [] ∧
      ∀ fuel, l.clear fuel h
        = if ns.length < fuel then some ({ l with m_size := 0 }, h') else none := by
  obtain ⟨h', r, len, f, hc⟩ := hr.clear
  refine ⟨h', ⟨r, f, by omega, ?_⟩, hc⟩
  intro x hx
  simp only [cells, List.map_nil, List.nil_append, List.mem_cons, List.mem_singleton,
    List.not_mem_nil, or_false, List.mem_append] at hx ⊢
  tauto

end steps

/-! ### `assign(value)` -/

section assigning
variable {α : Type}
open Heap

theorem Rep.set_data {h h' : Heap α} {l : list} {P Q : List (Nat × α)} {a : Nat} {x v : α}
    (hr : Rep h l (P ++ (a, x) :: Q))
    (hn : ∀ y, h'.nextOf y = h.nextOf y) (hp : ∀ y, h'.prevOf y = h.prevOf y)
    (hd : ∀ y, h'.dataOf y = if y = a then some v else h.dataOf y) :
    Rep h' l (P ++ (a, v) :: Q) ∧ Frame h h' (cells l ((P ++ (a, x) :: Q).map Prod.fst)) := by
  have hl := hr.1
  have hnd2 : (P.map Prod.fst ++ a :: Q.map Prod.fst).Nodup := by
    have := (List.nodup_cons.mp hl.1).2.of_append_left
    simpa using this
  have hnot := (List.nodup_cons.mp (List.nodup_middle.mp hnd2)).1
  refine ⟨⟨⟨?_, ?_⟩, ?_, ?_⟩, ?_⟩
  · simpa using hl.1
  · have := chain_frame hl.2 (fun y _ => hn y) (fun y _ => hp y)
    simpa using this
  · intro e he
    rw [hd]
    rcases List.mem_append.mp he with he | he
    · have hne : e.1 ≠ a := by
        intro heq
        apply hnot
        rw [← heq]
        exact List.mem_append.mpr (Or.inl (List.mem_map_of_mem Prod.fst he))
      rw [if_neg hne]
      exact hr.2.1 e (by simp [he])
    · rcases List.mem_cons.mp he with rfl | he
      · simp
      · have hne : e.1 ≠ a := by
          intro heq
          apply hnot
          rw [← heq]
          exact List.mem_append.mpr (Or.inr (List.mem_map_of_mem Prod.fst he))
        rw [if_neg hne]
        exact hr.2.1 e (by simp [he])
  · have := hr.2.2
    simpa using this
  · intro y _ hyc
    have hya : y ≠ a := by
      intro heq
      apply hyc
      simp [cells, heq]
    rw [hn, hp, hd, if_neg hya]
    exact ⟨rfl, rfl, rfl⟩

theorem Rep.assign_loop {h : Heap α} {l : list} (v : α) {todo : List (Nat × α)} :
    ∀ {done : List (Nat × α)} {p : Nat}, Rep h l (done ++ todo) →
      (todo.map Prod.fst ++ [l.m_tail]).head? = some p →
      ∃ h', Rep h' l (done ++ todo.map (fun e => (e.1, v))) ∧ h'.length = h.length ∧
        Frame h h' (cells l ((done ++ todo).map Prod.fst)) ∧
        ∀ fuel, l.assign_loop v fuel p h = if todo.length < fuel then some h' else none := by
  induction todo generalizing h with
  | nil =>
    intro done p hr hp
    simp only [List.map_nil, List.nil_append, List.head?_cons, Option.some.injEq] at hp
    subst hp
    refine ⟨h, by simpa using hr, rfl, Frame.refl _ _, ?_⟩
    intro fuel
    cases fuel with
    | zero => simp [list.assign_loop]
    | succ n => simp [list.assign_loop]
  | cons e rest ih =>
    intro done p hr hp
    obtain ⟨a, x⟩ := e
    simp only [List.map_cons, List.cons_append, List.head?_cons, Option.some.injEq] at hp
    subst hp
    have hne : a ≠ l.m_tail := hr.ne_tail (a, x) (by simp)
    have hla : h.Live a := live_of_dataOf (hr.2.1 (a, x) (by simp))
    obtain ⟨h1, e1, len1, n1, p1, d1⟩ := setData_spec v hla
    obtain ⟨r1, f1⟩ := Rep.set_data hr n1 p1 d1
    obtain ⟨p', hp'⟩ := exists_head (rest.map Prod.fst) l.m_tail
    have hnext : h1.nextOf a = some p' := by rw [r1.next_at, hp']
    have r1' : Rep h1 l ((done ++ [(a, v)]) ++ rest) := by simpa using r1
    obtain ⟨h2, r2, len2, f2, hloop⟩ := ih r1' hp'
    refine ⟨h2, by simpa using r2, by omega, ?_, ?_⟩
    · refine Frame.trans f1 f2 (by omega) ?_
      intro y hy _
      simpa [cells] using hy
    · intro fuel
      cases fuel with
      | zero => simp [list.assign_loop]
      | succ n =>
        simp only [list.assign_loop, hne, ne_eq, not_false_eq_true, if_true, e1,
          Option.bind_eq_bind, Option.some_bind, hnext, hloop, List.length_cons,
          Nat.add_lt_add_iff_right]

theorem Step.step_assign {h : Heap α} {l : list} {ns : List (Nat × α)} (v : α)
    (hr : Rep h l ns) (fuel : Nat) (r : list × Heap α) (hrun : l.assign v fuel h = some r) :
    Step h l ns r.2 r.1 (ns.map (fun e => (e.1, v))) := by
  obtain ⟨p, hp⟩ := exists_head (ns.map Prod.fst) l.m_tail
  have hn := hr.rep_head_next
  rw [hp] at hn
  by_cases hpt : p = l.m_tail
  · have hnil : ns = [] := by
      have := hr.1.head_next_eq_tail_iff.mp (by rw [hn, hpt])
      simpa using this
    subst hnil
    simp only [list.assign, hn, hpt, if_true, Option.bind_eq_bind, Option.some_bind,
      Option.pure_def, Option.some.injEq] at hrun
    subst hrun
    exact Step.step_refl hr
  · have hr' : Rep h l ([] ++ ns) := by simpa using hr
    obtain ⟨h', r', len, f, hloop⟩ := Rep.assign_loop v hr' hp
    simp only [list.assign, hn, hpt, if_false, Option.bind_eq_bind, Option.some_bind,
      hloop, Option.pure_def] at hrun
    split_ifs at hrun with hfuel
    · simp only [Option.some_bind, Option.some.injEq] at hrun
      subst hrun
      refine ⟨by simpa using r', by simpa using f, Nat.le_of_eq len.symm, ?_⟩
      intro x hx
      left
      simpa [cells] using hx
    · simp at hrun

end assigning

/-! ### The loops of `assign`, `insert` and `erase` over a range -/

section step_loops
variable {α : Type}
open Heap

theorem Step.step_push_back_each {h : Heap α} {l : list} {ns : List (Nat × α)}
    (hr : Rep h l ns) (S : List α) :
    ∃ l' h' ns', l.push_back_each S h = some (l', h') ∧ ns'.map Prod.snd = S ∧
      Step h l ns h' l' (ns ++ ns') := by
  obtain ⟨l', h', ns', e, r, hS, hh, ht, len, hfresh, f⟩ := hr.push_back_each S
  refine ⟨l', h', ns', e, hS, r, f, by omega, ?_⟩
  intro x hx
  simp only [cells, hh, ht, List.map_append, List.mem_cons, List.mem_append,
    List.mem_singleton, List.not_mem_nil, or_false] at hx ⊢
  rcases hx with h1 | (h2 | h3) | h5
  · exact Or.inl (Or.inl h1)
  · exact Or.inl (Or.inr (Or.inl h2))
  · obtain ⟨e, he, rfl⟩ := List.mem_map.mp h3
    exact Or.inr (hfresh e he)
  · exact Or.inl (Or.inr (Or.inr h5))

theorem list.push_back_count_eq (v : α) :
    ∀ (count : Nat) (l : list) (h : Heap α),
      l.push_back_count v count h = l.push_back_each (List.replicate count v) h
  | 0, _, _ => rfl
  | n + 1, l, h => by
    simp only [list.push_back_count, list.push_back_each, List.replicate_succ]
    cases l.push_back v h with
    | none => rfl
    | some r => exact list.push_back_count_eq v n r.1 r.2

theorem Step.step_insert_each {h : Heap α} {l : list} {Q : List (Nat × α)} {p : Nat}
    (S : List α) :
    ∀ {P : List (Nat × α)}, Rep h l (P ++ Q) →
      (Q.map Prod.fst ++ [l.m_tail]).head? = some p →
      ∃ l' h' new, l.insert_each ⟨p⟩ S h = some (l', h') ∧ new.map Prod.snd = S ∧
        l'.m_head = l.m_head ∧ l'.m_tail = l.m_tail ∧
        l'.m_size = l.m_size + S.length ∧
        Step h l (P ++ Q) h' l' (P ++ new ++ Q) := by
  induction S generalizing h l with
  | nil =>
    intro P hr _
    exact ⟨l, h, [], rfl, rfl, rfl, rfl, by simp, by simpa using Step.step_refl hr⟩
  | cons v S ih =>
    intro P hr hp
    obtain ⟨q, hq⟩ := exists_getLast l.m_head (P.map Prod.fst)
    obtain ⟨h1, e1, s1⟩ := Step.step_insert v hr hq hp
    have r1 : Rep h1 { l with m_size := l.m_size + 1 } ((P ++ [(h.length + 1, v)]) ++ Q) := by
      simpa using s1.1
    obtain ⟨l2, h2, new, e2, hS, hh, ht, hsz, s2⟩ := ih r1 hp
    refine ⟨l2, h2, (h.length + 1, v) :: new, ?_, by simp [hS], hh, ht, ?_, ?_⟩
    · simp [list.insert_each, e1, e2]
    · rw [hsz]; simp only [List.length_cons]; push_cast; ring
    · have s1' : Step h l (P ++ Q) h1 { l with m_size := l.m_size + 1 }
          ((P ++ [(h.length + 1, v)]) ++ Q) := by simpa using s1
      have := Step.step_trans s1' s2
      simpa using this

theorem free_nextOf_self {h h' : Heap α} {p : Nat} (e : h.free p = some h') :
    h'.nextOf p = none := by
  unfold Heap.free at e
  cases hr : h.read p with
  | none => simp [hr] at e
  | some n =>
    simp only [hr, Option.some.injEq] at e
    subst e
    simp [nextOf, read_store hr]

theorem list.erase_frees {l : list} {pos : iterator} {h : Heap α}
    {r : iterator × list × Heap α} (e : l.erase pos h = some r) :
    r.2.2.nextOf pos.it = none := by
  simp only [list.erase, Option.bind_eq_bind, Option.pure_def, Option.bind_eq_some] at e
  obtain ⟨_, _, _, _, _, _, _, _, _, _, _, _, _, _, h3, hfree, hr⟩ := e
  simp only [Option.some.injEq] at hr
  subst hr
  exact free_nextOf_self hfree

theorem list.erase_range_some {l : list} {last first : iterator} {h : Heap α} {fuel : Nat}
    {r : iterator × list × Heap α} (e : l.erase_range last fuel first h = some r) :
    first = last ∧ r = (last, l, h) := by
  cases fuel with
  | zero => simp [list.erase_range] at e
  | succ n =>
    simp only [list.erase_range] at e
    by_cases hne : first.ne last = true
    · simp only [hne, if_true, Option.bind_eq_bind, Option.bind_eq_some] at e
      obtain ⟨r1, he, r2, hpost, -⟩ := e
      have hfree := list.erase_frees he
      simp [iterator.postinc, hfree] at hpost
    · simp only [hne, Bool.false_eq_true, if_false, Option.some.injEq] at e
      simp only [iterator.ne, ne_eq, decide_not, Bool.not_eq_true', decide_eq_false_iff_not,
        not_not] at hne
      refine ⟨?_, e.symm⟩
      cases first; cases last; simp_all

end step_loops

/-! ### Every mutator call is a step -/

section mutation
variable {α : Type}
open Heap

theorem split_at_position {cs : List (Nat × α)} {t x : Nat}
    (hx : x ∈ cs.map Prod.fst ++ [t]) :
    ∃ P Q, cs = P ++ Q ∧ (Q.map Prod.fst ++ [t]).head? = some x := by
  by_cases hm : x ∈ cs.map Prod.fst
  · obtain ⟨e, he, rfl⟩ := List.mem_map.mp hm
    obtain ⟨P, Q, rfl⟩ := List.append_of_mem he
    exact ⟨P, e :: Q, rfl, rfl⟩
  · have : x = t := by
      rcases List.mem_append.mp hx with h1 | h1
      · exact absurd h1 hm
      · simpa using h1
    subst this
    exact ⟨cs, [], by simp, rfl⟩

theorem split_at_node {cs : List (Nat × α)} {x : Nat} (hx : x ∈ cs.map Prod.fst) :
    ∃ P Q a, cs = P ++ (x, a) :: Q := by
  obtain ⟨e, he, rfl⟩ := List.mem_map.mp hx
  obtain ⟨P, Q, rfl⟩ := List.append_of_mem he
  exact ⟨P, Q, e.2, rfl⟩

theorem Step.step_assign_each {h : Heap α} {l : list} {ns : List (Nat × α)} (hr : Rep h l ns)
    (S : List α) (fuel : Nat) (r : list × Heap α)
    (hrun : (l.clear fuel h).bind (fun s => s.1.push_back_each S s.2) = some r) :
    ∃ cs', Step h l ns r.2 r.1 cs' := by
  obtain ⟨h1, s1, hc⟩ := Step.step_clear hr
  rw [hc] at hrun
  split_ifs at hrun with hfuel
  · obtain ⟨l2, h2, ns2, e2, -, s2⟩ := Step.step_push_back_each s1.1 S
    simp only [Option.some_bind, e2, Option.some.injEq] at hrun
    subst hrun
    exact ⟨_, Step.step_trans s1 s2⟩
  · simp at hrun

theorem Step.step_insert_all {h : Heap α} {l : list} {cs : List (Nat × α)} (hr : Rep h l cs)
    (pos : iterator) (hv : pos.it ∈ cs.map Prod.fst ++ [l.m_tail]) (S : List α)
    (r : iterator × list × Heap α)
    (hrun : ((pos.postdec h).bind fun t => (l.insert_each pos S h).bind fun s =>
      some (t.2, s.1, s.2)) = some r) :
    ∃ cs', Step h l cs r.2.2 r.2.1 cs' := by
  obtain ⟨P, Q, rfl, hp⟩ := split_at_position hv
  obtain ⟨l2, h2, new, e2, -, -, -, -, s2⟩ := Step.step_insert_each S hr hp
  have hpos : (⟨pos.it⟩ : iterator) = pos := rfl
  rw [hpos] at e2
  simp only [e2, Option.some_bind, Option.bind_eq_some] at hrun
  obtain ⟨t, -, ht⟩ := hrun
  simp only [Option.some.injEq] at ht
  subst ht
  exact ⟨_, s2⟩

theorem Mutation.step {h : Heap α} {c : list} {cs : List (Nat × α)} (hr : Rep h c cs)
    (m : Mutation α) (hv : m.valid c (cs.map Prod.fst)) (fuel : Nat) (r : list × Heap α)
    (hrun : m.run fuel c h = some r) : ∃ cs', Step h c cs r.2 r.1 cs' := by
  cases m with
  | push_front v =>
    obtain ⟨h', e, s⟩ := Step.step_push_front v hr
    simp only [Mutation.run, e, Option.some.injEq] at hrun
    subst hrun
    exact ⟨_, s⟩
  | push_back v =>
    obtain ⟨h', e, s⟩ := Step.step_push_back v hr
    simp only [Mutation.run, e, Option.some.injEq] at hrun
    subst hrun
    exact ⟨_, s⟩
  | pop_front =>
    cases cs with
    | nil =>
      have hn := hr.1.head_next_eq_tail_iff.mpr rfl
      simp only [Mutation.run, list.pop_front_empty hn, Option.some.injEq] at hrun
      subst hrun
      exact ⟨_, Step.step_refl hr⟩
    | cons e Q =>
      obtain ⟨h', e1, s⟩ := Step.step_pop_front hr
      simp only [Mutation.run, e1, Option.some.injEq] at hrun
      subst hrun
      exact ⟨_, s⟩
  | pop_back =>
    rcases List.eq_nil_or_concat cs with rfl | ⟨P, e, hPe⟩
    · have hn := hr.1.head_next_eq_tail_iff.mpr rfl
      simp only [Mutation.run, list.pop_back_empty hn, Option.some.injEq] at hrun
      subst hrun
      exact ⟨_, Step.step_refl hr⟩
    · rw [List.concat_eq_append] at hPe
      subst hPe
      obtain ⟨h', e1, s⟩ := Step.step_pop_back hr
      simp only [Mutation.run, e1, Option.some.injEq] at hrun
      subst hrun
      exact ⟨_, s⟩
  | clear =>
    obtain ⟨h1, s1, hc⟩ := Step.step_clear hr
    simp only [Mutation.run, hc] at hrun
    by_cases hfuel : cs.length < fuel
    · simp only [if_pos hfuel, Option.some.injEq] at hrun
      subst hrun
      exact ⟨_, s1⟩
    · simp only [if_neg hfuel] at hrun
      exact absurd hrun (by simp)
  | assign v => exact ⟨_, Step.step_assign v hr fuel r hrun⟩
  | assign_count count v =>
    apply Step.step_assign_each hr (List.replicate count v) fuel r
    rw [← hrun]
    simp only [Mutation.run, list.assign_count, Option.bind_eq_bind, list.push_back_count_eq]
  | assign_range S => exact Step.step_assign_each hr S fuel r hrun
  | assign_ilist S => exact Step.step_assign_each hr S fuel r hrun
  | insert pos v =>
    obtain ⟨P, Q, rfl, hp⟩ := split_at_position hv
    obtain ⟨q, hq⟩ := exists_getLast c.m_head (P.map Prod.fst)
    obtain ⟨h', e, s⟩ := Step.step_insert v hr hq hp
    have hpos : (⟨pos.it⟩ : iterator) = pos := rfl
    rw [hpos] at e
    simp only [Mutation.run, e, Option.map_some', Option.some.injEq] at hrun
    subst hrun
    exact ⟨_, s⟩
  | insert_range pos S =>
    simp only [Mutation.run, Option.map_eq_some'] at hrun
    obtain ⟨r', hr', rfl⟩ := hrun
    exact Step.step_insert_all hr pos hv S r' hr'
  | insert_ilist pos S =>
    simp only [Mutation.run, Option.map_eq_some'] at hrun
    obtain ⟨r', hr', rfl⟩ := hrun
    exact Step.step_insert_all hr pos hv S r' hr'
  | erase pos =>
    obtain ⟨P, Q, a, rfl⟩ := split_at_node hv
    obtain ⟨q, hq⟩ := exists_getLast c.m_head (P.map Prod.fst)
    obtain ⟨r0, hr0⟩ := exists_head (Q.map Prod.fst) c.m_tail
    obtain ⟨h', e, s⟩ := Step.step_erase hr hq hr0
    have hpos : (⟨pos.it⟩ : iterator) = pos := rfl
    rw [hpos] at e
    simp only [Mutation.run, e, Option.map_some', Option.some.injEq] at hrun
    subst hrun
    exact ⟨_, s⟩
  | erase_range first last =>
    simp only [Mutation.run, Option.map_eq_some'] at hrun
    obtain ⟨r', hr', rfl⟩ := hrun
    obtain ⟨-, rfl⟩ := list.erase_range_some hr'
    exact ⟨_, Step.step_refl hr⟩

end mutation

/-! ### C1: pushes and the order of iteration -/

section claim1
variable {α : Type}
open Heap

theorem Rep.push_front_each {h : Heap α} {l : list} {ns : List (Nat × α)} (hr : Rep h l ns) :
    ∀ (S : List α), ∃ l' h' ns', l.push_front_each S h = some (l', h') ∧
      Rep h' l' (ns' ++ ns) ∧ ns'.map Prod.snd = S.reverse := by
  intro S
  induction S generalizing h l ns with
  | nil => exact ⟨l, h, [], rfl, by simpa using hr, rfl⟩
  | cons v S ih =>
    obtain ⟨h1, e1, -, r1, -⟩ := hr.push_front v
    obtain ⟨l2, h2, ns2, e2, r2, hS⟩ := ih r1
    refine ⟨l2, h2, ns2 ++ [(h.length + 1, v)], ?_, ?_, ?_⟩
    · simp [list.push_front_each, e1, e2]
    · simpa using r2
    · simp [hS]

theorem Rep.length_eq_of_map {ns : List (Nat × α)} {S : List α} (hS : ns.map Prod.snd = S) :
    ns.length = S.length := by
  rw [← hS, List.length_map]

/-- C1: on a default-constructed list, `push_back` of each value of `S` in order makes forward
iteration from `begin()` to `end()` yield `S`, `push_front` of each makes it yield `S` reversed,
and `push_back(1); push_back(2); push_front(0)` gives `[0, 1, 2]` with `size() == 3`,
`front() == 0`, `back() == 2`. -/
theorem C1_push_order [Inhabited α] (h0 : Heap α) (S : List α) :
    (∃ l h, pushed_back S h0 = some (l, h) ∧
      ∀ k : Nat, l.traverse (S.length + 1 + k) h = some S) ∧
    (∃ l h, pushed_front S h0 = some (l, h) ∧
      ∀ k : Nat, l.traverse (S.length + 1 + k) h = some S.reverse) ∧
    (∀ g0 : Heap Int, ∃ l h, example_push g0 = some (l, h) ∧
      (∀ k : Nat, l.traverse (3 + 1 + k) h = some [0, 1, 2]) ∧ l.size = 3 ∧
      l.front h = some (Access.value 0) ∧ l.back h = some (Access.value 2)) := by
  refine ⟨?_, ?_, ?_⟩
  · obtain ⟨h1, e1, -, r1, -⟩ := Rep.ctor h0
    obtain ⟨l2, h2, ns2, e2, r2, hS, -⟩ := r1.push_back_each S
    refine ⟨l2, h2, by simp [pushed_back, e1, e2], fun k => ?_⟩
    have hlen := Rep.length_eq_of_map hS
    have := r2.rep_traverse (S.length + 1 + k) (by simp; omega)
    simpa [hS] using this
  · obtain ⟨h1, e1, -, r1, -⟩ := Rep.ctor h0
    obtain ⟨l2, h2, ns2, e2, r2, hS⟩ := r1.push_front_each S
    refine ⟨l2, h2, by simp [pushed_front, e1, e2], fun k => ?_⟩
    have hlen := Rep.length_eq_of_map hS
    have := r2.rep_traverse (S.length + 1 + k) (by simp at hlen ⊢; omega)
    simpa [hS] using this
  · intro g0
    obtain ⟨h1, e1, -, r1, -⟩ := Rep.ctor g0
    generalize (⟨0, g0.length + 1, g0.length + 2⟩ : list) = l1 at e1 r1
    obtain ⟨h2, e2, -, r2, -⟩ := r1.push_back (1 : Int)
    generalize ({ l1 with m_size := l1.m_size + 1 } : list) = l2 at e2 r2
    obtain ⟨h3, e3, -, r3, -⟩ := r2.push_back (2 : Int)
    generalize ({ l2 with m_size := l2.m_size + 1 } : list) = l3 at e3 r3
    obtain ⟨h4, e4, -, r4, -⟩ := r3.push_front (0 : Int)
    generalize ({ l3 with m_size := l3.m_size + 1 } : list) = l4 at e4 r4
    refine ⟨l4, h4, by simp [example_push, e1, e2, e3, e4], fun k => ?_, ?_, ?_, ?_⟩
    · have := r4.rep_traverse (3 + 1 + k) (by simp; omega)
      simpa using this
    · simpa [list.size] using r4.2.2
    · have hl : Linked h4 l4 ((h3.length + 1) :: [h1.length + 1, h2.length + 1]) := by
        simpa using r4.1
      exact Linked.front_cons hl (r4.2.1 (h3.length + 1, 0) (by simp))
    · have hl : Linked h4 l4 ([h3.length + 1, h1.length + 1] ++ [h2.length + 1]) := by
        simpa using r4.1
      exact Linked.back_concat hl (r4.2.1 (h2.length + 1, 2) (by simp))

end claim1

/-! ### C4: `size()` after pushes and pops -/

section claim4
variable {α : Type}
open Heap

theorem Rep.rep_empty {h : Heap α} {l : list} {ns : List (Nat × α)} (hr : Rep h l ns) :
    l.empty h = some (ns.isEmpty) := by
  have := hr.1.empty
  cases ns <;> simpa using this

theorem Rep.run_call {h : Heap α} {l : list} {ns : List (Nat × α)} (hr : Rep h l ns)
    (c : Call α) :
    ∃ l' h' ns', c.run l h = some (l', h') ∧ Rep h' l' ns' ∧
      (ns'.length : Int) = ns.length + (if c.is_push then 1 else 0)
        - (if c.is_push || ns.isEmpty then 0 else 1) := by
  cases c with
  | push_front v =>
    obtain ⟨h1, e1, -, r1, -⟩ := hr.push_front v
    exact ⟨_, h1, _, e1, r1, by simp [Call.is_push]⟩
  | push_back v =>
    obtain ⟨h1, e1, -, r1, -⟩ := hr.push_back v
    exact ⟨_, h1, _, e1, r1, by simp [Call.is_push]⟩
  | pop_front =>
    cases ns with
    | nil =>
      have hn := hr.1.head_next_eq_tail_iff.mpr rfl
      exact ⟨l, h, [], list.pop_front_empty hn, hr, by simp [Call.is_push]⟩
    | cons e Q =>
      obtain ⟨p, a⟩ := e
      obtain ⟨h1, e1, -, r1, -⟩ := hr.pop_front
      exact ⟨_, h1, Q, e1, r1, by simp [Call.is_push]⟩
  | pop_back =>
    rcases List.eq_nil_or_concat ns with rfl | ⟨P, e, hPe⟩
    · have hn := hr.1.head_next_eq_tail_iff.mpr rfl
      exact ⟨l, h, [], list.pop_back_empty hn, hr, by simp [Call.is_push]⟩
    · obtain ⟨p, a⟩ := e
      rw [List.concat_eq_append] at hPe
      subst hPe
      obtain ⟨h1, e1, -, r1, -⟩ := hr.pop_back
      exact ⟨_, h1, P, e1, r1, by simp [Call.is_push]⟩

theorem Rep.run_calls {h : Heap α} {l : list} {ns : List (Nat × α)} (hr : Rep h l ns)
    (cs : List (Call α)) :
    ∃ l' h' ns' k, run_calls cs l h = some (l', h') ∧ count_pops cs l h = some k ∧
      Rep h' l' ns' ∧ (ns'.length : Int) = ns.length + count_pushes cs - k := by
  induction cs generalizing h l ns with
  | nil => exact ⟨l, h, ns, 0, rfl, rfl, hr, by simp [count_pushes]⟩
  | cons c cs ih =>
    obtain ⟨l1, h1, ns1, e1, r1, len1⟩ := hr.run_call c
    obtain ⟨l2, h2, ns2, k, e2, ek, r2, len2⟩ := ih r1
    refine ⟨l2, h2, ns2, if c.is_push || ns.isEmpty then k else k + 1, ?_, ?_, r2, ?_⟩
    · simp [sc.run_calls, e1, e2]
    · simp only [count_pops, hr.rep_empty, e1, ek, Option.bind_eq_bind, Option.some_bind, Option.pure_def]
    · rw [len2, len1]
      cases hc : c.is_push <;> cases hns : ns.isEmpty <;>
        simp [count_pushes, List.filter_cons, hc] <;> ring

/-- C4: after any sequence of `push_front`/`push_back`/`pop_front`/`pop_back` calls on a
default-constructed list, `size()` is the number of pushes minus the number of pops performed on
a non-empty list and is never negative; when the list is empty, `pop_front` and `pop_back`
change nothing, `size()` is `0` and the two sentinels are linked to each other. -/
theorem C4_size_after_calls [Inhabited α] (h0 : Heap α) (cs : List (Call α)) :
    ∃ l0 h1 l h k, list.ctor h0 = some (l0, h1) ∧ run_calls cs l0 h1 = some (l, h) ∧
      count_pops cs l0 h1 = some k ∧
      l.size = (count_pushes cs : Int) - (k : Int) ∧ 0 ≤ l.size ∧
      (l.empty h = some true →
        l.pop_front h = some (l, h) ∧ l.pop_back h = some (l, h) ∧ l.size = 0 ∧
        h.nextOf l.m_head = some l.m_tail ∧ h.prevOf l.m_tail = some l.m_head) := by
  obtain ⟨h1, e1, -, r1, -⟩ := Rep.ctor h0
  obtain ⟨l, h, ns, k, e2, ek, r2, len⟩ := r1.run_calls cs
  refine ⟨_, h1, l, h, k, e1, e2, ek, ?_, ?_, ?_⟩
  · simp only [list.size, r2.2.2, len]; simp
  · simp only [list.size, r2.2.2]; exact Int.natCast_nonneg _
  · intro he
    rw [r2.rep_empty] at he
    have hns : ns = [] := by simpa using he
    subst hns
    have hn := r2.1.head_next_eq_tail_iff.mpr rfl
    have hp := r2.1.tail_prev
    refine ⟨list.pop_front_empty hn, list.pop_back_empty hn, ?_, hn, ?_⟩
    · simp [list.size, r2.2.2]
    · simpa using hp

end claim4

/-! ### C2, C3, C5: the count constructor, `empty()`, `front()` and `back()` -/

section claim235
variable {α : Type}
open Heap

theorem Linked.traverse {h : Heap α} {l : list} {ns : List (Nat × α)}
    (hl : Linked h l (ns.map Prod.fst)) (hd : ∀ e ∈ ns, h.dataOf e.1 = some e.2)
    (fuel : Nat) (hf : ns.length < fuel) :
    l.traverse fuel h = some (ns.map Prod.snd) := by
  obtain ⟨p, hp⟩ := exists_head (ns.map Prod.fst) l.m_tail
  have hhn := hl.head_next
  rw [hp] at hhn
  have hc : (ns.map Prod.fst ++ [l.m_tail]).Chain' (Link h) := by
    have := hl.2
    unfold cells at this
    exact (List.chain'_cons'.mp this).2
  have hne : ∀ e ∈ ns, e.1 ≠ l.m_tail := by
    intro e he heq
    exact hl.not_mem_tail (heq ▸ List.mem_map_of_mem Prod.fst he)
  have := traverse_loop_chain ns fuel p hc hne hd hf hp
  simp [list.traverse, list.begin, hhn, list.end, this]

/-- C2 (the code at `count = 2`): the list built by `list(2)` reports `size() == 2`, yet forward
iteration from `begin()` to `end()` visits a single value: each pass of the constructor's loop
links the new node between the two sentinels and drops the node of the pass before. -/
theorem C2_ctor_count_two :
    ((list.ctor_count 2 ([] : Heap Int)).bind fun s =>
      (s.1.traverse 3 s.2).map fun xs => (xs, s.1.size)) = some ([0], 2) := by
  decide

/-- C3 (the code at `list(2)` followed by `pop_back()`): the only linked node is removed, so
`empty()` returns `true`, while `size()` returns `1`. -/
theorem C3_empty_with_size_one :
    ((list.ctor_count 2 ([] : Heap Int)).bind fun s =>
      (s.1.pop_back s.2).bind fun s => (s.1.empty s.2).map fun e => (e, s.1.size))
      = some (true, 1) := by
  decide

/-- C5: on a list with well-formed links whose live nodes hold the values of `ns` in order
(the order of forward iteration), `front()` and `back()` throw the `std::runtime_error` exactly
when there is no live node, and otherwise return the first and the last value; both are
functions of the state that return no state, so they change nothing.  On a fresh empty list
both throw, and after one `push_back(x)` both return `x`. -/
theorem C5_front_back (h : Heap α) (l : list) (ns : List (Nat × α))
    (hl : Linked h l (ns.map Prod.fst)) (hd : ∀ e ∈ ns, h.dataOf e.1 = some e.2) :
    (∀ k : Nat, l.traverse (ns.length + 1 + k) h = some (ns.map Prod.snd)) ∧
    (l.front h = some (Access.runtime_error "Invalid Action!") ↔ ns = []) ∧
    (l.back h = some (Access.runtime_error "Invalid Action!") ↔ ns = []) ∧
    (∀ x, (ns.map Prod.snd).head? = some x → l.front h = some (Access.value x)) ∧
    (∀ x, (ns.map Prod.snd).getLast? = some x → l.back h = some (Access.value x)) ∧
    (∀ [Inhabited α] (h0 : Heap α) (x : α), ∃ l1 h1 l2 h2,
      list.ctor h0 = some (l1, h1) ∧
      l1.front h1 = some (Access.runtime_error "Invalid Action!") ∧
      l1.back h1 = some (Access.runtime_error "Invalid Action!") ∧
      l1.push_back x h1 = some (l2, h2) ∧
      l2.front h2 = some (Access.value x) ∧ l2.back h2 = some (Access.value x)) := by
  have hfront : ∀ x, (ns.map Prod.snd).head? = some x → l.front h = some (Access.value x) := by
    intro x hx
    cases ns with
    | nil => simp at hx
    | cons e Q =>
      simp only [List.map_cons, List.head?_cons, Option.some.injEq] at hx
      subst hx
      exact Linked.front_cons (by simpa using hl) (hd e (by simp))
  have hback : ∀ x, (ns.map Prod.snd).getLast? = some x → l.back h = some (Access.value x) := by
    intro x hx
    rcases List.eq_nil_or_concat ns with rfl | ⟨P, e, hPe⟩
    · simp at hx
    · rw [List.concat_eq_append] at hPe
      subst hPe
      simp only [List.map_append, List.map_cons, List.map_nil, List.getLast?_concat,
        Option.some.injEq] at hx
      subst hx
      exact Linked.back_concat (by simpa using hl) (hd e (by simp))
  refine ⟨fun k => Linked.traverse hl hd _ (by omega), ?_, ?_, hfront, hback, ?_⟩
  · constructor
    · intro he
      cases ns with
      | nil => rfl
      | cons e Q =>
        have := hfront e.2 (by simp)
        rw [this] at he
        simp at he
    · rintro rfl
      exact Linked.front_nil (by simpa using hl)
  · constructor
    · intro he
      rcases List.eq_nil_or_concat ns with rfl | ⟨P, e, hPe⟩
      · rfl
      · rw [List.concat_eq_append] at hPe
        subst hPe
        have := hback e.2 (by simp)
        rw [this] at he
        simp at he
    · rintro rfl
      exact Linked.back_nil (by simpa using hl)
  · intro _ h0 x
    obtain ⟨h1, e1, -, r1, -⟩ := Rep.ctor h0
    generalize (⟨0, h0.length + 1, h0.length + 2⟩ : list) = l1 at e1 r1
    obtain ⟨h2, e2, -, r2, -⟩ := r1.push_back x
    generalize ({ l1 with m_size := l1.m_size + 1 } : list) = l2 at e2 r2
    have hl1 : Linked h1 l1 [] := by simpa using r1.1
    have hl2 : Linked h2 l2 ((h1.length + 1) :: []) := by simpa using r2.1
    have hl2' : Linked h2 l2 ([] ++ [h1.length + 1]) := by simpa using r2.1
    have hd2 : h2.dataOf (h1.length + 1) = some x := r2.2.1 (h1.length + 1, x) (by simp)
    exact ⟨l1, h1, l2, h2, e1, Linked.front_nil hl1, Linked.back_nil hl1, e2,
      Linked.front_cons hl2 hd2, Linked.back_concat hl2' hd2⟩

/-- Witness of C5 on the one-element list of `heap_one`: `front()` and `back()` return `5`. -/
theorem C5_front_back_witness :
    list_one.front heap_one = some (Access.value 5) ∧
      list_one.back heap_one = some (Access.value 5) :=
  ⟨(C5_front_back heap_one list_one [(3, 5)] (by decide) (by decide)).2.2.2.1 5 rfl,
    (C5_front_back heap_one list_one [(3, 5)] (by decide) (by decide)).2.2.2.2.1 5 rfl⟩

end claim235

/-! ### C6, C7: comparison -/

section claim67
variable {α : Type}
open Heap

/-- C6: for well-formed lists `A` and `B`, `operator==` returns `true` exactly when the sizes
are equal and the two value sequences are equal element by element; when the sizes differ it
returns `false` in every heap in which the two head sentinels can be read, whatever else the heap
holds, so no element is read or compared.  For `A = {1,2,3}`, `B = {1,2,3}` it returns `true`,
and `false` after `B.pop_back()`. -/
theorem C6_operator_eq [DecidableEq α] (h : Heap α) (A B : list) (nsA nsB : List (Nat × α))
    (hA : Rep h A nsA) (hB : Rep h B nsB) :
    (∃ b, operator_eq A B h = some b) ∧
    (operator_eq A B h = some true ↔
      (A.size = B.size ∧ nsA.map Prod.snd = nsB.map Prod.snd)) ∧
    (nsA.map Prod.snd = nsB.map Prod.snd ↔
      (nsA.length = nsB.length ∧
        ∀ i : Nat, (nsA.map Prod.snd)[i]? = (nsB.map Prod.snd)[i]?)) ∧
    (A.size ≠ B.size → ∀ g : Heap α, (g.nextOf A.m_head).isSome → (g.nextOf B.m_head).isSome →
      operator_eq A B g = some false) ∧
    example_compare [] = some (true, false, true) := by
  refine ⟨⟨_, Rep.operator_eq hA hB⟩, ?_, ?_, ?_, by decide⟩
  · rw [Rep.operator_eq hA hB]
    simp
  · constructor
    · intro e
      refine ⟨?_, fun i => by rw [e]⟩
      have := congrArg List.length e
      simpa using this
    · rintro ⟨-, hi⟩
      exact List.ext_getElem? hi
  · intro hsz g hgA hgB
    exact operator_eq_of_size_ne hsz g hgA hgB

/-- Witness of C6 on the two lists `{1,2,3}` of `heap_ab`: `A == B` is `true`. -/
theorem C6_operator_eq_witness : operator_eq list_a list_b heap_ab = some true :=
  (C6_operator_eq heap_ab list_a list_b [(3, 1), (4, 2), (5, 3)] [(8, 1), (9, 2), (10, 3)]
    (by decide) (by decide)).2.1.mpr ⟨rfl, rfl⟩

/-- C7: for well-formed lists `A` and `B`, `operator!=` returns the negation of what
`operator==` returns, although it runs its own loop. -/
theorem C7_operator_ne [DecidableEq α] (h : Heap α) (A B : list) (nsA nsB : List (Nat × α))
    (hA : Rep h A nsA) (hB : Rep h B nsB) :
    ∃ b, operator_eq A B h = some b ∧ operator_ne A B h = some (!b) := by
  refine ⟨_, Rep.operator_eq hA hB, ?_⟩
  rw [operator_ne_eq_not, Rep.operator_eq hA hB]
  rfl

/-- Witness of C7 on the two lists `{1,2,3}` of `heap_ab`: `A == B` is `true` and `A != B` is
`false`. -/
theorem C7_operator_ne_witness :
    ∃ b, operator_eq list_a list_b heap_ab = some b ∧
      operator_ne list_a list_b heap_ab = some (!b) :=
  C7_operator_ne heap_ab list_a list_b [(3, 1), (4, 2), (5, 3)] [(8, 1), (9, 2), (10, 3)]
    (by decide) (by decide)

end claim67

/-! ### C8: copies are deep -/

section claim8
variable {α : Type}
open Heap

theorem Rep.assign_isSome {h : Heap α} {l : list} {ns : List (Nat × α)} (v : α)
    (hr : Rep h l ns) (fuel : Nat) (hfuel : ns.length < fuel) :
    (l.assign v fuel h).isSome := by
  obtain ⟨p, hp⟩ := exists_head (ns.map Prod.fst) l.m_tail
  have hn := hr.rep_head_next
  rw [hp] at hn
  by_cases hpt : p = l.m_tail
  · simp [list.assign, hn, hpt]
  · have hr' : Rep h l ([] ++ ns) := by simpa using hr
    obtain ⟨h', -, -, -, hloop⟩ := Rep.assign_loop v hr' hp
    simp [list.assign, hn, hpt, hloop, hfuel]

theorem Rep.assign_each_isSome {h : Heap α} {l : list} {ns : List (Nat × α)} (hr : Rep h l ns)
    (S : List α) (fuel : Nat) (hfuel : ns.length < fuel) :
    ((l.clear fuel h).bind (fun s => s.1.push_back_each S s.2)).isSome := by
  obtain ⟨h1, s1, hc⟩ := Step.step_clear hr
  obtain ⟨l2, h2, ns2, e2, -, -⟩ := Step.step_push_back_each s1.1 S
  simp [hc, hfuel, e2]

theorem Rep.insert_all_isSome {h : Heap α} {l : list} {cs : List (Nat × α)} (hr : Rep h l cs)
    (pos : iterator) (hv : pos.it ∈ cs.map Prod.fst ++ [l.m_tail]) (S : List α) :
    ((pos.postdec h).bind fun t => (l.insert_each pos S h).bind fun s =>
      some (t.2, s.1, s.2)).isSome := by
  obtain ⟨P, Q, rfl, hp⟩ := split_at_position hv
  obtain ⟨q, hq⟩ := exists_getLast l.m_head (P.map Prod.fst)
  have hl := hr.1
  rw [List.map_append] at hl
  obtain ⟨-, hpq, -, -⟩ := Linked.at_split hl hq hp
  obtain ⟨l2, h2, new, e2, -⟩ := Step.step_insert_each S hr hp
  have hpos : (⟨pos.it⟩ : iterator) = pos := rfl
  rw [hpos] at e2
  simp [iterator.postdec, hpq, e2]

theorem Mutation.runs {h : Heap α} {c : list} {cs : List (Nat × α)} (hr : Rep h c cs)
    (m : Mutation α) (hv : m.valid c (cs.map Prod.fst))
    (hm : ∀ f l, m ≠ Mutation.erase_range f l) (fuel : Nat) (hfuel : cs.length < fuel) :
    (m.run fuel c h).isSome := by
  cases m with
  | push_front v =>
    obtain ⟨h', e, -⟩ := Step.step_push_front v hr
    simp [Mutation.run, e]
  | push_back v =>
    obtain ⟨h', e, -⟩ := Step.step_push_back v hr
    simp [Mutation.run, e]
  | pop_front =>
    cases cs with
    | nil =>
      have hn := hr.1.head_next_eq_tail_iff.mpr rfl
      simp [Mutation.run, list.pop_front_empty hn]
    | cons e Q =>
      obtain ⟨h', e1, -⟩ := Step.step_pop_front hr
      simp [Mutation.run, e1]
  | pop_back =>
    rcases List.eq_nil_or_concat cs with rfl | ⟨P, e, hPe⟩
    · have hn := hr.1.head_next_eq_tail_iff.mpr rfl
      simp [Mutation.run, list.pop_back_empty hn]
    · rw [List.concat_eq_append] at hPe
      subst hPe
      obtain ⟨h', e1, -⟩ := Step.step_pop_back hr
      simp [Mutation.run, e1]
  | clear =>
    obtain ⟨h1, -, hc⟩ := Step.step_clear hr
    simp [Mutation.run, hc, hfuel]
  | assign v => exact hr.assign_isSome v fuel hfuel
  | assign_count count v =>
    have := hr.assign_each_isSome (List.replicate count v) fuel hfuel
    simpa only [Mutation.run, list.assign_count, Option.bind_eq_bind,
      list.push_back_count_eq] using this
  | assign_range S => exact hr.assign_each_isSome S fuel hfuel
  | assign_ilist S => exact hr.assign_each_isSome S fuel hfuel
  | insert pos v =>
    obtain ⟨P, Q, rfl, hp⟩ := split_at_position hv
    obtain ⟨q, hq⟩ := exists_getLast c.m_head (P.map Prod.fst)
    obtain ⟨h', e, -⟩ := Step.step_insert v hr hq hp
    have hpos : (⟨pos.it⟩ : iterator) = pos := rfl
    rw [hpos] at e
    simp [Mutation.run, e]
  | insert_range pos S =>
    have := hr.insert_all_isSome pos hv S
    simp only [Mutation.run, Option.isSome_map']
    exact this
  | insert_ilist pos S =>
    have := hr.insert_all_isSome pos hv S
    simp only [Mutation.run, Option.isSome_map']
    exact this
  | erase pos =>
    obtain ⟨P, Q, a, rfl⟩ := split_at_node hv
    obtain ⟨q, hq⟩ := exists_getLast c.m_head (P.map Prod.fst)
    obtain ⟨r0, hr0⟩ := exists_head (Q.map Prod.fst) c.m_tail
    obtain ⟨h', e, -⟩ := Step.step_erase hr hq hr0
    have hpos : (⟨pos.it⟩ : iterator) = pos := rfl
    rw [hpos] at e
    simp [Mutation.run, e]
  | erase_range first last => exact absurd rfl (hm first last)

end claim8

/-! ### C9, C10: `insert` and `erase` -/

section claim910
variable {α : Type}
open Heap

/-- C9 as stated fails: on `{1, 2}` with `pos` at the node of `2`, `erase(insert(pos, 9))`
leaves `{9, 2}`, because `insert` returns the node before the new one and `erase` removes that
node; with `pos == begin()` the returned handle is the head sentinel and `erase` dereferences
its null `prev`. -/
theorem C9_counterexample :
    list_12.traverse 3 heap_12 = some [1, 2] ∧
      erase_insert list_12 ⟨4⟩ (9 : Int) 4 heap_12 = some [9, 2] ∧
      list_12.begin heap_12 = some ⟨3⟩ ∧
      erase_insert list_12 ⟨3⟩ (9 : Int) 4 heap_12 = none := by
  decide

/-- C9 (amended): on a well-formed list with nodes `P ++ Q` and `pos` at the first node of `Q`
(or `end()`), `insert(pos, v)` returns a handle `ret`; incrementing `ret` once gives the new
node, and `erase` of that handle leaves the list with its original nodes, values and `m_size`
and returns `pos`.  `erase(ret)` itself, when `P` is not empty (`P = P' ++ [e]`), removes the
node of `e`, the last of `P`, and keeps `v` in its place: forward iteration then yields the
values of `P'`, then `v`, then the values of `Q`, with the original size, and that is the
original sequence exactly when `v` is the value of `e`. -/
theorem C9_erase_undoes_insert (h : Heap α) (l : list) (P Q : List (Nat × α)) (pos : iterator)
    (v : α) (hr : Rep h l (P ++ Q))
    (hpos : (Q.map Prod.fst ++ [l.m_tail]).head? = some pos.it) :
    ∃ ret l1 h1 nxt, l.insert pos v h = some (ret, l1, h1) ∧
      ret.preinc h1 = some (nxt, nxt) ∧ nxt.deref h1 = some v ∧
      (∃ h2, l1.erase nxt h1 = some (pos, l, h2) ∧ Rep h2 l (P ++ Q) ∧
        ∀ k : Nat, l.traverse ((P ++ Q).length + 1 + k) h2 = some ((P ++ Q).map Prod.snd)) ∧
      (∀ P' e, P = P' ++ [e] → ∃ l2 h2, l1.erase ret h1 = some (nxt, l2, h2) ∧
        Rep h2 l2 (P' ++ (nxt.it, v) :: Q) ∧ l2.size = l.size ∧
        (∀ k : Nat, l2.traverse ((P ++ Q).length + 1 + k) h2
          = some (P'.map Prod.snd ++ v :: Q.map Prod.snd)) ∧
        (P'.map Prod.snd ++ v :: Q.map Prod.snd = (P ++ Q).map Prod.snd ↔ v = e.2)) := by
  obtain ⟨q, hq⟩ := exists_getLast l.m_head (P.map Prod.fst)
  obtain ⟨h1, e1, len1, r1, -⟩ := hr.insert v hq hpos
  have hposeq : (⟨pos.it⟩ : iterator) = pos := rfl
  rw [hposeq] at e1
  have hl1 := r1.1
  rw [List.map_append, List.map_cons] at hl1
  have hnxt : h1.nextOf q = some (h.length + 1) :=
    (Linked.at_split hl1 hq (by simp)).1
  have hl_eq : ({ ({ l with m_size := l.m_size + 1 } : list) with
      m_size := ({ l with m_size := l.m_size + 1 } : list).m_size - 1 } : list) = l := by
    cases l
    simp
  refine ⟨⟨q⟩, _, h1, ⟨h.length + 1⟩, e1, ?_, ?_, ?_, ?_⟩
  · simp [iterator.preinc, hnxt]
  · exact r1.2.1 (h.length + 1, v) (by simp)
  · obtain ⟨h2, e2, -, r2, -⟩ := r1.erase hq hpos
    rw [hposeq, hl_eq] at e2
    rw [hl_eq] at r2
    exact ⟨h2, e2, r2, fun k => r2.rep_traverse _ (by omega)⟩
  · rintro P' ⟨a, x⟩ rfl
    have hqa : q = a := by
      simp only [List.map_append, List.map_cons, List.map_nil] at hq
      rw [← List.cons_append, List.getLast?_concat] at hq
      exact (Option.some.inj hq).symm
    subst hqa
    have r1' : Rep h1 { l with m_size := l.m_size + 1 }
        (P' ++ (q, x) :: ((h.length + 1, v) :: Q)) := by simpa using r1
    obtain ⟨q', hq'⟩ := exists_getLast l.m_head (P'.map Prod.fst)
    have hh : (((h.length + 1, v) :: Q).map Prod.fst ++ [l.m_tail]).head?
        = some (h.length + 1) := rfl
    obtain ⟨h2, e2, -, r2, -⟩ := r1'.erase hq' hh
    refine ⟨_, h2, e2, r2, ?_, fun k => ?_, ?_⟩
    · simp [list.size]
    · have := r2.rep_traverse ((P' ++ [(q, x)] ++ Q).length + 1 + k)
        (by simp only [List.length_append, List.length_cons, List.length_nil]; omega)
      simpa using this
    · simp

/-- Witness of the amended C9 on `{1, 2}` with `pos` at the node of `2`. -/
theorem C9_erase_undoes_insert_witness :
    ∃ ret l1 h1 nxt, list_12.insert ⟨4⟩ (9 : Int) heap_12 = some (ret, l1, h1) ∧
      ret.preinc h1 = some (nxt, nxt) ∧ nxt.deref h1 = some 9 ∧
      (∃ h2, l1.erase nxt h1 = some (⟨4⟩, list_12, h2) ∧
        Rep h2 list_12 ([(3, 1)] ++ [(4, 2)]) ∧
        ∀ k : Nat, list_12.traverse (([((3 : Nat), (1 : Int))] ++ [(4, 2)]).length + 1 + k) h2
          = some (([((3 : Nat), (1 : Int))] ++ [(4, 2)]).map Prod.snd)) ∧
      (∀ P' e, [((3 : Nat), (1 : Int))] = P' ++ [e] → ∃ l2 h2,
        l1.erase ret h1 = some (nxt, l2, h2) ∧
        Rep h2 l2 (P' ++ (nxt.it, 9) :: [(4, 2)]) ∧ l2.size = list_12.size ∧
        (∀ k : Nat, l2.traverse (([((3 : Nat), (1 : Int))] ++ [(4, 2)]).length + 1 + k) h2
          = some (P'.map Prod.snd ++ 9 :: [((4 : Nat), (2 : Int))].map Prod.snd)) ∧
        (P'.map Prod.snd ++ 9 :: [((4 : Nat), (2 : Int))].map Prod.snd
          = ([((3 : Nat), (1 : Int))] ++ [(4, 2)]).map Prod.snd ↔ 9 = e.2)) :=
  C9_erase_undoes_insert heap_12 list_12 [(3, 1)] [(4, 2)] ⟨4⟩ 9 (by decide) (by decide)

/-- C10: on a well-formed list with nodes `P ++ Q` and `pos` at the first node of `Q` (or
`end()` when `Q` is empty), `insert(pos, value)` returns, the list is well-formed with the
values of `P`, then `value`, then the values of `Q`, `size()` grows by one, and the returned
handle is the node that preceded `pos` before the call (the last node of `P`, or the head
sentinel): its `next` is now the new node, and it is not the new node. -/
theorem C10_insert (h : Heap α) (l : list) (P Q : List (Nat × α)) (pos : iterator) (v : α)
    (hr : Rep h l (P ++ Q)) (hpos : (Q.map Prod.fst ++ [l.m_tail]).head? = some pos.it) :
    ∃ ret l' h' t, l.insert pos v h = some (ret, l', h') ∧
      Rep h' l' (P ++ (t, v) :: Q) ∧
      (∀ k : Nat, l'.traverse ((P ++ Q).length + 2 + k) h'
        = some (P.map Prod.snd ++ [v] ++ Q.map Prod.snd)) ∧
      l'.size = l.size + 1 ∧
      (l.m_head :: P.map Prod.fst).getLast? = some ret.it ∧
      h.prevOf pos.it = some ret.it ∧
      h'.nextOf ret.it = some t ∧ h'.prevOf t = some ret.it ∧ h'.nextOf t = some pos.it ∧
      h'.dataOf t = some v ∧ ret.it ≠ t := by
  obtain ⟨q, hq⟩ := exists_getLast l.m_head (P.map Prod.fst)
  obtain ⟨h1, e1, len1, r1, -⟩ := hr.insert v hq hpos
  have hposeq : (⟨pos.it⟩ : iterator) = pos := rfl
  rw [hposeq] at e1
  have hl := hr.1
  rw [List.map_append] at hl
  obtain ⟨-, hprev, hlq, -⟩ := Linked.at_split hl hq hpos
  have hl1 := r1.1
  rw [List.map_append, List.map_cons] at hl1
  obtain ⟨hpt, hnt, -, -, -⟩ := Linked.at_node hl1 hq hpos
  have hnxt : h1.nextOf q = some (h.length + 1) :=
    (Linked.at_split hl1 hq (by simp)).1
  refine ⟨⟨q⟩, _, h1, h.length + 1, e1, r1, fun k => ?_, by simp [list.size], hq, hprev,
    hnxt, hpt, hnt, r1.2.1 (h.length + 1, v) (by simp), ?_⟩
  · have := r1.rep_traverse ((P ++ Q).length + 2 + k) (by simp; omega)
    simpa using this
  · have := live_le_length hlq
    show q ≠ h.length + 1
    omega

/-- Witness of C10 on the one-element list of `heap_one`, inserting `7` at `end()`. -/
theorem C10_insert_witness :
    ∃ ret l' h' t, list_one.insert ⟨2⟩ (7 : Int) heap_one = some (ret, l', h') ∧
      Rep h' l' ([(3, 5)] ++ (t, 7) :: []) ∧
      (∀ k : Nat, l'.traverse (([((3 : Nat), (5 : Int))] ++ []).length + 2 + k) h'
        = some ([((3 : Nat), (5 : Int))].map Prod.snd ++ [7]
          ++ ([] : List (Nat × Int)).map Prod.snd)) ∧
      l'.size = list_one.size + 1 ∧
      (list_one.m_head :: [((3 : Nat), (5 : Int))].map Prod.fst).getLast? = some ret.it ∧
      heap_one.prevOf (⟨2⟩ : iterator).it = some ret.it ∧
      h'.nextOf ret.it = some t ∧ h'.prevOf t = some ret.it ∧
      h'.nextOf t = some (⟨2⟩ : iterator).it ∧ h'.dataOf t = some 7 ∧ ret.it ≠ t :=
  C10_insert heap_one list_one [(3, 5)] [] ⟨2⟩ 7 (by decide) (by decide)

end claim910

/-! ### C11: `erase(pos)` -/

section claim11
variable {α : Type}
open Heap

/-- C11: on a well-formed list with nodes `P ++ [n] ++ Q` and `pos` at the live node `n`,
`erase(pos)` returns, leaves the well-formed list with the nodes and values of `P ++ Q` in their
order, `size()` is one less, and the returned handle is the node that followed `n` (the first
node of `Q`, or `end()`); when `n` was the first node it equals the new `begin()`.
`erase(begin())` on `{1, 2, 3}` yields `{2, 3}` and returns the new `begin()`. -/
theorem C11_erase (h : Heap α) (l : list) (P Q : List (Nat × α)) (pos : iterator) (a : α)
    (hr : Rep h l (P ++ (pos.it, a) :: Q)) :
    ∃ ret l' h', l.erase pos h = some (ret, l', h') ∧ Rep h' l' (P ++ Q) ∧
      (∀ k : Nat, l'.traverse ((P ++ Q).length + 1 + k) h'
        = some (P.map Prod.snd ++ Q.map Prod.snd)) ∧
      l'.size = l.size - 1 ∧
      (Q.map Prod.fst ++ [l.m_tail]).head? = some ret.it ∧ h.nextOf pos.it = some ret.it ∧
      (Q = [] → ret = l'.end) ∧
      (P = [] → l'.begin h' = some ret) ∧
      example_erase_begin [] = some ([2, 3], true) := by
  obtain ⟨q, hq⟩ := exists_getLast l.m_head (P.map Prod.fst)
  obtain ⟨r, hrr⟩ := exists_head (Q.map Prod.fst) l.m_tail
  obtain ⟨h', e, -, r1, -⟩ := hr.erase hq hrr
  have hposeq : (⟨pos.it⟩ : iterator) = pos := rfl
  rw [hposeq] at e
  refine ⟨⟨r⟩, _, h', e, r1, fun k => ?_, rfl, hrr, ?_, ?_, ?_, by decide⟩
  · have := r1.rep_traverse ((P ++ Q).length + 1 + k) (by omega)
    simpa using this
  · rw [hr.next_at, hrr]
  · rintro rfl
    simp only [List.map_nil, List.nil_append, List.head?_cons, Option.some.injEq] at hrr
    simp [list.end, hrr]
  · rintro rfl
    have hn := r1.rep_head_next
    simp only [List.nil_append] at hn
    rw [hrr] at hn
    simp [list.begin, hn]

/-- Witness of C11 on the list `A = {1, 2, 3}` of `heap_ab`, erasing its middle node. -/
theorem C11_erase_witness :
    ∃ ret l' h', list_a.erase ⟨4⟩ heap_ab = some (ret, l', h') ∧
      Rep h' l' ([(3, 1)] ++ [(5, 3)]) ∧ l'.size = list_a.size - 1 ∧ ret.it = 5 := by
  obtain ⟨ret, l', h', e, r, -, hs, hret, -⟩ :=
    C11_erase heap_ab list_a [(3, 1)] [(5, 3)] ⟨4⟩ 2 (by decide)
  exact ⟨ret, l', h', e, r, hs, (Option.some.inj hret).symm⟩

end claim11

/-! ### C12: `erase(first, last)` -/

section claim12
variable {α : Type}
open Heap

/-- C12 (the code on `A = {1, 2, 3}` with `first == begin()` and `last == end()`, and on any
non-empty range): `erase(first)` frees the node of `first`, and the `first++` that follows reads
the `next` field of that freed node, so the call has no defined result, whatever the fuel; a
call returns only when `first == last`, and then it changes nothing. -/
theorem C12_erase_range_reads_freed_node :
    (∀ fuel : Nat, list_a.erase_range list_a.end fuel ⟨3⟩ heap_ab = none) ∧
    (∃ r l' h', list_a.erase ⟨3⟩ heap_ab = some (r, l', h') ∧ h'.nextOf 3 = none ∧
      (⟨3⟩ : iterator).postinc h' = none) ∧
    (∀ (h : Heap α) (l : list) (first last : iterator) (fuel : Nat)
      (r : iterator × list × Heap α),
      l.erase_range last fuel first h = some r → first = last ∧ r = (last, l, h)) ∧
    (∀ (h : Heap α) (l : list) (last : iterator) (fuel : Nat),
      l.erase_range last (fuel + 1) last h = some (last, l, h)) := by
  refine ⟨?_, ?_, ?_, ?_⟩
  · intro fuel
    cases hrun : list_a.erase_range list_a.end fuel ⟨3⟩ heap_ab with
    | none => rfl
    | some r =>
      have := (list.erase_range_some hrun).1
      simp [list.end, list_a] at this
  · cases he : list_a.erase ⟨3⟩ heap_ab with
    | none => exact absurd he (by decide)
    | some r =>
      have hfree := list.erase_frees he
      exact ⟨r.1, r.2.1, r.2.2, rfl, hfree, by simp [iterator.postinc, hfree]⟩
  · intro h l first last fuel r hrun
    exact list.erase_range_some hrun
  · intro h l last fuel
    simp [list.erase_range, iterator.ne]

end claim12

/-! ### C13: `clear()` -/

section claim13
variable {α : Type}
open Heap

theorem Rep.clear_loop_freed {h : Heap α} {l : list} {ns : List (Nat × α)} (hr : Rep h l ns) :
    ∀ {p : Nat}, (ns.map Prod.fst ++ [l.m_tail]).head? = some p →
      ∀ (fuel : Nat) (h' : Heap α), l.clear_loop fuel p h = some h' →
        ∀ e ∈ ns, h'.dataOf e.1 = none := by
  induction ns generalizing h l with
  | nil => intro p _ fuel h' _ e he; simp at he
  | cons e Q ih =>
    intro p hp fuel h' hrun
    obtain ⟨a, x⟩ := e
    simp only [List.map_cons, List.cons_append, List.head?_cons, Option.some.injEq] at hp
    subst hp
    obtain ⟨r, hrr⟩ := exists_head (Q.map Prod.fst) l.m_tail
    have hq : (l.m_head :: (([] : List (Nat × α)).map Prod.fst)).getLast? = some l.m_head := rfl
    have hr' : Rep h l ([] ++ (a, x) :: Q) := by simpa using hr
    have hl := hr'.1
    rw [List.map_append, List.map_cons] at hl
    obtain ⟨-, hpr, hlh, hlr, hla⟩ := Linked.at_node hl hq hrr
    have hne : a ≠ l.m_tail := hr.ne_tail (a, x) (by simp)
    obtain ⟨g1, g2, h1, e1, e2, e3, len1, hn, hpv, hd⟩ := clear_step_spec l hlh hpr hlr
    obtain ⟨r1, f1⟩ := Rep.unsplice hr' hq hrr hn hpv hd
    simp only [List.nil_append] at r1 f1
    cases fuel with
    | zero => simp [list.clear_loop] at hrun
    | succ n =>
      have hcongr := list.clear_loop_congr l { l with m_size := l.m_size - 1 } rfl rfl n r h1
      simp only [list.clear_loop, hne, ne_eq, not_false_eq_true, if_true, hpr,
        Option.bind_eq_bind, Option.some_bind, e1, e2, e3, hcongr] at hrun
      have hQ := ih r1 hrr n h' hrun
      obtain ⟨h2, -, -, f2, hloop⟩ := r1.clear_loop hrr
      have hh : h' = h2 := by
        rw [hloop] at hrun
        by_cases hf : Q.length < n
        · simpa [hf] using hrun.symm
        · simp [hf] at hrun
      subst hh
      intro e he
      rcases List.mem_cons.mp he with rfl | he
      · have ha1 : h1.dataOf a = none := by rw [hd, if_pos rfl]
        have hale : a ≤ h1.length := by have := live_le_length hla; omega
        have hnotin : a ∉ cells ({ l with m_size := l.m_size - 1 } : list) (Q.map Prod.fst) := by
          intro hm
          have hnd : (a :: Q.map Prod.fst).Nodup := by
            have := (List.nodup_cons.mp hr.1.1).2.of_append_left
            simpa using this
          simp only [cells, List.mem_cons, List.mem_append, List.mem_singleton,
            List.not_mem_nil, or_false] at hm
          rcases hm with h1' | h2' | h3'
          · exact hr.ne_head (a, x) (by simp) h1'
          · exact (List.nodup_cons.mp hnd).1 h2'
          · exact hne h3'
        exact ((f2 a hale hnotin).2.2).trans ha1
      · exact hQ e he

theorem Rep.clear_freed {h : Heap α} {l : list} {ns : List (Nat × α)} (hr : Rep h l ns)
    {fuel : Nat} {r : list × Heap α} (hrun : l.clear fuel h = some r) :
    ∀ e ∈ ns, ¬ r.2.Live e.1 := by
  obtain ⟨p, hp⟩ := exists_head (ns.map Prod.fst) l.m_tail
  have hn := hr.rep_head_next
  rw [hp] at hn
  simp only [list.clear, hn, Option.bind_eq_bind, Option.some_bind, Option.pure_def,
    Option.bind_eq_some] at hrun
  obtain ⟨h', hloop, hr'⟩ := hrun
  simp only [Option.some.injEq] at hr'
  subst hr'
  intro e he hlive
  have := hr.clear_loop_freed hp fuel h' hloop e he
  simp only [Live, dataOf] at hlive this
  cases hrd : h'.read e.1 with
  | none => simp [hrd] at hlive
  | some n => simp [hrd] at this

theorem Rep.run_call_same {h g : Heap α} {l m : list} {ns ms : List (Nat × α)}
    (hr : Rep h l ns) (gr : Rep g m ms) (hv : ns.map Prod.snd = ms.map Prod.snd)
    (c : Call α) :
    ∃ l' h' ns' m' g' ms', c.run l h = some (l', h') ∧ c.run m g = some (m', g') ∧
      Rep h' l' ns' ∧ Rep g' m' ms' ∧ ns'.map Prod.snd = ms'.map Prod.snd := by
  cases c with
  | push_front v =>
    obtain ⟨h1, e1, -, r1, -⟩ := hr.push_front v
    obtain ⟨g1, e2, -, r2, -⟩ := gr.push_front v
    exact ⟨_, h1, _, _, g1, _, e1, e2, r1, r2, by simp [hv]⟩
  | push_back v =>
    obtain ⟨h1, e1, -, r1, -⟩ := hr.push_back v
    obtain ⟨g1, e2, -, r2, -⟩ := gr.push_back v
    exact ⟨_, h1, _, _, g1, _, e1, e2, r1, r2, by simp [hv]⟩
  | pop_front =>
    cases ns with
    | nil =>
      have hms : ms = [] := by simpa using hv.symm
      subst hms
      have hn := hr.1.head_next_eq_tail_iff.mpr rfl
      have gn := gr.1.head_next_eq_tail_iff.mpr rfl
      exact ⟨l, h, [], m, g, [], list.pop_front_empty hn, list.pop_front_empty gn, hr, gr, rfl⟩
    | cons e Q =>
      cases ms with
      | nil => simp at hv
      | cons e' Q' =>
        obtain ⟨p, a⟩ := e
        obtain ⟨p', a'⟩ := e'
        obtain ⟨h1, e1, -, r1, -⟩ := hr.pop_front
        obtain ⟨g1, e2, -, r2, -⟩ := gr.pop_front
        simp only [List.map_cons, List.cons.injEq] at hv
        exact ⟨_, h1, Q, _, g1, Q', e1, e2, r1, r2, hv.2⟩
  | pop_back =>
    rcases List.eq_nil_or_concat ns with rfl | ⟨P, e, hPe⟩
    · have hms : ms = [] := by simpa using hv.symm
      subst hms
      have hn := hr.1.head_next_eq_tail_iff.mpr rfl
      have gn := gr.1.head_next_eq_tail_iff.mpr rfl
      exact ⟨l, h, [], m, g, [], list.pop_back_empty hn, list.pop_back_empty gn, hr, gr, rfl⟩
    · rcases List.eq_nil_or_concat ms with rfl | ⟨P', e', hPe'⟩
      · rw [hPe] at hv; simp at hv
      · rw [List.concat_eq_append] at hPe hPe'
        subst hPe; subst hPe'
        obtain ⟨p, a⟩ := e
        obtain ⟨p', a'⟩ := e'
        obtain ⟨h1, e1, -, r1, -⟩ := hr.pop_back
        obtain ⟨g1, e2, -, r2, -⟩ := gr.pop_back
        simp only [List.map_append, List.map_cons, List.map_nil] at hv
        have hv' := List.append_inj_left' hv rfl
        exact ⟨_, h1, P, _, g1, P', e1, e2, r1, r2, hv'⟩

theorem Rep.run_calls_same {h g : Heap α} {l m : list} {ns ms : List (Nat × α)}
    (hr : Rep h l ns) (gr : Rep g m ms) (hv : ns.map Prod.snd = ms.map Prod.snd)
    (cs : List (Call α)) :
    ∃ l' h' ns' m' g' ms', sc.run_calls cs l h = some (l', h') ∧
      sc.run_calls cs m g = some (m', g') ∧
      Rep h' l' ns' ∧ Rep g' m' ms' ∧ ns'.map Prod.snd = ms'.map Prod.snd := by
  induction cs generalizing h g l m ns ms with
  | nil => exact ⟨l, h, ns, m, g, ms, rfl, rfl, hr, gr, hv⟩
  | cons c cs ih =>
    obtain ⟨l1, h1, ns1, m1, g1, ms1, e1, e2, r1, r2, hv1⟩ := hr.run_call_same gr hv c
    obtain ⟨l2, h2, ns2, m2, g2, ms2, f1, f2, s1, s2, hv2⟩ := ih r1 r2 hv1
    exact ⟨l2, h2, ns2, m2, g2, ms2, by simp [sc.run_calls, e1, f1],
      by simp [sc.run_calls, e2, f2], s1, s2, hv2⟩

/-- C13: on a well-formed list `clear()` returns (given fuel for its loop), keeps the two
sentinels, leaves `size() == 0` with the head sentinel's `next` the tail sentinel and the tail
sentinel's `prev` the head sentinel, and frees every former live node.  Any sequence of pushes
(and pops) run on the cleared list and on a default-constructed list gives the same values in
forward iteration and the same `size()`. -/
theorem C13_clear [Inhabited α] (h : Heap α) (l : list) (ns : List (Nat × α))
    (hr : Rep h l ns) :
    ∃ l' h', (∀ fuel, ns.length < fuel → l.clear fuel h = some (l', h')) ∧
      l'.m_head = l.m_head ∧ l'.m_tail = l.m_tail ∧ l'.size = 0 ∧
      h'.nextOf l.m_head = some l.m_tail ∧ h'.prevOf l.m_tail = some l.m_head ∧
      l'.empty h' = some true ∧ (∀ k : Nat, l'.traverse (1 + k) h' = some []) ∧
      (∀ e ∈ ns, ¬ h'.Live e.1) ∧
      ∀ (g0 : Heap α) (cs : List (Call α)), ∃ f gf a ga b gb xs,
        list.ctor g0 = some (f, gf) ∧
        run_calls cs l' h' = some (a, ga) ∧ run_calls cs f gf = some (b, gb) ∧
        (∀ k : Nat, a.traverse (xs.length + 1 + k) ga = some xs) ∧
        (∀ k : Nat, b.traverse (xs.length + 1 + k) gb = some xs) ∧
        a.size = xs.length ∧ b.size = xs.length := by
  obtain ⟨h', r, -, -, hc⟩ := hr.clear
  have hn := r.1.head_next_eq_tail_iff.mpr rfl
  have hp := r.1.tail_prev
  have hrun : l.clear (ns.length + 1) h = some ({ l with m_size := 0 }, h') := by
    rw [hc, if_pos (Nat.lt_succ_self _)]
  refine ⟨{ l with m_size := 0 }, h', fun fuel hf => by rw [hc, if_pos hf], rfl, rfl, rfl,
    hn, by simpa using hp, ?_, fun k => ?_, hr.clear_freed hrun, ?_⟩
  · rw [r.rep_empty]; rfl
  · have := r.rep_traverse (1 + k) (by simp)
    simpa using this
  · intro g0 cs
    obtain ⟨g1, e1, -, r1, -⟩ := Rep.ctor g0
    obtain ⟨a, ga, nsa, b, gb, nsb, ea, eb, ra, rb, hv⟩ := r.run_calls_same r1 rfl cs
    have hlen : nsb.length = nsa.length := by
      have := congrArg List.length hv
      simpa using this.symm
    refine ⟨_, g1, a, ga, b, gb, nsa.map Prod.snd, e1, ea, eb, fun k => ?_, fun k => ?_, ?_, ?_⟩
    · exact ra.rep_traverse _ (by simp; omega)
    · rw [hv]
      exact rb.rep_traverse _ (by simp; omega)
    · simp [list.size, ra.2.2]
    · simp [list.size, rb.2.2, hlen]

/-- Witness of C13 on the one-element list of `heap_one`: `clear()` leaves `size() == 0`. -/
theorem C13_clear_witness :
    ∃ l' h', (∀ fuel, [((3 : Nat), (5 : Int))].length < fuel →
        list_one.clear fuel heap_one = some (l', h')) ∧ l'.size = 0 ∧
      h'.nextOf list_one.m_head = some list_one.m_tail ∧ ¬ h'.Live 3 := by
  obtain ⟨l', h', hc, -, -, hs, hn, -, -, -, hf, -⟩ :=
    C13_clear heap_one list_one [(3, 5)] (by decide)
  exact ⟨l', h', hc, hs, hn, hf (3, 5) (by simp)⟩

end claim13

/-! ### C14: `assign(value)` -/

section claim14
variable {α : Type}
open Heap

theorem setData_links {h h1 : Heap α} {p : Nat} {v : α} (e : h.setData p v = some h1) :
    h1.length = h.length ∧ (∀ x, h1.nextOf x = h.nextOf x) ∧ (∀ x, h1.prevOf x = h.prevOf x) := by
  have hlive : h.Live p := by
    unfold Heap.setData at e
    cases hr : h.read p with
    | none => simp [hr] at e
    | some n => simp [Live, hr]
  obtain ⟨h2, e2, len, hn, hp, -⟩ := setData_spec v hlive
  rw [e] at e2
  cases e2
  exact ⟨len, hn, hp⟩

theorem list.assign_loop_links (l : list) (v : α) (fuel : Nat) :
    ∀ (p : Nat) (h h' : Heap α), l.assign_loop v fuel p h = some h' →
      h'.length = h.length ∧ (∀ x, h'.nextOf x = h.nextOf x) ∧
        (∀ x, h'.prevOf x = h.prevOf x) := by
  induction fuel with
  | zero => intro p h h' e; simp [list.assign_loop] at e
  | succ fuel ih =>
    intro p h h' e
    simp only [list.assign_loop] at e
    by_cases hp : p ≠ l.m_tail
    · rw [if_pos hp] at e
      simp only [Option.bind_eq_bind, Option.bind_eq_some] at e
      obtain ⟨h1, e1, t, -, e3⟩ := e
      obtain ⟨len1, n1, p1⟩ := setData_links e1
      obtain ⟨len2, n2, p2⟩ := ih t h1 h' e3
      exact ⟨by omega, fun x => (n2 x).trans (n1 x), fun x => (p2 x).trans (p1 x)⟩
    · rw [if_neg hp] at e
      simp only [Option.some.injEq] at e
      subst e
      exact ⟨rfl, fun _ => rfl, fun _ => rfl⟩

/-- C14: on a well-formed list with nodes `ns`, `assign(value)` returns (given fuel for its
loop) the same list object, so `size()` is unchanged; the list is well-formed with the same
nodes at the same addresses in the same order, each holding `value`; the `next` and `prev`
fields of every address are unchanged, no cell is allocated or freed; on an empty list the
call returns the state unchanged. -/
theorem C14_assign_value (h : Heap α) (l : list) (ns : List (Nat × α)) (v : α)
    (hr : Rep h l ns) :
    ∃ h', (∀ fuel, ns.length < fuel → l.assign v fuel h = some (l, h')) ∧
      Rep h' l (ns.map (fun e => (e.1, v))) ∧
      (∀ k : Nat, l.traverse (ns.length + 1 + k) h' = some (List.replicate ns.length v)) ∧
      (∀ x, h'.nextOf x = h.nextOf x) ∧ (∀ x, h'.prevOf x = h.prevOf x) ∧
      h'.length = h.length ∧ (∀ x, h'.Live x ↔ h.Live x) ∧
      (ns = [] → ∀ fuel, l.assign v fuel h = some (l, h)) := by
  obtain ⟨p, hp⟩ := exists_head (ns.map Prod.fst) l.m_tail
  have hn := hr.rep_head_next
  rw [hp] at hn
  have hvals : (ns.map (fun e => (e.1, v))).map Prod.snd = List.replicate ns.length v := by
    clear hr hp hn
    induction ns with
    | nil => rfl
    | cons e Q ih => simp [List.replicate_succ, ih]
  have hempty : ns = [] → ∀ fuel, l.assign v fuel h = some (l, h) := by
    rintro rfl fuel
    simp only [List.map_nil, List.nil_append, List.head?_cons, Option.some.injEq] at hp
    simp [list.assign, hn, hp]
  by_cases hpt : p = l.m_tail
  · have hnil : ns = [] := by
      have := hr.1.head_next_eq_tail_iff.mp (by rw [hn, hpt])
      simpa using this
    subst hnil
    refine ⟨h, fun fuel _ => hempty rfl fuel, hr, fun k => ?_, fun _ => rfl, fun _ => rfl, rfl,
      fun _ => Iff.rfl, hempty⟩
    have := hr.rep_traverse (0 + 1 + k) (by simp)
    simpa using this
  · have hr' : Rep h l ([] ++ ns) := by simpa using hr
    obtain ⟨h', r', len, -, hloop⟩ := Rep.assign_loop v hr' hp
    simp only [List.nil_append] at r'
    have hrun : ∀ fuel, ns.length < fuel → l.assign v fuel h = some (l, h') := by
      intro fuel hf
      simp [list.assign, hn, hpt, hloop, hf]
    obtain ⟨-, hnx, hpv⟩ := list.assign_loop_links l v (ns.length + 1) p h h'
      (by rw [hloop, if_pos (Nat.lt_succ_self _)])
    refine ⟨h', hrun, r', fun k => ?_, hnx, hpv, len, fun x => ?_, hempty⟩
    · have := r'.rep_traverse (ns.length + 1 + k) (by simp; omega)
      rw [this, hvals]
    · rw [live_iff_nextOf, live_iff_nextOf, hnx]

/-- Witness of C14 on the list `{1, 2}` of `heap_12`: `assign(7)` gives `{7, 7}` at the same
two nodes. -/
theorem C14_assign_value_witness :
    ∃ h', (∀ fuel, [((3 : Nat), (1 : Int)), (4, 2)].length < fuel →
        list_12.assign 7 fuel heap_12 = some (list_12, h')) ∧
      Rep h' list_12 [(3, 7), (4, 7)] ∧ h'.length = heap_12.length := by
  obtain ⟨h', hrun, r, -, -, -, len, -⟩ :=
    C14_assign_value heap_12 list_12 [(3, 1), (4, 2)] 7 (by decide)
  exact ⟨h', hrun, r, len⟩

end claim14

/-! ### C15: `assign(count, value)`, `assign(first, last)`, `assign(ilist)` -/

section claim15
variable {α : Type}
open Heap

theorem Rep.assign_each {h : Heap α} {l : list} {ns : List (Nat × α)} (hr : Rep h l ns)
    (S : List α) :
    ∃ l' h' ns', (∀ fuel, ns.length < fuel →
        (l.clear fuel h).bind (fun s => s.1.push_back_each S s.2) = some (l', h')) ∧
      Rep h' l' ns' ∧ ns'.map Prod.snd = S ∧ l'.size = S.length ∧
      l'.m_head = l.m_head ∧ l'.m_tail = l.m_tail ∧
      (∀ k : Nat, l'.traverse (S.length + 1 + k) h' = some S) ∧
      (∀ e ∈ ns, ¬ h'.Live e.1) ∧ (∀ e ∈ ns', h.length < e.1) := by
  obtain ⟨h1, r1, len1, -, hc⟩ := hr.clear
  have hrun1 : l.clear (ns.length + 1) h = some ({ l with m_size := 0 }, h1) := by
    rw [hc, if_pos (Nat.lt_succ_self _)]
  have hfreed := hr.clear_freed hrun1
  obtain ⟨l2, h2, ns2, e2, r2, hS, hh, ht, len2, hfresh, f2⟩ := r1.push_back_each S
  simp only [List.nil_append] at r2
  have hlen : ns2.length = S.length := Rep.length_eq_of_map hS
  refine ⟨l2, h2, ns2, ?_, r2, hS, ?_, hh, ht, fun k => ?_, ?_, ?_⟩
  · intro fuel hf
    rw [hc, if_pos hf]
    simpa using e2
  · simp [list.size, r2.2.2, hlen]
  · have := r2.rep_traverse (S.length + 1 + k) (by omega)
    rw [this, hS]
  · intro e he hlive
    have hle : e.1 ≤ h1.length := by
      have := live_le_length (live_of_dataOf (hr.2.1 e he))
      omega
    have hnot : e.1 ∉ cells ({ l with m_size := 0 } : list)
        (([] : List (Nat × α)).map Prod.fst) := by
      simp only [cells, List.map_nil, List.nil_append, List.mem_cons, List.mem_singleton,
        List.not_mem_nil, or_false, not_or]
      exact ⟨hr.ne_head e he, hr.ne_tail e he⟩
    have hd := (f2 e.1 hle hnot).2.2
    exact hfreed e he (hlive.congr hd.symm)
  · intro e he
    have := hfresh e he
    omega

/-- C15: on a well-formed list, whatever its nodes `ns`, `assign(count, value)`,
`assign(first, last)` and `assign(ilist)` return (given fuel for the loop of `clear()`) a
well-formed list with the same sentinels whose values are `count` copies of `value`, or the
values `S` of the range in order; `size()` is `count`, or the length of `S`; every former live
node is freed and every node of the result is newly allocated. -/
theorem C15_assign_overloads (h : Heap α) (l : list) (ns : List (Nat × α))
    (hr : Rep h l ns) :
    (∀ (count : Nat) (v : α), ∃ l' h' ns',
      (∀ fuel, ns.length < fuel → l.assign_count count v fuel h = some (l', h')) ∧
      Rep h' l' ns' ∧ ns'.map Prod.snd = List.replicate count v ∧ l'.size = count ∧
      (∀ k : Nat, l'.traverse (count + 1 + k) h' = some (List.replicate count v)) ∧
      (∀ e ∈ ns, ¬ h'.Live e.1) ∧ (∀ e ∈ ns', h.length < e.1)) ∧
    (∀ S : List α, ∃ l' h' ns',
      (∀ fuel, ns.length < fuel → l.assign_range S fuel h = some (l', h')) ∧
      Rep h' l' ns' ∧ ns'.map Prod.snd = S ∧ l'.size = S.length ∧
      (∀ k : Nat, l'.traverse (S.length + 1 + k) h' = some S) ∧
      (∀ e ∈ ns, ¬ h'.Live e.1) ∧ (∀ e ∈ ns', h.length < e.1)) ∧
    (∀ S : List α, ∃ l' h' ns',
      (∀ fuel, ns.length < fuel → l.assign_ilist S fuel h = some (l', h')) ∧
      Rep h' l' ns' ∧ ns'.map Prod.snd = S ∧ l'.size = S.length ∧
      (∀ k : Nat, l'.traverse (S.length + 1 + k) h' = some S) ∧
      (∀ e ∈ ns, ¬ h'.Live e.1) ∧ (∀ e ∈ ns', h.length < e.1)) := by
  refine ⟨fun count v => ?_, fun S => ?_, fun S => ?_⟩
  · obtain ⟨l', h', ns', hrun, r, hS, hsz, -, -, htr, hfreed, hfresh⟩ :=
      hr.assign_each (List.replicate count v)
    simp only [List.length_replicate] at hsz htr
    refine ⟨l', h', ns', fun fuel hf => ?_, r, hS, hsz, htr, hfreed, hfresh⟩
    rw [← hrun fuel hf]
    simp only [list.assign_count, Option.bind_eq_bind, list.push_back_count_eq]
  · obtain ⟨l', h', ns', hrun, r, hS, hsz, -, -, htr, hfreed, hfresh⟩ := hr.assign_each S
    exact ⟨l', h', ns', fun fuel hf => hrun fuel hf, r, hS, hsz, htr, hfreed, hfresh⟩
  · obtain ⟨l', h', ns', hrun, r, hS, hsz, -, -, htr, hfreed, hfresh⟩ := hr.assign_each S
    exact ⟨l', h', ns', fun fuel hf => hrun fuel hf, r, hS, hsz, htr, hfreed, hfresh⟩

/-- Witness of C15 on the list `{1, 2}` of `heap_12`: `assign(3, 9)` gives `{9, 9, 9}`. -/
theorem C15_assign_overloads_witness :
    ∃ l' h' ns', (∀ fuel, [((3 : Nat), (1 : Int)), (4, 2)].length < fuel →
        list_12.assign_count 3 9 fuel heap_12 = some (l', h')) ∧
      Rep h' l' ns' ∧ ns'.map Prod.snd = List.replicate 3 9 ∧ l'.size = (3 : Nat) := by
  obtain ⟨l', h', ns', hrun, r, hS, hsz, -⟩ :=
    (C15_assign_overloads heap_12 list_12 [(3, 1), (4, 2)] (by decide)).1 3 9
  exact ⟨l', h', ns', hrun, r, hS, hsz⟩

end claim15

/-! ### C16: `insert(pos, first, last)` and `insert(pos, ilist)` -/

section claim16
variable {α : Type}
open Heap

/-- C16: on a well-formed list with nodes `P ++ Q` and `pos` at the first node of `Q` (or
`end()`), `insert(pos, first, last)` and `insert(pos, ilist)` over the values `S` return, the
list is well-formed with the values of `P`, then `S` in its order, then the values of `Q`,
`size()` grows by the length of `S`, and the returned handle is the node that preceded `pos`
before the call: the last node of `P`, or the head sentinel when `P` is empty. -/
theorem C16_insert_range (h : Heap α) (l : list) (P Q : List (Nat × α)) (pos : iterator)
    (S : List α) (hr : Rep h l (P ++ Q))
    (hpos : (Q.map Prod.fst ++ [l.m_tail]).head? = some pos.it) :
    ∃ ret l' h' new, l.insert_range pos S h = some (ret, l', h') ∧
      l.insert_ilist pos S h = some (ret, l', h') ∧
      new.map Prod.snd = S ∧ Rep h' l' (P ++ new ++ Q) ∧
      (∀ k : Nat, l'.traverse ((P ++ Q).length + S.length + 1 + k) h'
        = some (P.map Prod.snd ++ S ++ Q.map Prod.snd)) ∧
      l'.size = l.size + S.length ∧
      (l.m_head :: P.map Prod.fst).getLast? = some ret.it ∧
      h.prevOf pos.it = some ret.it ∧ (P = [] → ret.it = l.m_head) := by
  obtain ⟨q, hq⟩ := exists_getLast l.m_head (P.map Prod.fst)
  have hl := hr.1
  rw [List.map_append] at hl
  obtain ⟨-, hprev, -, -⟩ := Linked.at_split hl hq hpos
  obtain ⟨l2, h2, new, e2, hS, -, -, hsz, s2⟩ := Step.step_insert_each S hr hpos
  have hposeq : (⟨pos.it⟩ : iterator) = pos := rfl
  rw [hposeq] at e2
  have hlen : new.length = S.length := Rep.length_eq_of_map hS
  refine ⟨⟨q⟩, l2, h2, new, ?_, ?_, hS, s2.1, fun k => ?_, ?_, hq, hprev, ?_⟩
  · simp [list.insert_range, iterator.postdec, hprev, e2]
  · simp [list.insert_ilist, iterator.postdec, hprev, e2]
  · have := s2.1.rep_traverse ((P ++ Q).length + S.length + 1 + k)
      (by simp only [List.length_append] at *; omega)
    rw [this]
    simp [hS]
  · simp [list.size, hsz]
  · rintro rfl
    simpa using hq.symm

/-- Witness of C16 on the list `{1, 2}` of `heap_12`, inserting `{8, 9}` before the node of
`2`. -/
theorem C16_insert_range_witness :
    ∃ ret l' h' new, list_12.insert_range ⟨4⟩ [(8 : Int), 9] heap_12 = some (ret, l', h') ∧
      new.map Prod.snd = [8, 9] ∧ Rep h' l' ([(3, 1)] ++ new ++ [(4, 2)]) ∧ ret.it = 3 := by
  obtain ⟨ret, l', h', new, e, -, hS, r, -, -, hret, -⟩ :=
    C16_insert_range heap_12 list_12 [(3, 1)] [(4, 2)] ⟨4⟩ [8, 9] (by decide) (by decide)
  exact ⟨ret, l', h', new, e, hS, r, (Option.some.inj hret).symm⟩

end claim16

/-! ### C17: the range constructor and the initializer-list constructor -/

section claim17
variable {α : Type}
open Heap

theorem list.ctor_range_eq [Inhabited α] (S : List α) (h : Heap α) :
    list.ctor_range S h = (list.ctor h).bind fun s => s.1.push_back_each S s.2 := by
  simp only [list.ctor_range, list.ctor, Option.bind_eq_bind, Option.pure_def]
  cases ((h.alloc ⟨default, nullptr, nullptr⟩).2.alloc ⟨default, nullptr, nullptr⟩).2.setNext
      (h.alloc ⟨default, nullptr, nullptr⟩).1
      ((h.alloc ⟨default, nullptr, nullptr⟩).2.alloc ⟨default, nullptr, nullptr⟩).1 with
  | none => rfl
  | some h3 =>
    simp only [Option.some_bind]
    cases h3.setPrev ((h.alloc ⟨default, nullptr, nullptr⟩).2.alloc ⟨default, nullptr, nullptr⟩).1
        (h.alloc ⟨default, nullptr, nullptr⟩).1 with
    | none => rfl
    | some h4 => rfl

theorem list.ctor_ilist_eq [Inhabited α] (S : List α) (h : Heap α) :
    list.ctor_ilist S h = (list.ctor h).bind fun s => s.1.push_back_each S s.2 := by
  simp only [list.ctor_ilist, list.ctor, Option.bind_eq_bind, Option.pure_def]
  cases ((h.alloc ⟨default, nullptr, nullptr⟩).2.alloc ⟨default, nullptr, nullptr⟩).2.setNext
      (h.alloc ⟨default, nullptr, nullptr⟩).1
      ((h.alloc ⟨default, nullptr, nullptr⟩).2.alloc ⟨default, nullptr, nullptr⟩).1 with
  | none => rfl
  | some h3 =>
    simp only [Option.some_bind]
    cases h3.setPrev ((h.alloc ⟨default, nullptr, nullptr⟩).2.alloc ⟨default, nullptr, nullptr⟩).1
        (h.alloc ⟨default, nullptr, nullptr⟩).1 with
    | none => rfl
    | some h4 => rfl

/-- C17: for every heap and every sequence of values `S`, the constructors `list(first, last)`
over a range with the values `S` and `list(ilist)` return a well-formed list whose forward
iteration yields `S` in order and whose `size()` is the length of `S`; for an empty `S` the list
is empty, with the two sentinels linked to each other. -/
theorem C17_range_construction [Inhabited α] (h0 : Heap α) (S : List α) :
    ∃ l h ns, list.ctor_range S h0 = some (l, h) ∧ list.ctor_ilist S h0 = some (l, h) ∧
      Rep h l ns ∧ WellFormed h l ∧ ns.map Prod.snd = S ∧
      (∀ k : Nat, l.traverse (S.length + 1 + k) h = some S) ∧ l.size = S.length ∧
      (S = [] → l.empty h = some true ∧ h.nextOf l.m_head = some l.m_tail ∧
        h.prevOf l.m_tail = some l.m_head) := by
  obtain ⟨h1, e1, -, r1, -⟩ := Rep.ctor h0
  obtain ⟨l2, h2, ns2, e2, r2, hS, -⟩ := r1.push_back_each S
  simp only [List.nil_append] at r2
  have hlen : ns2.length = S.length := Rep.length_eq_of_map hS
  refine ⟨l2, h2, ns2, ?_, ?_, r2, ⟨ns2, r2⟩, hS, fun k => ?_, ?_, ?_⟩
  · rw [list.ctor_range_eq, e1]; simpa using e2
  · rw [list.ctor_ilist_eq, e1]; simpa using e2
  · have := r2.rep_traverse (S.length + 1 + k) (by omega)
    rw [this, hS]
  · simp [list.size, r2.2.2, hlen]
  · rintro rfl
    have hnil : ns2 = [] := by simpa using hS
    subst hnil
    have hn := r2.1.head_next_eq_tail_iff.mpr rfl
    have hp := r2.1.tail_prev
    exact ⟨by rw [r2.rep_empty]; rfl, hn, by simpa using hp⟩

end claim17

/-! ### C18: the structural invariant -/

section claim18
variable {α : Type}
open Heap

theorem chain_imp_dropLast {R S : Nat → Nat → Prop} :
    ∀ {cs : List Nat}, cs.Chain' R → (∀ a ∈ cs.dropLast, ∀ b, R a b → S a b) → cs.Chain' S
  | [], _, _ => List.chain'_nil
  | [_], _, _ => List.chain'_singleton _
  | a :: b :: rest, hc, himp => by
    rw [List.chain'_cons] at hc ⊢
    refine ⟨himp a (by simp) b hc.1, chain_imp_dropLast hc.2 ?_⟩
    intro x hx y hxy
    exact himp x (by simp [List.dropLast, hx]) y hxy

theorem chain_has_pred {R : Nat → Nat → Prop} :
    ∀ {L : List Nat} {y : Nat}, (y :: L).Chain' R → ∀ w ∈ L, ∃ z ∈ y :: L, R z w
  | [], _, _, w, hw => by simp at hw
  | w' :: L', y, hc, w, hw => by
    rw [List.chain'_cons] at hc
    rcases List.mem_cons.mp hw with rfl | hw
    · exact ⟨y, by simp, hc.1⟩
    · obtain ⟨z, hz, hzw⟩ := chain_has_pred hc.2 w hw
      exact ⟨z, List.mem_cons_of_mem _ hz, hzw⟩

theorem nodup_of_link_chain {h : Heap α} :
    ∀ {L : List Nat} {x : Nat}, (x :: L).Chain' (Link h) → x ∉ L → (x :: L).Nodup
  | [], _, _, _ => by simp
  | y :: L', x, hc, hx => by
    rw [List.chain'_cons] at hc
    refine List.nodup_cons.mpr ⟨hx, nodup_of_link_chain hc.2 ?_⟩
    intro hy
    obtain ⟨z, hz, hzy⟩ := chain_has_pred hc.2 y hy
    have hzx : z = x := by
      have h1 := hzy.2
      have h2 := hc.1.2
      rw [h1] at h2
      exact Option.some.inj h2
    exact hx (hzx ▸ hz)

theorem exists_values {h : Heap α} :
    ∀ (ps : List Nat), (∀ p ∈ ps, h.Live p) →
      ∃ ns : List (Nat × α), ns.map Prod.fst = ps ∧ ∀ e ∈ ns, h.dataOf e.1 = some e.2
  | [], _ => ⟨[], rfl, by simp⟩
  | p :: ps, hl => by
    obtain ⟨ns, hns, hd⟩ := exists_values ps (fun q hq => hl q (List.mem_cons_of_mem _ hq))
    have hp : h.Live p := hl p (by simp)
    obtain ⟨n, hn⟩ := Option.isSome_iff_exists.mp hp
    refine ⟨(p, n.data) :: ns, by simp [hns], ?_⟩
    intro e he
    rcases List.mem_cons.mp he with rfl | he
    · simp [dataOf, hn]
    · exact hd e he

theorem WellLinked.wellFormed {h : Heap α} {l : list} (hw : WellLinked h l) :
    WellFormed h l := by
  obtain ⟨hne, ps, hlen, hhead, htail, hchain, hlive, hh, ht⟩ := hw
  have hlink : (cells l ps).Chain' (Link h) := by
    refine chain_imp_dropLast hchain ?_
    intro a ha b hab
    refine ⟨hab, ?_⟩
    have ha' : a = l.m_head ∨ a ∈ ps := by
      have : (cells l ps).dropLast = l.m_head :: ps := by
        unfold cells
        rw [← List.cons_append, List.dropLast_concat]
      rw [this] at ha
      simpa using ha
    rcases ha' with rfl | ha'
    · obtain ⟨q, hq1, hq2⟩ := hh
      rw [hab] at hq1
      cases hq1
      exact hq2
    · obtain ⟨q, hq1, hq2⟩ := (hlive a ha').2
      rw [hab] at hq1
      cases hq1
      exact hq2
  have hnd : (cells l ps).Nodup := by
    refine nodup_of_link_chain hlink ?_
    simp only [List.mem_append, List.mem_singleton, not_or]
    exact ⟨hhead, hne⟩
  have hl : Linked h l ps := ⟨hnd, hlink⟩
  obtain ⟨ns, hns, hd⟩ := exists_values ps
    (fun p hp => hl.live p (by simp [cells, hp]))
  refine ⟨ns, ⟨by rw [hns]; exact hl, hd, ?_⟩⟩
  rw [← hlen, ← hns, List.length_map]

theorem Rep.wellLinked {h : Heap α} {l : list} {ns : List (Nat × α)} (hr : Rep h l ns) :
    WellLinked h l := by
  refine ⟨hr.head_ne_tail, ns.map Prod.fst, by simp [hr.2.2], ?_, ?_, ?_, ?_, ?_, ?_⟩
  · intro hm
    obtain ⟨e, he, heq⟩ := List.mem_map.mp hm
    exact hr.ne_head e he heq
  · intro hm
    obtain ⟨e, he, heq⟩ := List.mem_map.mp hm
    exact hr.ne_tail e he heq
  · exact hr.1.2.imp (fun a b hab => hab.1)
  · intro n hn
    obtain ⟨P, Q, a, rfl⟩ := split_at_node hn
    obtain ⟨q, hq⟩ := exists_getLast l.m_head (P.map Prod.fst)
    obtain ⟨r, hrr⟩ := exists_head (Q.map Prod.fst) l.m_tail
    have hl := hr.1
    rw [List.map_append, List.map_cons] at hl
    have hp1 : ((n :: Q.map Prod.fst) ++ [l.m_tail]).head? = some n := rfl
    have h1 := Linked.at_split hl hq hp1
    have hl2 : Linked h l ((P.map Prod.fst ++ [n]) ++ Q.map Prod.fst) := by simpa using hl
    have hp2 : (l.m_head :: (P.map Prod.fst ++ [n])).getLast? = some n := by
      rw [← List.cons_append, List.getLast?_concat]
    have h2 := Linked.at_split hl2 hp2 hrr
    exact ⟨⟨q, h1.2.1, h1.1⟩, ⟨r, h2.1, h2.2.1⟩⟩
  · obtain ⟨p, hp⟩ := exists_head (ns.map Prod.fst) l.m_tail
    have hq : (l.m_head :: ([] : List Nat)).getLast? = some l.m_head := rfl
    have hl : Linked h l ([] ++ ns.map Prod.fst) := by simpa using hr.1
    have := Linked.at_split hl hq hp
    exact ⟨p, this.1, this.2.1⟩
  · obtain ⟨q, hq⟩ := exists_getLast l.m_head (ns.map Prod.fst)
    have hp : (([] : List Nat) ++ [l.m_tail]).head? = some l.m_tail := rfl
    have hl : Linked h l (ns.map Prod.fst ++ []) := by simpa using hr.1
    have := Linked.at_split hl hq hp
    exact ⟨q, this.2.1, this.1⟩

/-- C18: a state is well-linked (the well-formedness of the claim) exactly when it is
well-formed in the sense used throughout (distinct chain cells linked both ways, `m_size` live
nodes with readable values).  The default constructor returns a well-linked list, and from a
well-linked state every mutator call whose positions are positions of the list
(`push_front`, `push_back`, `pop_front`, `pop_back`, `clear`, the four `assign`, the three
`insert`, `erase(pos)`) returns, given fuel for its loop, and every call that returns leaves a
well-linked state. -/
theorem C18_invariant [Inhabited α] :
    (∀ (h : Heap α) (l : list), WellLinked h l ↔ WellFormed h l) ∧
    (∀ h0 : Heap α, ∃ l h, list.ctor h0 = some (l, h) ∧ WellLinked h l) ∧
    (∀ (h : Heap α) (l : list), WellLinked h l → ∃ ns : List (Nat × α), Rep h l ns ∧
      ∀ m : Mutation α, m.valid l (ns.map Prod.fst) → ∀ fuel : Nat,
        ((∀ f t, m ≠ Mutation.erase_range f t) → ns.length < fuel →
          (m.run fuel l h).isSome) ∧
        ∀ l' h', m.run fuel l h = some (l', h') → WellLinked h' l') := by
  refine ⟨fun h l => ⟨fun hw => hw.wellFormed, fun ⟨ns, hr⟩ => hr.wellLinked⟩, ?_, ?_⟩
  · intro h0
    obtain ⟨h1, e1, -, r1, -⟩ := Rep.ctor h0
    exact ⟨_, h1, e1, r1.wellLinked⟩
  · intro h l hw
    obtain ⟨ns, hr⟩ := hw.wellFormed
    refine ⟨ns, hr, fun m hv fuel => ⟨fun hm hf => Mutation.runs hr m hv hm fuel hf, ?_⟩⟩
    intro l' h' hrun
    obtain ⟨cs', s⟩ := Mutation.step hr m hv fuel (l', h') hrun
    exact s.1.wellLinked

end claim18

/-! ### C19: self-assignment -/

section claim19
variable {α : Type}
open Heap

/-- C19: on a well-formed list `x` with nodes `ns`, the copy assignment `x = x` returns (given
fuel for the loop of `clear()` and one unit for the copy loop) and leaves `x` empty:
`size() == 0`, the two sentinels linked to each other, every former live node freed.  The
target is cleared first, so the copy loop starts at `m_head->next == m_tail` and copies
nothing. -/
theorem C19_self_assignment (h : Heap α) (x : list) (ns : List (Nat × α))
    (hr : Rep h x ns) :
    ∃ x' h', (∀ f1 f2, ns.length < f1 → 0 < f2 →
        x.operator_assign x f1 f2 h = some (x', h')) ∧
      x'.m_head = x.m_head ∧ x'.m_tail = x.m_tail ∧ x'.size = 0 ∧ Rep h' x' [] ∧
      h'.nextOf x.m_head = some x.m_tail ∧ h'.prevOf x.m_tail = some x.m_head ∧
      x'.empty h' = some true ∧ (∀ k : Nat, x'.traverse (1 + k) h' = some []) ∧
      (∀ e ∈ ns, ¬ h'.Live e.1) := by
  obtain ⟨h', r, -, -, hc⟩ := hr.clear
  have hn := r.1.head_next_eq_tail_iff.mpr rfl
  have hp := r.1.tail_prev
  have hrun : x.clear (ns.length + 1) h = some ({ x with m_size := 0 }, h') := by
    rw [hc, if_pos (Nat.lt_succ_self _)]
  refine ⟨{ x with m_size := 0 }, h', ?_, rfl, rfl, rfl, r, hn, by simpa using hp, ?_,
    fun k => ?_, hr.clear_freed hrun⟩
  · intro f1 f2 hf1 hf2
    obtain ⟨n, rfl⟩ : ∃ n, f2 = n + 1 := ⟨f2 - 1, by omega⟩
    have hn' : h'.nextOf x.m_head = some x.m_tail := hn
    simp [list.operator_assign, hc, hf1, hn', list.copy_loop]
  · rw [r.rep_empty]; rfl
  · have := r.rep_traverse (1 + k) (by simp)
    simpa using this

/-- Witness of C19 on the list `{1, 2}` of `heap_12`: after `x = x` the list is empty. -/
theorem C19_self_assignment_witness :
    ∃ x' h', (∀ f1 f2, [((3 : Nat), (1 : Int)), (4, 2)].length < f1 → 0 < f2 →
        list_12.operator_assign list_12 f1 f2 heap_12 = some (x', h')) ∧
      x'.size = 0 ∧ x'.empty h' = some true := by
  obtain ⟨x', h', hrun, -, -, hs, -, -, -, he, -⟩ :=
    C19_self_assignment heap_12 list_12 [(3, 1), (4, 2)] (by decide)
  exact ⟨x', h', hrun, hs, he⟩

end claim19

/-! ### C20: the handle returned by `insert` -/

section claim20
variable {α : Type}
open Heap

/-- C20: on a well-formed list with nodes `P ++ Q` and `pos` at the first node of `Q` (or
`end()`), also when `pos == begin()` and the handle returned by `insert(pos, v)` is the head
sentinel: incrementing the returned handle once gives the newly allocated node, whose value is
`v`, and incrementing once more gives a handle equal to `pos`. -/
theorem C20_insert_handle (h : Heap α) (l : list) (P Q : List (Nat × α)) (pos : iterator)
    (v : α) (hr : Rep h l (P ++ Q))
    (hpos : (Q.map Prod.fst ++ [l.m_tail]).head? = some pos.it) :
    ∃ ret l' h' n1 n2, l.insert pos v h = some (ret, l', h') ∧
      ret.preinc h' = some (n1, n1) ∧ ret.postinc h' = some (ret, n1) ∧
      ¬ h.Live n1.it ∧ h'.Live n1.it ∧ n1.deref h' = some v ∧
      n1.preinc h' = some (n2, n2) ∧ n1.postinc h' = some (n1, n2) ∧
      n2 = pos ∧ n2.eq pos = true ∧
      (P = [] → l.begin h = some pos ∧ ret.it = l.m_head) := by
  obtain ⟨q, hq⟩ := exists_getLast l.m_head (P.map Prod.fst)
  obtain ⟨h1, e1, len1, r1, -⟩ := hr.insert v hq hpos
  have hposeq : (⟨pos.it⟩ : iterator) = pos := rfl
  rw [hposeq] at e1
  have hl1 := r1.1
  rw [List.map_append, List.map_cons] at hl1
  obtain ⟨-, hnt, -, -, hlt⟩ := Linked.at_node hl1 hq hpos
  have hnxt : h1.nextOf q = some (h.length + 1) :=
    (Linked.at_split hl1 hq (by simp)).1
  have hd : h1.dataOf (h.length + 1) = some v := r1.2.1 (h.length + 1, v) (by simp)
  refine ⟨⟨q⟩, _, h1, ⟨h.length + 1⟩, pos, e1, ?_, ?_, not_live_succ_length h, hlt, hd, ?_, ?_,
    rfl, by simp [iterator.eq], ?_⟩
  · simp [iterator.preinc, hnxt]
  · simp [iterator.postinc, hnxt]
  · simp [iterator.preinc, hnt]
  · simp [iterator.postinc, hnt]
  · rintro rfl
    have hn := hr.rep_head_next
    simp only [List.nil_append] at hn
    rw [hpos] at hn
    refine ⟨by simp [list.begin, hn], ?_⟩
    simpa using hq.symm

/-- Witness of C20 on the list `{1, 2}` of `heap_12` with `pos == begin()`: the returned handle
is the head sentinel, one increment gives the new node holding `9`, one more gives `pos`. -/
theorem C20_insert_handle_witness :
    ∃ ret l' h' n1 n2, list_12.insert ⟨3⟩ (9 : Int) heap_12 = some (ret, l', h') ∧
      ret.preinc h' = some (n1, n1) ∧ n1.deref h' = some 9 ∧
      n1.preinc h' = some (n2, n2) ∧ n2 = ⟨3⟩ ∧ ret.it = list_12.m_head := by
  obtain ⟨ret, l', h', n1, n2, e, hp1, -, -, -, hd, hp2, -, hn2, -, hb⟩ :=
    C20_insert_handle heap_12 list_12 [] [(3, 1), (4, 2)] ⟨3⟩ 9 (by decide) (by decide)
  exact ⟨ret, l', h', n1, n2, e, hp1, hd, hp2, hn2, (hb rfl).2⟩

end claim20

/-! ### C21: `push`/`pop` against `insert`/`erase` at the two ends -/

section claim21
variable {α : Type}
open Heap

/-- Two heaps of the same size with the same three fields at every address are equal. -/
theorem heap_ext_fields {h h' : Heap α} (hl : h.length = h'.length)
    (hn : ∀ p, h.nextOf p = h'.nextOf p) (hp : ∀ p, h.prevOf p = h'.prevOf p)
    (hd : ∀ p, h.dataOf p = h'.dataOf p) : h = h' := by
  have hread : ∀ p, h.read p = h'.read p := by
    intro p
    have a := hn p
    have b := hp p
    have c := hd p
    simp only [nextOf, prevOf, dataOf] at a b c
    cases e : h.read p with
    | none =>
      cases e' : h'.read p with
      | none => rfl
      | some n' => rw [e, e'] at a; simp at a
    | some n =>
      cases e' : h'.read p with
      | none => rw [e, e'] at a; simp at a
      | some n' =>
        rw [e, e'] at a b c
        simp only [Option.map_some', Option.some.injEq] at a b c
        cases n; cases n'
        simp_all
  apply List.ext_getElem?
  intro i
  by_cases hi : i < h.length
  · have hi' : i < h'.length := hl ▸ hi
    have := hread (i + 1)
    simp only [Heap.read] at this
    rw [List.getElem?_eq_getElem hi, List.getElem?_eq_getElem hi'] at this ⊢
    simpa using this
  · have hi' : ¬ i < h'.length := hl ▸ hi
    rw [List.getElem?_eq_none (by omega), List.getElem?_eq_none (by omega)]

/-- C21: on a well-formed list with nodes `ns`, `push_front(v)` and `insert(begin(), v)` return
the same list object and the same heap (so the same nodes, links, values and size), and so do
`push_back(v)` and `insert(end(), v)`; when the list is not empty, `pop_front()` and
`erase(begin())` return the same list object and heap, and so do `pop_back()` and
`erase(--end())`. -/
theorem C21_push_pop_as_insert_erase (h : Heap α) (l : list) (ns : List (Nat × α))
    (hr : Rep h l ns) :
    (∀ v : α, ∃ l' h', l.push_front v h = some (l', h') ∧
      insert_at_begin l v h = some (l', h') ∧
      Rep h' l' ((h.length + 1, v) :: ns) ∧ l'.size = l.size + 1) ∧
    (∀ v : α, ∃ l' h', l.push_back v h = some (l', h') ∧
      insert_at_end l v h = some (l', h') ∧
      Rep h' l' (ns ++ [(h.length + 1, v)]) ∧ l'.size = l.size + 1) ∧
    (ns ≠ [] → ∃ l' h', l.pop_front h = some (l', h') ∧
      erase_at_begin l h = some (l', h') ∧ Rep h' l' ns.tail ∧ l'.size = l.size - 1) ∧
    (ns ≠ [] → ∃ l' h', l.pop_back h = some (l', h') ∧
      erase_before_end l h = some (l', h') ∧ Rep h' l' ns.dropLast ∧
      l'.size = l.size - 1) := by
  refine ⟨fun v => ?_, fun v => ?_, fun hne => ?_, fun hne => ?_⟩
  · obtain ⟨p, hp⟩ := exists_head (ns.map Prod.fst) l.m_tail
    have hl : Linked h l ([] ++ ns.map Prod.fst) := by simpa using hr.1
    have hq0 : (l.m_head :: ([] : List Nat)).getLast? = some l.m_head := rfl
    obtain ⟨hn, hpv, hlq, hlp⟩ := Linked.at_split hl hq0 hp
    obtain ⟨h1, e1, -, r1, -⟩ := hr.push_front v
    obtain ⟨h1', e1', len1, n1, p1, d1⟩ := list.push_front_spec l v hn hlp
    obtain ⟨h2, e2, len2, n2, p2, d2⟩ := list.insert_spec l ⟨p⟩ v hpv hlq
    have h11 : h1' = h1 := by
      rw [e1] at e1'
      simpa using e1'.symm
    subst h11
    have heq : h2 = h1' := heap_ext_fields (by rw [len1, len2])
      (fun x => by rw [n1, n2]) (fun x => by rw [p1, p2]) (fun x => by rw [d1, d2])
    subst heq
    exact ⟨_, h2, e1, by simp [insert_at_begin, list.begin, hn, e2], r1, rfl⟩
  · obtain ⟨q, hq⟩ := exists_getLast l.m_head (ns.map Prod.fst)
    have hl : Linked h l (ns.map Prod.fst ++ []) := by simpa using hr.1
    have hp0 : (([] : List Nat) ++ [l.m_tail]).head? = some l.m_tail := rfl
    obtain ⟨-, hpv, hlq, -⟩ := Linked.at_split hl hq hp0
    obtain ⟨h1, e1, -, r1, -⟩ := hr.push_back v
    obtain ⟨h1', e1', len1, n1, p1, d1⟩ := list.push_back_spec l v hpv hlq
    obtain ⟨h2, e2, len2, n2, p2, d2⟩ := list.insert_spec l l.end v hpv hlq
    have h11 : h1' = h1 := by
      rw [e1] at e1'
      simpa using e1'.symm
    subst h11
    have heq : h2 = h1' := heap_ext_fields (by rw [len1, len2])
      (fun x => by rw [n1, n2]; rfl) (fun x => by rw [p1, p2]; rfl) (fun x => by rw [d1, d2])
    subst heq
    exact ⟨_, h2, e1, by simp [insert_at_end, e2], r1, rfl⟩
  · obtain ⟨⟨p, a⟩, Q, rfl⟩ := List.exists_cons_of_ne_nil hne
    obtain ⟨r, hrr⟩ := exists_head (Q.map Prod.fst) l.m_tail
    have hl : Linked h l ([] ++ p :: Q.map Prod.fst) := by simpa using hr.1
    have hq0 : (l.m_head :: ([] : List Nat)).getLast? = some l.m_head := rfl
    obtain ⟨hpv, hnx, hlq, hlr, -⟩ := Linked.at_node hl hq0 hrr
    have hn : h.nextOf l.m_head = some p := by rw [hr.rep_head_next]; rfl
    obtain ⟨h1, e1, -, r1, -⟩ := hr.pop_front
    obtain ⟨h1', e1', len1, n1, p1, d1⟩ := list.pop_front_spec l hn (hr.ne_tail (p, a) (by simp)) hnx hlr
    obtain ⟨h2, e2, len2, n2, p2, d2⟩ := list.erase_spec l ⟨p⟩ hpv hnx hlq hlr
    have h11 : h1' = h1 := by
      rw [e1] at e1'
      simpa using e1'.symm
    subst h11
    have heq : h2 = h1' := heap_ext_fields (by rw [len1, len2])
      (fun x => by rw [n1, n2]) (fun x => by rw [p1, p2]) (fun x => by rw [d1, d2])
    subst heq
    exact ⟨_, h2, e1, by simp [erase_at_begin, list.begin, hn, e2], r1, rfl⟩
  · obtain ⟨P, ⟨p, a⟩, rfl⟩ : ∃ P e, ns = P ++ [e] :=
      ⟨ns.dropLast, ns.getLast hne, (List.dropLast_append_getLast hne).symm⟩
    obtain ⟨q, hq⟩ := exists_getLast l.m_head (P.map Prod.fst)
    have hl : Linked h l (P.map Prod.fst ++ p :: []) := by simpa using hr.1
    have hp0 : (([] : List Nat) ++ [l.m_tail]).head? = some l.m_tail := rfl
    obtain ⟨hpv, hnx, hlq, hlr, -⟩ := Linked.at_node hl hq hp0
    have htp : h.prevOf l.m_tail = some p := by
      rw [hr.rep_tail_prev, List.map_append]
      exact List.getLast?_concat (l.m_head :: P.map Prod.fst)
    obtain ⟨hn0, hhn0⟩ : ∃ x, h.nextOf l.m_head = some x ∧ x ≠ l.m_tail := by
      rw [hr.rep_head_next]
      cases P with
      | nil => exact ⟨p, by simp, hr.ne_tail (p, a) (by simp)⟩
      | cons e P' => exact ⟨e.1, by simp, hr.ne_tail e (by simp)⟩
    obtain ⟨h1, e1, -, r1, -⟩ := hr.pop_back
    obtain ⟨h1', e1', len1, n1, p1, d1⟩ := list.pop_back_spec l hhn0.1 hhn0.2 htp hpv hlq
    obtain ⟨h2, e2, len2, n2, p2, d2⟩ := list.erase_spec l ⟨p⟩ hpv hnx hlq hlr
    have h11 : h1' = h1 := by
      rw [e1] at e1'
      simpa using e1'.symm
    subst h11
    have heq : h2 = h1' := heap_ext_fields (by rw [len1, len2])
      (fun x => by rw [n1, n2]) (fun x => by rw [p1, p2]) (fun x => by rw [d1, d2])
    subst heq
    refine ⟨_, h2, e1, by simp [erase_before_end, list.end, iterator.predec, htp, e2], ?_, rfl⟩
    simpa using r1

/-- Witness of C21 on the list `{1, 2}` of `heap_12`. -/
theorem C21_push_pop_as_insert_erase_witness :
    (∀ v : Int, ∃ l' h', list_12.push_front v heap_12 = some (l', h') ∧
      insert_at_begin list_12 v heap_12 = some (l', h')) ∧
    (∀ v : Int, ∃ l' h', list_12.push_back v heap_12 = some (l', h') ∧
      insert_at_end list_12 v heap_12 = some (l', h')) ∧
    (∃ l' h', list_12.pop_front heap_12 = some (l', h') ∧
      erase_at_begin list_12 heap_12 = some (l', h')) ∧
    (∃ l' h', list_12.pop_back heap_12 = some (l', h') ∧
      erase_before_end list_12 heap_12 = some (l', h')) := by
  obtain ⟨a, b, c, d⟩ :=
    C21_push_pop_as_insert_erase heap_12 list_12 [(3, 1), (4, 2)] (by decide)
  refine ⟨fun v => ?_, fun v => ?_, ?_, ?_⟩
  · obtain ⟨l', h', e1, e2, -⟩ := a v
    exact ⟨l', h', e1, e2⟩
  · obtain ⟨l', h', e1, e2, -⟩ := b v
    exact ⟨l', h', e1, e2⟩
  · obtain ⟨l', h', e1, e2, -⟩ := c (by simp)
    exact ⟨l', h', e1, e2⟩
  · obtain ⟨l', h', e1, e2, -⟩ := d (by simp)
    exact ⟨l', h', e1, e2⟩

end claim21

end sc
